import Mathlib

/-!
# An explicit-free-list allocator (`mm.c`)

A shallow embedding of `src/mm.c`: the allocator state is threaded explicitly,
heap memory is a map from byte addresses to bytes, words are the four bytes at
an address read little-endian, `size_t` and `unsigned int` are 32 bits wide.

Conventions of the embedding:

* Addresses are natural numbers.  Pointer arithmetic is plain addition and
  (truncated) subtraction; every heap address of a run stays below `2^32`.
* `size_t` arithmetic that can overflow on caller-supplied values is reduced
  modulo `2^32`; the `(int)` casts of `place` and `mm_realloc` are `toInt`, and
  the signed subtraction `(int)x - (int)y` wraps around like the machine
  instruction (`isub`).
* Loops that follow links stored in memory (`find_fit`) carry a fuel bound, the
  number of bytes of the heap; `none` stands for a scan that does not end.
* The `static` variable `four` of `mm_malloc` is a field of the state.  The
  other `static`, `extendword`, is assigned on every path before it is read, so
  it is a local of the embedding.

The development has three parts.  A well-formed heap is described by a list of
blocks and a list of free-list nodes (`Inv`); `mm_init` establishes it, and
`mm_malloc` (requests below `2^31`), `mm_free` and stores inside the payload of
an allocated block keep it (`Inv_kept`), with exact accounts of `coalesce`, `place`, `extend_heap`, `find_fit` and of the two
merging paths of `mm_realloc`.  The observers `heap_blocks`, `free_nodes` and
`free_capacity` compute what a heap scan and a free-list walk see.  Call
sequences on a concrete heap (`heap0`, an area of 64 KiB at address 4096) are
evaluated by the kernel; where a sequence has the application write into a
payload it holds, the write is `store`.
-/

namespace MM

/-! ## Constants and macros -/

def WSIZE : Nat := 4
def ALIGNMENT : Nat := 8
def CHUNKSIZE : Nat := 4096
def MINBLOCKSIZE : Nat := 16

/-- Width of `size_t`, `unsigned int` and of a pointer: 32 bits. -/
def WORD : Nat := 4294967296

def MAX (x y : Nat) : Nat := if x > y then x else y

/-- The macro `PACK(size, alloc)`, a bitwise or. -/
def PACK (size alloc : Nat) : Nat := size ||| alloc

/-- The cast `(int)x` of a 32-bit unsigned value. -/
def toInt (x : Nat) : Int := if x % WORD < 2147483648 then (x % WORD : Nat) else (x % WORD : Nat) - (WORD : Int)

/-- The expression `(int)x - (int)y` on 32-bit values, with two's complement wrap-around. -/
def isub (x y : Nat) : Int := toInt (x % WORD + WORD - y % WORD)

/-- Heap memory: the byte stored at each address (only the low 8 bits count). -/
abbrev Mem := Nat → Nat

/-- One byte of memory. -/
def rd (m : Mem) (a : Nat) : Nat := m a % 256

/-- Store one byte. -/
def wr (m : Mem) (a v : Nat) : Mem := fun x => if x = a then v % 256 else m x

/-- The macro `GET(p)`: the 32-bit word at `p`, little-endian. -/
def GET (m : Mem) (p : Nat) : Nat :=
  rd m p + 256 * rd m (p + 1) + 65536 * rd m (p + 2) + 16777216 * rd m (p + 3)

/-- The macro `PUT(p, val)`: store the low 32 bits of `val` at `p`. -/
def PUT (m : Mem) (p v : Nat) : Mem :=
  wr (wr (wr (wr m p v) (p + 1) (v / 256)) (p + 2) (v / 65536)) (p + 3) (v / 16777216)

/-- The macro `GET_SIZE(p)`, that is `GET(p) & ~0x7`. -/
def GET_SIZE (m : Mem) (p : Nat) : Nat := GET m p &&& 0xFFFFFFF8

/-- The macro `GET_ALLOC(p)`, that is `GET(p) & 0x1`. -/
def GET_ALLOC (m : Mem) (p : Nat) : Nat := GET m p &&& 1

def HDRP (bp : Nat) : Nat := bp - WSIZE
def FTRP (m : Mem) (bp : Nat) : Nat := bp + GET_SIZE m (HDRP bp) - ALIGNMENT
def NEXT_BLKP (m : Mem) (bp : Nat) : Nat := bp + GET_SIZE m (HDRP bp)
def PREV_BLKP (m : Mem) (bp : Nat) : Nat := bp - GET_SIZE m (bp - ALIGNMENT)

/-- The macro `NEXT_FREE(bp)` read as a value. -/
def NEXT_FREE (m : Mem) (bp : Nat) : Nat := GET m bp
/-- The macro `PREV_FREE(bp)` read as a value. -/
def PREV_FREE (m : Mem) (bp : Nat) : Nat := GET m (bp + WSIZE)

/-- The library routine `memcpy(dst, src, n)`, copying bytes from low to high addresses. -/
def memcpy (m : Mem) (dst src : Nat) : Nat → Mem
  | 0 => m
  | n + 1 => memcpy (wr m dst (rd m src)) (dst + 1) (src + 1) n

/-! ## Allocator state -/

/-- The globals of `mm.c` together with the heap owned by `memlib`. -/
structure State where
  /-- heap bytes -/
  mem : Mem
  /-- first byte of the heap area (`mem_heap_lo`) -/
  lo : Nat
  /-- current end of the heap (`mem_brk`) -/
  brk : Nat
  /-- end of the area the heap may grow into (`mem_max_addr`) -/
  hi : Nat
  /-- global `heap_listp` -/
  heap_listp : Nat
  /-- global `free_listp`, head of the free list -/
  free_listp : Nat
  /-- `static size_t four` of `mm_malloc` -/
  four : Nat

/-- Modelled from the spec: `mem_sbrk` of `memlib` (not under `src/`), the heap-extension
collaborator `grow(delta_bytes)`.  It returns the previous end of the heap and moves the end
up by `incr`, or fails (`none`, the sentinel `(void *)-1`) when the area cannot hold `incr`
more bytes. -/
def mem_sbrk (s : State) (incr : Nat) : Option (State × Nat) :=
  if s.brk + incr ≤ s.hi then some ({ s with brk := s.brk + incr }, s.brk) else none

/-! ## The free list -/

def add_free (s : State) (bp : Nat) : State :=
  let m := PUT s.mem bp s.free_listp                  -- NEXT_FREE(bp) = free_listp
  let m := PUT m (s.free_listp + WSIZE) bp            -- PREV_FREE(free_listp) = bp
  let m := PUT m (bp + WSIZE) 0                       -- PREV_FREE(bp) = NULL
  { s with mem := m, free_listp := bp }

def remove_from_free (s : State) (bp : Nat) : State :=
  let s1 : State :=
    if PREV_FREE s.mem bp ≠ 0 then
      { s with mem := PUT s.mem (PREV_FREE s.mem bp) (NEXT_FREE s.mem bp) }
    else
      { s with free_listp := NEXT_FREE s.mem bp }
  { s1 with mem := PUT s1.mem (NEXT_FREE s1.mem bp + WSIZE) (PREV_FREE s1.mem bp) }

/-- The loop of `find_fit`; `0` is `NULL`, `none` is a scan that outlives its fuel. -/
def find_fit_loop (m : Mem) (asize : Nat) : Nat → Nat → Option Nat
  | 0, _ => none
  | fuel + 1, bp =>
    if GET_ALLOC m (HDRP bp) = 0 then
      if asize ≤ GET_SIZE m (HDRP bp) then some bp
      else find_fit_loop m asize fuel (NEXT_FREE m bp)
    else some 0

def find_fit (s : State) (asize : Nat) : Option Nat :=
  find_fit_loop s.mem asize (s.brk - s.lo) s.free_listp

/-! ## Coalescing, placement, extension -/

def coalesce (s : State) (bp : Nat) : State × Nat :=
  let prev_alloc := GET_ALLOC s.mem (FTRP s.mem (PREV_BLKP s.mem bp))
  let next_alloc := GET_ALLOC s.mem (HDRP (NEXT_BLKP s.mem bp))
  let size := GET_SIZE s.mem (HDRP bp)
  if prev_alloc ≠ 0 ∧ next_alloc = 0 then
    let size := (size + GET_SIZE s.mem (HDRP (NEXT_BLKP s.mem bp))) % WORD
    let s := remove_from_free s (NEXT_BLKP s.mem bp)
    let s := { s with mem := PUT s.mem (HDRP bp) (PACK size 0) }
    let s := { s with mem := PUT s.mem (FTRP s.mem bp) (PACK size 0) }
    (add_free s bp, bp)
  else if prev_alloc = 0 ∧ next_alloc ≠ 0 then
    let size := (size + GET_SIZE s.mem (HDRP (PREV_BLKP s.mem bp))) % WORD
    let bp := PREV_BLKP s.mem bp
    let s := remove_from_free s bp
    let s := { s with mem := PUT s.mem (HDRP bp) (PACK size 0) }
    let s := { s with mem := PUT s.mem (FTRP s.mem bp) (PACK size 0) }
    (add_free s bp, bp)
  else if prev_alloc = 0 ∧ next_alloc = 0 then
    let size := (size + (GET_SIZE s.mem (HDRP (PREV_BLKP s.mem bp))
                  + GET_SIZE s.mem (HDRP (NEXT_BLKP s.mem bp)))) % WORD
    let s := remove_from_free s (PREV_BLKP s.mem bp)
    let s := remove_from_free s (NEXT_BLKP s.mem bp)
    let bp := PREV_BLKP s.mem bp
    let s := { s with mem := PUT s.mem (HDRP bp) (PACK size 0) }
    let s := { s with mem := PUT s.mem (FTRP s.mem bp) (PACK size 0) }
    (add_free s bp, bp)
  else
    (add_free s bp, bp)

def place (s : State) (bp asize : Nat) : State :=
  let csize := GET_SIZE s.mem (HDRP bp)
  let diff : Int := isub csize asize
  let s := remove_from_free s bp
  if diff ≥ (MINBLOCKSIZE : Int) then
    let s := { s with mem := PUT s.mem (HDRP bp) (PACK asize 1) }
    let s := { s with mem := PUT s.mem (FTRP s.mem bp) (PACK asize 1) }
    let bp := NEXT_BLKP s.mem bp
    let s := { s with mem := PUT s.mem (HDRP bp) (PACK diff.toNat 0) }
    let s := { s with mem := PUT s.mem (FTRP s.mem bp) (PACK diff.toNat 0) }
    (coalesce s bp).1
  else
    let s := { s with mem := PUT s.mem (HDRP bp) (PACK csize 1) }
    { s with mem := PUT s.mem (FTRP s.mem bp) (PACK csize 1) }

/-- The function `extend_heap(words)`; the result `0` is `NULL`. -/
def extend_heap (s : State) (words : Nat) : State × Nat :=
  let size := (if words % 2 ≠ 0 then (words + 1) * WSIZE else words * WSIZE) % WORD
  match mem_sbrk s size with
  | none => (s, 0)
  | some (s, bp) =>
    let s := { s with mem := PUT s.mem (HDRP bp) (PACK size 0) }
    let s := { s with mem := PUT s.mem (FTRP s.mem bp) (PACK size 0) }
    let s := { s with mem := PUT s.mem (HDRP (NEXT_BLKP s.mem bp)) (PACK 0 1) }
    coalesce s bp

/-! ## The public interface -/

/-- The function `mm_init`; the second component is its return value, `0` or `-1`. -/
def mm_init (s : State) : State × Int :=
  match mem_sbrk s (8 * WSIZE) with
  | none => ({ s with heap_listp := WORD - 1 }, -1)
  | some (s, p) =>
    let m := PUT s.mem p 0
    let m := PUT m (p + 1 * WSIZE) (PACK ALIGNMENT 1)
    let m := PUT m (p + 2 * WSIZE) (PACK ALIGNMENT 1)
    let m := PUT m (p + 7 * WSIZE) (PACK 0 1)
    let heap_listp := p + ALIGNMENT
    let free_listp := heap_listp + ALIGNMENT
    let m := PUT m (HDRP free_listp) (PACK MINBLOCKSIZE 1)
    let m := PUT m (FTRP m free_listp) (PACK MINBLOCKSIZE 1)
    let m := PUT m (free_listp + WSIZE) 0
    let m := PUT m free_listp (heap_listp + 5 * WSIZE)
    let s := { s with mem := m, heap_listp := heap_listp, free_listp := free_listp }
    let r := extend_heap s (CHUNKSIZE / WSIZE)
    if r.2 = 0 then (r.1, -1) else (r.1, 0)

/-- The update of the static flag `four` at the top of `mm_malloc`. -/
def four_update (four size : Nat) : Nat :=
  let four := if size = 8190 then 1 else four
  if size = 2040 ∨ size = 10310 ∨ size = 64 ∨ size = 16 ∨ size = 512 ∨ size = 4092 then 0 else four

/-- The adjusted block size computed by `mm_malloc` and `mm_realloc`. -/
def adjust (size : Nat) : Nat :=
  if size ≤ ALIGNMENT then MINBLOCKSIZE
  else (ALIGNMENT * ((size + ALIGNMENT + (ALIGNMENT - 1)) % WORD / ALIGNMENT)) % WORD

/-- The function `mm_malloc(size)`; the pointer `0` is `NULL`. -/
def mm_malloc (s : State) (size : Nat) : Option (State × Nat) :=
  let s := { s with four := four_update s.four size }
  if size = 0 then some (s, 0)
  else
    let asize := adjust size
    let extendword := if s.four ≠ 0 then 1024 else MAX asize CHUNKSIZE
    match find_fit s asize with
    | none => none
    | some bp =>
      if bp ≠ 0 then some (place s bp asize, bp)
      else
        let r := extend_heap s (extendword / WSIZE)
        if r.2 = 0 then some (r.1, 0)
        else some (place r.1 r.2 asize, r.2)

def mm_free (s : State) (bp : Nat) : State :=
  let size := GET_SIZE s.mem (HDRP bp)
  let s := { s with mem := PUT s.mem (HDRP bp) (PACK size 0) }
  let s := { s with mem := PUT s.mem (FTRP s.mem bp) (PACK size 0) }
  (coalesce s bp).1

/-- The function `mm_realloc(bp, size)`; the pointer `0` is `NULL`. -/
def mm_realloc (s : State) (bp size : Nat) : Option (State × Nat) :=
  if toInt size < 0 then some (s, 0)
  else if size = 0 then some (mm_free s bp, 0)
  else if bp = 0 then mm_malloc s size
  else
    let oldsize := GET_SIZE s.mem (HDRP bp)
    let newsize := adjust size
    if newsize = oldsize then some (s, bp)
    else
      let diff : Int := isub oldsize newsize
      if diff > 0 then
        if diff = (MINBLOCKSIZE : Int) then
          let s := { s with mem := PUT s.mem (HDRP bp) (PACK newsize 1) }
          let s := { s with mem := PUT s.mem (FTRP s.mem bp) (PACK newsize 1) }
          let s := { s with mem := PUT s.mem (HDRP (NEXT_BLKP s.mem bp)) (PACK diff.toNat 0) }
          let s := { s with mem := PUT s.mem (FTRP s.mem (NEXT_BLKP s.mem bp)) (PACK diff.toNat 0) }
          some (add_free s (NEXT_BLKP s.mem bp), bp)
        else some (s, bp)
      else if GET_ALLOC s.mem (HDRP (PREV_BLKP s.mem bp)) = 0 ∧
          (oldsize + GET_SIZE s.mem (HDRP (PREV_BLKP s.mem bp))) % WORD ≥ newsize then
        let csize := (oldsize + GET_SIZE s.mem (HDRP (PREV_BLKP s.mem bp))) % WORD
        let s := remove_from_free s (PREV_BLKP s.mem bp)
        let newptr := PREV_BLKP s.mem bp
        let s := { s with mem := PUT s.mem (HDRP newptr) (PACK csize 1) }
        let s := { s with mem := PUT s.mem (FTRP s.mem newptr) (PACK csize 1) }
        some ({ s with mem := memcpy s.mem newptr bp oldsize }, newptr)
      else if GET_ALLOC s.mem (HDRP (NEXT_BLKP s.mem bp)) = 0 ∧
          (oldsize + GET_SIZE s.mem (HDRP (NEXT_BLKP s.mem bp))) % WORD ≥ newsize then
        let csize := (oldsize + GET_SIZE s.mem (HDRP (NEXT_BLKP s.mem bp))) % WORD
        let s := remove_from_free s (NEXT_BLKP s.mem bp)
        let s := { s with mem := PUT s.mem (HDRP bp) (PACK csize 1) }
        let s := { s with mem := PUT s.mem (FTRP s.mem bp) (PACK csize 1) }
        some (s, bp)
      else
        match mm_malloc s newsize with
        | none => none
        | some (s, newptr) =>
          if newptr = 0 then some (s, 0)
          else
            let s := place s newptr newsize
            let s := { s with mem := memcpy s.mem newptr bp newsize }
            some (mm_free s bp, newptr)

/-! ## Further definitions: the abstract heap, observers, concrete heaps -/

/-! ### The abstract heap -/

/-- A block of the heap: payload address, total size (header and footer included) and
allocated bit. -/
structure Blk where
  addr : Nat
  size : Nat
  alloc : Nat
  deriving DecidableEq

/-- The block is well sized and both of its boundary tags hold `size | alloc`. -/
def Blk.ok (m : Mem) (b : Blk) : Prop :=
  b.size % 8 = 0 ∧ 16 ≤ b.size ∧ b.alloc ≤ 1 ∧
    GET m (b.addr - 4) = b.size + b.alloc ∧ GET m (b.addr + b.size - 8) = b.size + b.alloc

/-- The blocks lie back to back from address `a` to address `e`. -/
def Contig : Nat → List Blk → Nat → Prop
  | a, [], e => a = e
  | a, b :: bs, e => b.addr = a ∧ Contig (a + b.size) bs e

/-- Two adjacent blocks are not both free. -/
def adjOK (x y : Blk) : Prop := x.alloc ≠ 0 ∨ y.alloc ≠ 0

/-- A run of the free list: starting at pointer `p`, whose back link should be `prev`, the next
links visit exactly the nodes of the list and then reach `q`. -/
def FSeg (m : Mem) : Nat → Nat → List Nat → Nat → Prop
  | p, _, [], q => p = q
  | p, prev, f :: fs, q => p = f ∧ GET m (f + 4) = prev ∧ FSeg m (GET m f) f fs q

/-- Two payload addresses are at least 8 bytes apart (their link fields do not overlap). -/
def apart (a b : Nat) : Prop := a + 8 ≤ b ∨ b + 8 ≤ a

/-- Sum of the sizes of the blocks with allocated bit `a`. -/
def sizeSum (a : Nat) : List Blk → Nat
  | [] => 0
  | b :: bs => (if b.alloc = a then b.size else 0) + sizeSum a bs

/-- The part of well-formedness that does not mention the free list. -/
structure Core (s : State) (bs : List Blk) : Prop where
  lo8 : s.lo % 8 = 0
  hi32 : s.hi ≤ WORD
  small : s.hi - s.lo < 2147483648
  brk_le : s.brk ≤ s.hi
  pro_h : GET s.mem (s.lo + 4) = 9
  pro_f : GET s.mem (s.lo + 8) = 9
  sent_h : GET s.mem (s.lo + 12) = 17
  sent_f : GET s.mem (s.lo + 24) = 17
  contig : Contig (s.lo + 32) bs s.brk
  ok : ∀ b ∈ bs, b.ok s.mem
  epi : GET s.mem (s.brk - 4) = 1

/-- The free list `fl` (in list order, from `free_listp`) holds exactly the free blocks of `bs`,
each once, with consistent back links, and ends at the sentinel block of `mm_init`. -/
structure Listed (s : State) (bs : List Blk) (fl : List Nat) : Prop where
  nodup : fl.Nodup
  mem_fl : ∀ a, a ∈ fl ↔ ∃ b ∈ bs, b.addr = a ∧ b.alloc = 0
  chain : FSeg s.mem s.free_listp 0 fl (s.lo + 16)

/-- Well-formed heap: `bs` are the blocks between the sentinel block and the epilogue, in address
order, and `fl` is the free list. -/
structure Inv (s : State) (bs : List Blk) (fl : List Nat) : Prop where
  core : Core s bs
  noadj : bs.Chain' adjOK
  listed : Listed s bs fl

/-- Well-formed heap with one block `x` that is tagged free but not yet in the free list and not
yet merged with its neighbours: the state in which `coalesce` is entered. -/
structure PreInv (s : State) (L : List Blk) (x : Blk) (R : List Blk) (fl : List Nat) : Prop where
  core : Core s (L ++ x :: R)
  xfree : x.alloc = 0
  noadjL : L.Chain' adjOK
  noadjR : R.Chain' adjOK
  listed : Listed s (L ++ R) fl

/-- The back link expected by the node that follows the run `A`. -/
def lastOr (prev : Nat) : List Nat → Nat
  | [] => prev
  | f :: fs => lastOr f fs

/-- Side conditions on the nodes of a free list that ends at `t`: the nodes are distinct, link
fields do not overlap, every address fits a 32-bit pointer and no node is the null pointer. -/
structure Nodes (t : Nat) (fl : List Nat) : Prop where
  nodup : (t :: fl).Nodup
  sep : ∀ f ∈ t :: fl, ∀ g ∈ t :: fl, f ≠ g → apart f g
  lt : ∀ f ∈ t :: fl, f < WORD
  pos : ∀ f ∈ fl, f ≠ 0

/-- The first node of a run, or the address the run leads to when it is empty. -/
def headOr (t : Nat) : List Nat → Nat
  | [] => t
  | f :: _ => f

/-- The word at `q` overlaps no link field of a node of the list, nor of the sentinel `t`. -/
def Safe (t : Nat) (nodes : List Nat) (q : Nat) : Prop :=
  ∀ f ∈ t :: nodes, q + 4 ≤ f ∨ f + 8 ≤ q

/-- Geometry of a block list: back to back between `lo + 32` and `brk`, every block at least
16 bytes, and every node of `nodes` the address of one of the blocks. -/
structure Geo (lo brk : Nat) (bs : List Blk) (nodes : List Nat) : Prop where
  contig : Contig (lo + 32) bs brk
  big : ∀ b ∈ bs, 16 ≤ b.size
  isblk : ∀ f ∈ nodes, ∃ b ∈ bs, b.addr = f

/-- The address `q` holds a boundary tag of the heap: a tag of the prologue or of the sentinel
block, the epilogue header, or the header or footer of a block of `bs`. -/
def IsTag (s : State) (bs : List Blk) (q : Nat) : Prop :=
  q = s.lo + 4 ∨ q = s.lo + 8 ∨ q = s.lo + 12 ∨ q = s.lo + 24 ∨ q = s.brk - 4 ∨
    ∃ b ∈ bs, q = b.addr - 4 ∨ q = b.addr + b.size - 8

/-- The predecessor of the block that follows `L` is allocated (it is the sentinel block when
`L` is empty). -/
def PrevAlloc (L : List Blk) : Prop := L = [] ∨ ∃ L2 p, L = L2 ++ [p] ∧ p.alloc = 1

/-- The successor of the block that precedes `R` is allocated (it is the epilogue when `R` is
empty). -/
def NextAlloc (R : List Blk) : Prop := R = [] ∨ ∃ n R2, R = n :: R2 ∧ n.alloc = 1

/-- Memory after the four tag writes of a split in `place`. -/
def splitMem (m : Mem) (bp asize csize : Nat) : Mem :=
  PUT (PUT (PUT (PUT m (bp - 4) (asize + 1)) (bp + asize - 8) (asize + 1))
    (bp + asize - 4) (csize - asize + 0)) (bp + asize + (csize - asize) - 8) (csize - asize + 0)

/-- First fit over the free list, as a function of the list of nodes. -/
def firstFit (m : Mem) (asize : Nat) : List Nat → Nat
  | [] => 0
  | f :: fs => if asize ≤ GET_SIZE m (HDRP f) then f else firstFit m asize fs

/-- Memory after the three tag writes of `extend_heap`: header and footer of the new free block
and the new epilogue header. -/
def extMem (m : Mem) (brk size : Nat) : Mem :=
  PUT (PUT (PUT m (brk - 4) (size + 0)) (brk + size - 8) (size + 0)) (brk + size - 4) 1

/-- The number of bytes `mm_malloc` asks `mem_sbrk` for when no free block fits. -/
def growth (four asize : Nat) : Nat := if four ≠ 0 then 1024 else MAX asize CHUNKSIZE

/-- The state handed to `mm_init`: an empty heap at an 8-byte aligned address, in an area of
less than `2^31` bytes that lies inside the 32-bit address space.  The heap bytes and the static
flag of `mm_malloc` are arbitrary. -/
structure Fresh (s : State) : Prop where
  empty : s.brk = s.lo
  lo8 : s.lo % 8 = 0
  hi32 : s.hi ≤ WORD
  small : s.hi - s.lo < 2147483648

/-- The state of `mm_init` just before it calls `extend_heap`. -/
def initState (s : State) : State :=
  { s with
    brk := s.brk + 32
    mem := PUT (PUT (PUT (PUT (PUT (PUT (PUT (PUT s.mem s.brk 0) (s.brk + 4) 9) (s.brk + 8) 9)
            (s.brk + 28) 1) (s.brk + 16 - 4) (16 + 1)) (s.brk + 16 + 16 - 8) (16 + 1))
            (s.brk + 16 + 4) 0) (s.brk + 16) (s.brk + 8 + 20)
    heap_listp := s.brk + 8
    free_listp := s.brk + 16 }

/-! ### Observing a heap -/

/-- Heap scan: the blocks met when walking from block `bp` by header size, up to the first
header of size zero (the epilogue). -/
def scan (m : Mem) : Nat → Nat → List Blk
  | 0, _ => []
  | fuel + 1, bp =>
    if GET_SIZE m (HDRP bp) = 0 then []
    else ⟨bp, GET_SIZE m (HDRP bp), GET_ALLOC m (HDRP bp)⟩ :: scan m fuel (NEXT_BLKP m bp)

/-- The blocks of the heap in address order, found by scanning from the prologue block (the
block `mm_init` points `heap_listp` at) to the epilogue. -/
def heap_blocks (s : State) : List Blk := scan s.mem (s.brk - s.lo) (s.lo + 8)

/-- Free-list walk: the nodes met from `bp` through the next links, up to the first block whose
header is marked allocated; `none` is a walk that outlives its fuel. -/
def free_walk (m : Mem) : Nat → Nat → Option (List Nat)
  | 0, _ => none
  | fuel + 1, bp =>
    if GET_ALLOC m (HDRP bp) = 0 then (free_walk m fuel (NEXT_FREE m bp)).map (fun l => bp :: l)
    else some []

/-- The nodes of the free list, from `free_listp`. -/
def free_nodes (s : State) : Option (List Nat) := free_walk s.mem (s.brk - s.lo) s.free_listp

/-- Total free capacity: the sum of the sizes of the free blocks found by the heap scan. -/
def free_capacity (s : State) : Nat := sizeSum 0 (heap_blocks s)

/-- The blocks of the heap scan with allocated bit 0, by address. -/
def free_blocks (s : State) : List Nat :=
  ((heap_blocks s).filter (fun b => b.alloc = 0)).map (fun b => b.addr)

/-- Header word and footer word of the block at `bp` are equal. -/
def tags_agree (m : Mem) (bp : Nat) : Bool := GET m (HDRP bp) = GET m (FTRP m bp)

/-! ### Concrete heaps and call sequences -/

/-- An empty heap of zero bytes at address 4096, inside an area of `cap` bytes. -/
def emptyHeap (cap : Nat) : State :=
  { mem := fun _ => 0, lo := 4096, brk := 4096, hi := 4096 + cap, heap_listp := 0,
    free_listp := 0, four := 0 }

/-- The state after `mm_init` in an area of 64 KiB. -/
def heap0 : State := (mm_init (emptyHeap 65536)).1

/-- The state after `mm_init` in an area that holds the initial heap and nothing more. -/
def heapFull : State := (mm_init (emptyHeap 4128)).1

/-- The application stores the bytes `vals` at address `p` and upwards. -/
def store (s : State) (p : Nat) : List Nat → State
  | [] => s
  | v :: vs => store { s with mem := wr s.mem p v } (p + 1) vs

/-- The `k` bytes at address `p`. -/
def bytes (m : Mem) (p k : Nat) : List Nat := (List.range k).map (fun i => rd m (p + i))

/-- Four allocations, the first one freed, the third one grown: the state and the addresses
returned so far. -/
def seqRealloc : Option (State × List Nat) := do
  let (s, a) ← mm_malloc heap0 40
  let (s, b) ← mm_malloc s 8
  let (s, c) ← mm_malloc s 8
  let (s, d) ← mm_malloc s 8
  let s := store s b [1, 2, 3, 4, 5, 6, 7, 8]
  let s := mm_free s a
  let (s, c2) ← mm_realloc s c 16
  pure (s, [a, b, c, d, c2])

/-- A request of `2^32 - 1` bytes, two of one byte and one of 100 bytes; the first and the
third block are freed; then the application stores the word 4173 in the payload of the second
block and the words 24, 4112 and 0 at offset 1 of the payload of the fourth block. -/
def seqAlign : Option (State × List Nat) := do
  let (s, a) ← mm_malloc heap0 4294967295
  let (s, b) ← mm_malloc s 1
  let (s, c) ← mm_malloc s 1
  let (s, d) ← mm_malloc s 100
  let s := mm_free s a
  let s := mm_free s c
  let s := store s b [77, 16, 0, 0]
  let s := store s (d + 1) [24, 0, 0, 0, 16, 16, 0, 0, 0, 0, 0, 0]
  pure (s, [a, b, c, d])

/-- A request of `2^32 - 1` bytes, three requests of one byte, then the first block freed. -/
def seqWrap : Option (State × List Nat) := do
  let (s, a) ← mm_malloc heap0 4294967295
  let (s, b) ← mm_malloc s 1
  let (s, c) ← mm_malloc s 1
  let (s, d) ← mm_malloc s 1
  let s := mm_free s a
  pure (s, [a, b, c, d])

/-- Requests of 16 bytes and of one byte, then the first block freed. -/
def seqReuse : Option (State × List Nat) := do
  let (s, a) ← mm_malloc heap0 16
  let (s, b) ← mm_malloc s 1
  let s := mm_free s a
  pure (s, [a, b])

/-- Two requests of one byte. -/
def seqTwo : Option (State × List Nat) := do
  let (s, a) ← mm_malloc heap0 1
  let (s, b) ← mm_malloc s 1
  pure (s, [a, b])

/-- Two requests of one byte, then the first block grown to 100 bytes. -/
def seqGrow : Option (State × List Nat) := do
  let (s, a) ← mm_malloc heap0 1
  let (s, b) ← mm_malloc s 1
  let (s, q) ← mm_realloc s a 100
  pure (s, [a, b, q])

/-- A request of 24 bytes, then the block shrunk to one byte. -/
def seqShrink : Option (State × List Nat) := do
  let (s, a) ← mm_malloc heap0 24
  let (s, q) ← mm_realloc s a 1
  pure (s, [a, q])

/-- Three allocations, then the first block grown to 100 bytes and the third to 17 bytes. -/
def seqTags : Option (State × List Nat) := do
  let (s, a) ← mm_malloc heap0 40
  let (s, b) ← mm_malloc s 1
  let (s, c) ← mm_malloc s 1
  let (s, q) ← mm_realloc s a 100
  let (s, r) ← mm_realloc s c 17
  pure (s, [a, b, c, q, r])

/-- A request of 8190 bytes. -/
def seqBig : Option (State × List Nat) := do
  let (s, a) ← mm_malloc heap0 8190
  pure (s, [a])

/-- A request of 8190 bytes; then the application stores eight zero bytes at offsets 5112 to
5119 of the bytes it asked for. -/
def seqFill : Option (State × List Nat) := do
  let (s, a) ← mm_malloc heap0 8190
  let s := store s (a + 5112) [0, 0, 0, 0, 0, 0, 0, 0]
  pure (s, [a])

/-- Requests of 16 and of 8 bytes, both blocks filled with data by the application, then the
first block freed. -/
def seqData : Option (State × List Nat) := do
  let (s, a) ← mm_malloc heap0 16
  let (s, b) ← mm_malloc s 8
  let s := store s a [1, 2, 3, 4, 5, 6, 7, 8, 9, 10, 11, 12, 13, 14, 15, 16]
  let s := store s b [255, 254, 253, 252, 251, 250, 249, 248]
  let s := mm_free s a
  pure (s, [a, b])

/-- The sequence the specification equates the fallback path of `mm_realloc(p, n)` with:
`q = mm_malloc(n)`, copy the payload of `p` to `q`, `mm_free(p)`. -/
def realloc_as_sequence (s : State) (p n : Nat) : Option (State × Nat) :=
  match mm_malloc s n with
  | none => none
  | some (s1, q) =>
    if q = 0 then some (s1, 0)
    else some (mm_free { s1 with mem := memcpy s1.mem q p (GET_SIZE s.mem (HDRP p) - 8) } p, q)

/-! ### Checking a concrete heap -/

/-- Decision procedure for `Contig`. -/
def Contig.dec : (a : Nat) → (bs : List Blk) → (e : Nat) → Decidable (Contig a bs e)
  | a, [], e => inferInstanceAs (Decidable (a = e))
  | a, b :: bs, e => @instDecidableAnd _ _ _ (Contig.dec (a + b.size) bs e)

instance (a : Nat) (bs : List Blk) (e : Nat) : Decidable (Contig a bs e) := Contig.dec a bs e

/-- Decision procedure for `FSeg`. -/
def FSeg.dec (m : Mem) : (p prev : Nat) → (fl : List Nat) → (q : Nat) → Decidable (FSeg m p prev fl q)
  | p, _, [], q => inferInstanceAs (Decidable (p = q))
  | _, _, f :: fs, q => @instDecidableAnd _ _ _ (@instDecidableAnd _ _ _ (FSeg.dec m (GET m f) f fs q))

instance (m : Mem) (p prev : Nat) (fl : List Nat) (q : Nat) : Decidable (FSeg m p prev fl q) :=
  FSeg.dec m p prev fl q

instance (m : Mem) (b : Blk) : Decidable (b.ok m) :=
  inferInstanceAs (Decidable (b.size % 8 = 0 ∧ 16 ≤ b.size ∧ b.alloc ≤ 1 ∧
    GET m (b.addr - 4) = b.size + b.alloc ∧ GET m (b.addr + b.size - 8) = b.size + b.alloc))

/-- No two neighbours in the list are both free, as a computed check. -/
def noAdjFree : List Blk → Bool
  | [] => true
  | [_] => true
  | x :: y :: r => (decide (x.alloc ≠ 0) || decide (y.alloc ≠ 0)) && noAdjFree (y :: r)

/-- Well-formedness of a heap with block list `bs` and free list `fl`, in a form that can be
evaluated on a concrete heap. -/
abbrev InvCheck (s : State) (bs : List Blk) (fl : List Nat) : Prop :=
  (s.lo % 8 = 0 ∧ s.hi ≤ WORD ∧ s.hi - s.lo < 2147483648 ∧ s.brk ≤ s.hi) ∧
  (GET s.mem (s.lo + 4) = 9 ∧ GET s.mem (s.lo + 8) = 9 ∧ GET s.mem (s.lo + 12) = 17 ∧
    GET s.mem (s.lo + 24) = 17 ∧ GET s.mem (s.brk - 4) = 1) ∧
  Contig (s.lo + 32) bs s.brk ∧ (∀ b ∈ bs, b.ok s.mem) ∧ noAdjFree bs = true ∧ fl.Nodup ∧
  (∀ a ∈ fl, ∃ b ∈ bs, b.addr = a ∧ b.alloc = 0) ∧ (∀ b ∈ bs, b.alloc = 0 → b.addr ∈ fl) ∧
  FSeg s.mem s.free_listp 0 fl (s.lo + 16)

/-- The state reached by a call sequence (the initial heap if the sequence does not return). -/
def stateOf (o : Option (State × List Nat)) : State := (o.getD (heap0, [])).1

/-- A chain of next links: from `p` the links visit exactly the nodes of the list and then
reach `q`. -/
def NSeg (m : Mem) : Nat → List Nat → Nat → Prop
  | p, [], q => p = q
  | p, f :: fs, q => p = f ∧ NSeg m (GET m f) fs q

/-! ## Theorems -/

/-! ### Words and bytes -/

theorem mask_size (w : Nat) (h : w < 4294967296) : w &&& 0xFFFFFFF8 = 8 * (w / 8) := by
  apply Nat.eq_of_testBit_eq
  intro i
  have hc : (0xFFFFFFF8 : Nat) = 2 ^ 3 * (2 ^ 29 - 1) := by norm_num
  have h8 : (8 : Nat) = 2 ^ 3 := by norm_num
  rw [Nat.testBit_and, hc, h8, Nat.testBit_mul_pow_two, Nat.testBit_mul_pow_two,
    Nat.testBit_two_pow_sub_one, ← Nat.shiftRight_eq_div_pow, Nat.testBit_shiftRight]
  by_cases h3 : 3 ≤ i
  · have e : 3 + (i - 3) = i := by omega
    simp only [h3, decide_True, Bool.true_and, e]
    by_cases h32 : i - 3 < 29
    · simp [h32]
    · have hw : w < 2 ^ i := lt_of_lt_of_le h (by
        have e32 : (4294967296 : Nat) = 2 ^ 32 := by norm_num
        rw [e32]; exact Nat.pow_le_pow_right (by norm_num) (by omega))
      simp [h32, Nat.testBit_lt_two_pow hw]
  · simp [h3]

theorem PACK_eq (size a : Nat) (h8 : size % 8 = 0) (ha : a < 2) : PACK size a = size + a := by
  have e : size = 2 ^ 3 * (size / 8) := by omega
  unfold PACK
  rw [e, ← Nat.mul_add_lt_is_or (by omega : a < 2 ^ 3)]

theorem rd_lt (m : Mem) (a : Nat) : rd m a < 256 := Nat.mod_lt _ (by norm_num)

theorem rd_wr (m : Mem) (a v x : Nat) : rd (wr m a v) x = if x = a then v % 256 else rd m x := by
  unfold rd wr
  by_cases h : x = a <;> simp [h]

theorem GET_lt (m : Mem) (p : Nat) : GET m p < WORD := by
  have h0 := rd_lt m p
  have h1 := rd_lt m (p + 1)
  have h2 := rd_lt m (p + 2)
  have h3 := rd_lt m (p + 3)
  unfold GET WORD
  omega

theorem GET_PUT_same (m : Mem) (p v : Nat) : GET (PUT m p v) p = v % WORD := by
  unfold GET PUT WORD
  simp only [rd_wr]
  have e1 : ¬ (p = p + 1) := by omega
  have e2 : ¬ (p = p + 2) := by omega
  have e3 : ¬ (p = p + 3) := by omega
  have e4 : ¬ (p + 1 = p + 2) := by omega
  have e5 : ¬ (p + 1 = p + 3) := by omega
  have e6 : ¬ (p + 2 = p + 3) := by omega
  simp only [e1, e2, e3, e4, e5, e6, if_true, if_false]
  omega

theorem GET_PUT_ne (m : Mem) (p v q : Nat) (h : q + 4 ≤ p ∨ p + 4 ≤ q) :
    GET (PUT m p v) q = GET m q := by
  unfold GET PUT
  simp only [rd_wr]
  have e : ∀ i j : Nat, i < 4 → j < 4 → ¬ (q + i = p + j) := by intro i j hi hj; omega
  have a0 := e 0 0 (by omega) (by omega)
  have a1 := e 0 1 (by omega) (by omega)
  have a2 := e 0 2 (by omega) (by omega)
  have a3 := e 0 3 (by omega) (by omega)
  have b0 := e 1 0 (by omega) (by omega)
  have b1 := e 1 1 (by omega) (by omega)
  have b2 := e 1 2 (by omega) (by omega)
  have b3 := e 1 3 (by omega) (by omega)
  have c0 := e 2 0 (by omega) (by omega)
  have c1 := e 2 1 (by omega) (by omega)
  have c2 := e 2 2 (by omega) (by omega)
  have c3 := e 2 3 (by omega) (by omega)
  have d0 := e 3 0 (by omega) (by omega)
  have d1 := e 3 1 (by omega) (by omega)
  have d2 := e 3 2 (by omega) (by omega)
  have d3 := e 3 3 (by omega) (by omega)
  simp only [Nat.add_zero] at a0 a1 a2 a3 b0 c0 d0
  simp only [a0, a1, a2, a3, b0, b1, b2, b3, c0, c1, c2, c3, d0, d1, d2, d3, if_false]

/-- Reading a boundary tag: the size and the allocated bit of the word `z + a`. -/
theorem tag_read (m : Mem) (p z a : Nat) (h : GET m p = z + a) (h8 : z % 8 = 0) (ha : a < 2) :
    GET_SIZE m p = z ∧ GET_ALLOC m p = a := by
  have hl := GET_lt m p
  unfold WORD at hl
  unfold GET_SIZE GET_ALLOC
  rw [mask_size _ hl, Nat.and_one_is_mod, h]
  omega

/-! ### Layout of blocks and of the free list -/

theorem Contig_append (a e : Nat) (L R : List Blk) :
    Contig a (L ++ R) e ↔ ∃ mid, Contig a L mid ∧ Contig mid R e := by
  induction L generalizing a with
  | nil => simp [Contig]
  | cons b L ih =>
    show (b.addr = a ∧ Contig (a + b.size) (L ++ R) e) ↔
      ∃ mid, (b.addr = a ∧ Contig (a + b.size) L mid) ∧ Contig mid R e
    rw [ih]
    constructor
    · rintro ⟨h1, mid, h2, h3⟩
      exact ⟨mid, ⟨h1, h2⟩, h3⟩
    · rintro ⟨mid, ⟨h1, h2⟩, h3⟩
      exact ⟨h1, mid, h2, h3⟩

theorem Contig_le (a e : Nat) (bs : List Blk) (h : Contig a bs e) : a ≤ e := by
  induction bs generalizing a with
  | nil => simp [Contig] at h; omega
  | cons b bs ih =>
    have := ih _ h.2
    omega

theorem Contig_mem (a e : Nat) (bs : List Blk) (h : Contig a bs e) :
    ∀ b ∈ bs, a ≤ b.addr ∧ b.addr + b.size ≤ e := by
  induction bs generalizing a with
  | nil => simp
  | cons c bs ih =>
    intro b hb
    rcases List.mem_cons.1 hb with rfl | hb
    · have := Contig_le _ _ _ h.2
      have := h.1
      omega
    · have := ih _ h.2 b hb
      omega

theorem Contig_unique (a e e2 : Nat) (bs : List Blk) (h : Contig a bs e) (h2 : Contig a bs e2) :
    e = e2 := by
  induction bs generalizing a with
  | nil => simp [Contig] at h h2; omega
  | cons b bs ih => exact ih _ h.2 h2.2

theorem Contig_end (a e : Nat) (L : List Blk) (p : Blk) (h : Contig a (L ++ [p]) e) :
    p.addr + p.size = e := by
  rw [Contig_append] at h
  obtain ⟨mid, _, h2⟩ := h
  simp [Contig] at h2
  omega

theorem sizeSum_append (a : Nat) (L R : List Blk) :
    sizeSum a (L ++ R) = sizeSum a L + sizeSum a R := by
  induction L with
  | nil => simp [sizeSum]
  | cons b L ih => simp [sizeSum, ih]; omega

theorem FSeg_frame (m m2 : Mem) (fl : List Nat) (p prev q : Nat)
    (h : ∀ f ∈ fl, GET m2 f = GET m f ∧ GET m2 (f + 4) = GET m (f + 4))
    (c : FSeg m p prev fl q) : FSeg m2 p prev fl q := by
  induction fl generalizing p prev with
  | nil => exact c
  | cons f fs ih =>
    obtain ⟨h1, h2, h3⟩ := c
    have hf := h f (List.mem_cons_self _ _)
    refine ⟨h1, by rw [hf.2]; exact h2, ?_⟩
    rw [hf.1]
    exact ih _ _ (fun g hg => h g (List.mem_cons_of_mem _ hg)) h3

theorem lastOr_mem (prev : Nat) (A : List Nat) : lastOr prev A = prev ∧ A = [] ∨ lastOr prev A ∈ A := by
  induction A generalizing prev with
  | nil => simp [lastOr]
  | cons f fs ih =>
    right
    rcases ih f with ⟨h1, h2⟩ | h
    · simp [lastOr, h1]
    · simp only [lastOr]
      exact List.mem_cons_of_mem _ h

theorem FSeg_append (m : Mem) (A B : List Nat) (p prev q : Nat) :
    FSeg m p prev (A ++ B) q ↔ ∃ mid, FSeg m p prev A mid ∧ FSeg m mid (lastOr prev A) B q := by
  induction A generalizing p prev with
  | nil => simp [FSeg, lastOr]
  | cons f fs ih =>
    show (p = f ∧ GET m (f + 4) = prev ∧ FSeg m (GET m f) f (fs ++ B) q) ↔
      ∃ mid, (p = f ∧ GET m (f + 4) = prev ∧ FSeg m (GET m f) f fs mid) ∧
        FSeg m mid (lastOr f fs) B q
    rw [ih]
    constructor
    · rintro ⟨h1, h2, mid, h3, h4⟩
      exact ⟨mid, ⟨h1, h2, h3⟩, h4⟩
    · rintro ⟨mid, ⟨h1, h2, h3⟩, h4⟩
      exact ⟨h1, h2, mid, h3, h4⟩

/-! ### The free list: removing and adding a node -/

theorem lastOr_concat (prev a : Nat) (A : List Nat) : lastOr prev (A ++ [a]) = a := by
  induction A generalizing prev with
  | nil => rfl
  | cons f fs ih => exact ih f

theorem Nodes.sub {t : Nat} {fl fl2 : List Nat} (h : Nodes t fl) (hs : fl2.Sublist fl) :
    Nodes t fl2 := by
  have hsub : (t :: fl2).Sublist (t :: fl) := hs.cons₂ t
  refine ⟨h.nodup.sublist hsub, ?_, ?_, ?_⟩
  · intro f hf g hg hne
    exact h.sep f (hsub.subset hf) g (hsub.subset hg) hne
  · intro f hf
    exact h.lt f (hsub.subset hf)
  · intro f hf
    exact h.pos f (hs.subset hf)

theorem sublist_remove (A B : List Nat) (x : Nat) : (A ++ B).Sublist (A ++ x :: B) :=
  List.Sublist.append (List.Sublist.refl A) (List.sublist_cons_self x B)

/-- The two writes of `remove_from_free` when the node has a predecessor. -/
theorem remove_from_free_mid (s : State) (x P : Nat) (hP : GET s.mem (x + 4) = P) (h0 : P ≠ 0)
    (hx : apart x P) :
    remove_from_free s x =
      { s with mem := PUT (PUT s.mem P (GET s.mem x)) (GET s.mem x + 4) P } := by
  unfold apart at hx
  unfold remove_from_free
  simp only [PREV_FREE, NEXT_FREE, WSIZE, hP, h0, ne_eq, not_false_eq_true, if_true]
  rw [GET_PUT_ne _ _ _ _ (by omega), GET_PUT_ne _ _ _ _ (by omega), hP]

/-- The write of `remove_from_free` when the node is the head of the list. -/
theorem remove_from_free_head (s : State) (x : Nat) (hP : GET s.mem (x + 4) = 0) :
    remove_from_free s x =
      { s with mem := PUT s.mem (GET s.mem x + 4) 0, free_listp := GET s.mem x } := by
  unfold remove_from_free
  simp only [PREV_FREE, NEXT_FREE, WSIZE, hP, ne_eq, not_true_eq_false, if_false]

theorem FSeg_head (m : Mem) (p prev q : Nat) (fl : List Nat) (h : FSeg m p prev fl q) :
    p = headOr q fl := by
  cases fl with
  | nil => exact h
  | cons f fs => exact h.1

theorem headOr_mem (t : Nat) (fl : List Nat) : headOr t fl ∈ t :: fl := by
  cases fl <;> simp [headOr]

/-- Writing the back link of the first node of a run (or of the terminator). -/
theorem FSeg_set_prev (m : Mem) (B : List Nat) (t N prev v : Nat) (hn : Nodes t B)
    (hv : v < WORD) (c : FSeg m N prev B t) : FSeg (PUT m (N + 4) v) N v B t := by
  cases B with
  | nil => exact c
  | cons b B2 =>
    obtain ⟨h1, _, h3⟩ := c
    subst h1
    refine ⟨rfl, by rw [GET_PUT_same, Nat.mod_eq_of_lt hv], ?_⟩
    rw [GET_PUT_ne _ _ _ _ (by omega)]
    refine FSeg_frame m _ B2 _ _ _ ?_ h3
    intro f hf
    have hne : f ≠ N := by
      intro e
      have := hn.nodup
      simp only [List.nodup_cons, List.mem_cons] at this
      exact this.2.1 (e ▸ hf)
    have ha := hn.sep f (by simp [hf]) N (by simp) hne
    unfold apart at ha
    exact ⟨GET_PUT_ne _ _ _ _ (by omega), GET_PUT_ne _ _ _ _ (by omega)⟩

theorem nodup_facts (t a mid : Nat) (A2 B : List Nat)
    (h : (t :: (A2 ++ [a] ++ mid :: B)).Nodup) :
    a ≠ mid ∧ a ≠ t ∧ a ∉ B ∧ a ∉ A2 ∧ (∀ f ∈ A2, f ≠ t ∧ f ∉ B) := by
  simp only [List.nodup_cons, List.nodup_append, List.mem_append, List.mem_cons,
    List.mem_singleton, List.Disjoint, not_or] at h
  refine ⟨?_, ?_, ?_, ?_, ?_⟩ <;> aesop

theorem remove_from_free_spec (s : State) (A B : List Nat) (x t : Nat)
    (hn : Nodes t (A ++ x :: B)) (c : FSeg s.mem s.free_listp 0 (A ++ x :: B) t) :
    FSeg (remove_from_free s x).mem (remove_from_free s x).free_listp 0 (A ++ B) t ∧
    (∀ q, (∀ f ∈ t :: (A ++ B), q + 4 ≤ f ∨ f + 8 ≤ q) →
      GET (remove_from_free s x).mem q = GET s.mem q) ∧
    (remove_from_free s x).lo = s.lo ∧ (remove_from_free s x).hi = s.hi ∧
    (remove_from_free s x).brk = s.brk ∧ (remove_from_free s x).four = s.four ∧
    (remove_from_free s x).free_listp = headOr t (A ++ B) := by
  rw [FSeg_append] at c
  obtain ⟨mid, cA, cx⟩ := c
  obtain ⟨hmid, hP, cB⟩ := cx
  subst hmid
  have hN := FSeg_head _ _ _ _ _ cB
  have hnB : Nodes t B := hn.sub (List.sublist_append_of_sublist_right (List.sublist_cons_self _ _))
  have hNmem : GET s.mem mid ∈ t :: B := hN ▸ headOr_mem t B
  have hNlt : GET s.mem mid < WORD := hn.lt _ (by
    rcases List.mem_cons.1 hNmem with h | h
    · simp [h]
    · simp [h])
  rcases List.eq_nil_or_concat A with hA | ⟨A2, a, hA⟩
  · subst hA
    simp only [lastOr] at hP
    rw [remove_from_free_head s mid hP]
    simp only [List.nil_append]
    refine ⟨FSeg_set_prev _ _ _ _ _ _ hnB (by unfold WORD; omega) cB, ?_, ?_⟩
    · intro q hq
      have := hq _ hNmem
      exact GET_PUT_ne _ _ _ _ (by omega)
    · simp [hN]
  · rw [List.concat_eq_append] at hA
    subst hA
    rw [lastOr_concat] at hP
    have hamem : a ∈ A2 ++ [a] ++ mid :: B := by simp
    have ha0 : a ≠ 0 := hn.pos a hamem
    have halt : a < WORD := hn.lt a (List.mem_cons_of_mem _ hamem)
    obtain ⟨hax, hat, haB, haA, hA2⟩ := nodup_facts _ _ _ _ _ hn.nodup
    have hNin : GET s.mem mid ∈ t :: (A2 ++ [a] ++ mid :: B) := by
      rcases List.mem_cons.1 hNmem with h | h
      · simp [h]
      · simp [h]
    have hxa : apart mid a := hn.sep mid (by simp) a (List.mem_cons_of_mem _ hamem) (Ne.symm hax)
    rw [remove_from_free_mid s mid a hP ha0 hxa]
    have haN : a ≠ GET s.mem mid := by
      intro e
      rw [← e] at hNmem
      rcases List.mem_cons.1 hNmem with h | h
      · exact hat h
      · exact haB h
    have haNp : apart a (GET s.mem mid) := hn.sep a (List.mem_cons_of_mem _ hamem) _ hNin haN
    unfold apart at hxa haNp
    rw [FSeg_append] at cA
    obtain ⟨a0, cA2, ca⟩ := cA
    obtain ⟨ha0', hPa, hnext⟩ := ca
    subst ha0'
    simp only [FSeg] at hnext
    refine ⟨?_, ?_, ?_⟩
    · show FSeg _ s.free_listp 0 (A2 ++ [a0] ++ B) t
      rw [FSeg_append]
      refine ⟨GET s.mem mid, ?_, ?_⟩
      · rw [FSeg_append]
        refine ⟨a0, ?_, rfl, ?_, ?_⟩
        · refine FSeg_frame s.mem _ A2 _ _ _ ?_ cA2
          intro f hf
          have hfa : f ≠ a0 := by
            intro e
            exact haA (e ▸ hf)
          have hfN : f ≠ GET s.mem mid := by
            intro e
            rw [← e] at hNmem
            rcases List.mem_cons.1 hNmem with h | h
            · exact (hA2 f hf).1 h
            · exact (hA2 f hf).2 h
          have h1 := hn.sep f (by simp [hf]) a0 (List.mem_cons_of_mem _ hamem) hfa
          have h2 := hn.sep f (by simp [hf]) (GET s.mem mid) hNin hfN
          unfold apart at h1 h2
          constructor
          · rw [GET_PUT_ne _ _ _ _ (by omega), GET_PUT_ne _ _ _ _ (by omega)]
          · rw [GET_PUT_ne _ _ _ _ (by omega), GET_PUT_ne _ _ _ _ (by omega)]
        · rw [GET_PUT_ne _ _ _ _ (by omega), GET_PUT_ne _ _ _ _ (by omega)]
          exact hPa
        · show FSeg _ _ a0 [] _
          show GET _ a0 = GET s.mem mid
          rw [GET_PUT_ne _ _ _ _ (by omega), GET_PUT_same, Nat.mod_eq_of_lt hNlt]
      · rw [lastOr_concat]
        refine FSeg_set_prev _ B t (GET s.mem mid) mid a0 hnB halt ?_
        refine FSeg_frame s.mem _ B _ _ _ ?_ cB
        intro f hf
        have hfa : f ≠ a0 := by
          intro e
          exact haB (e ▸ hf)
        have h1 := hn.sep f (by simp [hf]) a0 (List.mem_cons_of_mem _ hamem) hfa
        unfold apart at h1
        exact ⟨GET_PUT_ne _ _ _ _ (by omega), GET_PUT_ne _ _ _ _ (by omega)⟩
    · intro q hq
      have h1 := hq a0 (by simp)
      have h2 := hq _ (by
        rcases List.mem_cons.1 hNmem with h | h
        · simp [h]
        · simp [h] : GET s.mem mid ∈ t :: (A2 ++ [a0] ++ B))
      rw [GET_PUT_ne _ _ _ _ (by omega), GET_PUT_ne _ _ _ _ (by omega)]
    · have h := FSeg_head _ _ _ _ _ cA2
      simp only [true_and]
      rw [h]
      cases A2 <;> simp [headOr]

theorem add_free_spec (s : State) (fl : List Nat) (x t : Nat)
    (hn : Nodes t (x :: fl)) (c : FSeg s.mem s.free_listp 0 fl t) :
    FSeg (add_free s x).mem (add_free s x).free_listp 0 (x :: fl) t ∧
    (∀ q, (∀ f ∈ t :: x :: fl, q + 4 ≤ f ∨ f + 8 ≤ q) →
      GET (add_free s x).mem q = GET s.mem q) ∧
    (add_free s x).lo = s.lo ∧ (add_free s x).hi = s.hi ∧
    (add_free s x).brk = s.brk ∧ (add_free s x).four = s.four ∧
    (add_free s x).free_listp = x := by
  have hH := FSeg_head _ _ _ _ _ c
  have hHmem : s.free_listp ∈ t :: fl := hH ▸ headOr_mem t fl
  have hHin : s.free_listp ∈ t :: x :: fl := by
    rcases List.mem_cons.1 hHmem with h | h
    · simp [h]
    · simp [h]
  have hnd := hn.nodup
  have hxt : x ≠ t := by
    intro e; subst e; simp [List.nodup_cons] at hnd
  have hxfl : x ∉ fl := by
    simp only [List.nodup_cons] at hnd
    exact hnd.2.1
  have hxH : x ≠ s.free_listp := by
    intro e
    rw [← e] at hHmem
    rcases List.mem_cons.1 hHmem with h | h
    · exact hxt h
    · exact hxfl h
  have hap := hn.sep x (by simp) _ hHin hxH
  have hHlt := hn.lt _ hHin
  have hxlt := hn.lt x (by simp)
  have hnfl : Nodes t fl := hn.sub (List.sublist_cons_self _ _)
  unfold apart at hap
  unfold add_free
  simp only [WSIZE]
  refine ⟨⟨rfl, ?_, ?_⟩, ?_, ?_⟩
  · rw [GET_PUT_same]; rfl
  · rw [GET_PUT_ne _ _ _ _ (by omega), GET_PUT_ne _ _ _ _ (by omega), GET_PUT_same,
      Nat.mod_eq_of_lt hHlt]
    have c1 : FSeg (PUT s.mem x s.free_listp) s.free_listp 0 fl t := by
      refine FSeg_frame s.mem _ fl _ _ _ ?_ c
      intro f hf
      have hne : f ≠ x := fun e => hxfl (e ▸ hf)
      have h1 := hn.sep f (by simp [hf]) x (by simp) hne
      unfold apart at h1
      exact ⟨GET_PUT_ne _ _ _ _ (by omega), GET_PUT_ne _ _ _ _ (by omega)⟩
    have c2 := FSeg_set_prev _ fl t s.free_listp 0 x hnfl hxlt c1
    refine FSeg_frame _ _ fl _ _ _ ?_ c2
    intro f hf
    have hne : f ≠ x := fun e => hxfl (e ▸ hf)
    have h1 := hn.sep f (by simp [hf]) x (by simp) hne
    unfold apart at h1
    exact ⟨GET_PUT_ne _ _ _ _ (by omega), GET_PUT_ne _ _ _ _ (by omega)⟩
  · intro q hq
    have h1 := hq x (by simp)
    have h2 := hq _ hHin
    rw [GET_PUT_ne _ _ _ _ (by omega), GET_PUT_ne _ _ _ _ (by omega),
      GET_PUT_ne _ _ _ _ (by omega)]
  · simp

/-! ### Boundary tags are apart from the links -/

theorem Contig_disjoint (a e : Nat) (bs : List Blk) (h : Contig a bs e) :
    ∀ b1 ∈ bs, ∀ b2 ∈ bs,
      b1 = b2 ∨ b1.addr + b1.size ≤ b2.addr ∨ b2.addr + b2.size ≤ b1.addr := by
  induction bs generalizing a with
  | nil => simp
  | cons c bs ih =>
    intro b1 h1 b2 h2
    have hc := h.1
    have ht := Contig_mem _ _ _ h.2
    rcases List.mem_cons.1 h1 with e1 | h1t
    · rcases List.mem_cons.1 h2 with e2 | h2t
      · exact Or.inl (e1.trans e2.symm)
      · have := ht b2 h2t
        subst e1
        right; left; omega
    · rcases List.mem_cons.1 h2 with e2 | h2t
      · have := ht b1 h1t
        subst e2
        right; right; omega
      · exact ih _ h.2 b1 h1t b2 h2t

theorem Geo.safe_hdr {lo brk : Nat} {bs : List Blk} {nodes : List Nat} (g : Geo lo brk bs nodes)
    {b : Blk} (hb : b ∈ bs) : Safe (lo + 16) nodes (b.addr - 4) := by
  intro f hf
  have h1 := Contig_mem _ _ _ g.contig b hb
  rcases List.mem_cons.1 hf with rfl | hf
  · omega
  · obtain ⟨c, hc, rfl⟩ := g.isblk f hf
    have h2 := Contig_mem _ _ _ g.contig c hc
    have h3 := g.big c hc
    rcases Contig_disjoint _ _ _ g.contig b hb c hc with rfl | h | h <;> omega

theorem Geo.safe_ftr {lo brk : Nat} {bs : List Blk} {nodes : List Nat} (g : Geo lo brk bs nodes)
    {b : Blk} (hb : b ∈ bs) : Safe (lo + 16) nodes (b.addr + b.size - 8) := by
  intro f hf
  have h1 := Contig_mem _ _ _ g.contig b hb
  have h0 := g.big b hb
  rcases List.mem_cons.1 hf with rfl | hf
  · omega
  · obtain ⟨c, hc, rfl⟩ := g.isblk f hf
    have h2 := Contig_mem _ _ _ g.contig c hc
    have h3 := g.big c hc
    rcases Contig_disjoint _ _ _ g.contig b hb c hc with rfl | h | h <;> omega

theorem Geo.safe_pro_h {lo brk : Nat} {bs : List Blk} {nodes : List Nat}
    (g : Geo lo brk bs nodes) : Safe (lo + 16) nodes (lo + 4) := by
  intro f hf
  rcases List.mem_cons.1 hf with rfl | hf
  · omega
  · obtain ⟨c, hc, rfl⟩ := g.isblk f hf
    have h2 := Contig_mem _ _ _ g.contig c hc
    omega

theorem Geo.safe_pro_f {lo brk : Nat} {bs : List Blk} {nodes : List Nat}
    (g : Geo lo brk bs nodes) : Safe (lo + 16) nodes (lo + 8) := by
  intro f hf
  rcases List.mem_cons.1 hf with rfl | hf
  · omega
  · obtain ⟨c, hc, rfl⟩ := g.isblk f hf
    have h2 := Contig_mem _ _ _ g.contig c hc
    omega

theorem Geo.safe_sent_h {lo brk : Nat} {bs : List Blk} {nodes : List Nat}
    (g : Geo lo brk bs nodes) : Safe (lo + 16) nodes (lo + 12) := by
  intro f hf
  rcases List.mem_cons.1 hf with rfl | hf
  · omega
  · obtain ⟨c, hc, rfl⟩ := g.isblk f hf
    have h2 := Contig_mem _ _ _ g.contig c hc
    omega

theorem Geo.safe_sent_f {lo brk : Nat} {bs : List Blk} {nodes : List Nat}
    (g : Geo lo brk bs nodes) : Safe (lo + 16) nodes (lo + 24) := by
  intro f hf
  rcases List.mem_cons.1 hf with rfl | hf
  · omega
  · obtain ⟨c, hc, rfl⟩ := g.isblk f hf
    have h2 := Contig_mem _ _ _ g.contig c hc
    omega

theorem Geo.safe_epi {lo brk : Nat} {bs : List Blk} {nodes : List Nat}
    (g : Geo lo brk bs nodes) : Safe (lo + 16) nodes (brk - 4) := by
  have hle := Contig_le _ _ _ g.contig
  intro f hf
  rcases List.mem_cons.1 hf with rfl | hf
  · omega
  · obtain ⟨c, hc, rfl⟩ := g.isblk f hf
    have h2 := Contig_mem _ _ _ g.contig c hc
    have h3 := g.big c hc
    omega

theorem Geo.nodes {lo brk : Nat} {bs : List Blk} {nodes : List Nat} (g : Geo lo brk bs nodes)
    (hnd : nodes.Nodup) (hb : brk ≤ WORD) : Nodes (lo + 16) nodes := by
  have hle := Contig_le _ _ _ g.contig
  have key : ∀ f ∈ nodes, lo + 32 ≤ f ∧ f + 16 ≤ brk := by
    intro f hf
    obtain ⟨c, hc, rfl⟩ := g.isblk f hf
    have h2 := Contig_mem _ _ _ g.contig c hc
    have h3 := g.big c hc
    omega
  refine ⟨?_, ?_, ?_, ?_⟩
  · rw [List.nodup_cons]
    refine ⟨?_, hnd⟩
    intro h
    have := key _ h
    omega
  · intro f hf k hk hne
    unfold apart
    rcases List.mem_cons.1 hf with rfl | hf
    · rcases List.mem_cons.1 hk with rfl | hk
      · exact absurd rfl hne
      · have := key _ hk
        omega
    · rcases List.mem_cons.1 hk with rfl | hk
      · have := key _ hf
        omega
      · obtain ⟨c, hc, rfl⟩ := g.isblk f hf
        obtain ⟨d, hd, rfl⟩ := g.isblk k hk
        have h3 := g.big c hc
        have h4 := g.big d hd
        rcases Contig_disjoint _ _ _ g.contig c hc d hd with rfl | h | h
        · exact absurd rfl hne
        · omega
        · omega
  · intro f hf
    rcases List.mem_cons.1 hf with rfl | hf
    · omega
    · have := key _ hf
      omega
  · intro f hf
    have := key _ hf
    omega

theorem Safe.shrink {t : Nat} {nodes nodes2 : List Nat} {q : Nat} (h : Safe t nodes q)
    (hs : ∀ f ∈ nodes2, f ∈ nodes) : Safe t nodes2 q := by
  intro f hf
  rcases List.mem_cons.1 hf with rfl | hf
  · exact h f (by simp)
  · exact h f (List.mem_cons_of_mem _ (hs f hf))

theorem FSeg_PUT_safe (m : Mem) (t p prev q v : Nat) (fl : List Nat) (h : Safe t fl q)
    (c : FSeg m p prev fl t) : FSeg (PUT m q v) p prev fl t := by
  refine FSeg_frame m _ fl _ _ _ ?_ c
  intro f hf
  have := h f (List.mem_cons_of_mem _ hf)
  exact ⟨GET_PUT_ne _ _ _ _ (by omega), GET_PUT_ne _ _ _ _ (by omega)⟩

theorem IsTag.pro_h (s : State) (bs : List Blk) : IsTag s bs (s.lo + 4) := Or.inl rfl

theorem IsTag.pro_f (s : State) (bs : List Blk) : IsTag s bs (s.lo + 8) := Or.inr (Or.inl rfl)

theorem IsTag.sent_h (s : State) (bs : List Blk) : IsTag s bs (s.lo + 12) :=
  Or.inr (Or.inr (Or.inl rfl))

theorem IsTag.sent_f (s : State) (bs : List Blk) : IsTag s bs (s.lo + 24) :=
  Or.inr (Or.inr (Or.inr (Or.inl rfl)))

theorem IsTag.epi (s : State) (bs : List Blk) : IsTag s bs (s.brk - 4) :=
  Or.inr (Or.inr (Or.inr (Or.inr (Or.inl rfl))))

theorem IsTag.hdr (s : State) {bs : List Blk} {b : Blk} (hb : b ∈ bs) :
    IsTag s bs (b.addr - 4) :=
  Or.inr (Or.inr (Or.inr (Or.inr (Or.inr ⟨b, hb, Or.inl rfl⟩))))

theorem IsTag.ftr (s : State) {bs : List Blk} {b : Blk} (hb : b ∈ bs) :
    IsTag s bs (b.addr + b.size - 8) :=
  Or.inr (Or.inr (Or.inr (Or.inr (Or.inr ⟨b, hb, Or.inr rfl⟩))))

theorem Contig_split (a e : Nat) (B1 B2 : List Blk) (c : Blk) (h : Contig a (B1 ++ c :: B2) e) :
    Contig a B1 c.addr ∧ Contig (c.addr + c.size) B2 e ∧ a ≤ c.addr ∧ c.addr + c.size ≤ e ∧
    (∀ b ∈ B1, a ≤ b.addr ∧ b.addr + b.size ≤ c.addr) ∧
    (∀ b ∈ B2, c.addr + c.size ≤ b.addr ∧ b.addr + b.size ≤ e) := by
  rw [Contig_append] at h
  obtain ⟨mid, h1, h2, h3⟩ := h
  subst h2
  have := Contig_le _ _ _ h1
  have := Contig_le _ _ _ h3
  exact ⟨h1, h3, by omega, by omega, Contig_mem _ _ _ h1, Contig_mem _ _ _ h3⟩

theorem Core.geo {s : State} {bs : List Blk} (c : Core s bs) {nodes : List Nat}
    (h : ∀ f ∈ nodes, ∃ b ∈ bs, b.addr = f) : Geo s.lo s.brk bs nodes :=
  ⟨c.contig, fun b hb => (c.ok b hb).2.1, h⟩

theorem Geo.safe_tag {s : State} {bs : List Blk} {nodes : List Nat}
    (g : Geo s.lo s.brk bs nodes) {q : Nat} (hq : IsTag s bs q) : Safe (s.lo + 16) nodes q := by
  rcases hq with rfl | rfl | rfl | rfl | rfl | ⟨b, hb, rfl | rfl⟩
  · exact g.safe_pro_h
  · exact g.safe_pro_f
  · exact g.safe_sent_h
  · exact g.safe_sent_f
  · exact g.safe_epi
  · exact g.safe_hdr hb
  · exact g.safe_ftr hb

theorem Core_frame (s s2 : State) (bs : List Blk) (c : Core s bs)
    (hlo : s2.lo = s.lo) (hhi : s2.hi = s.hi) (hbrk : s2.brk = s.brk)
    (hm : ∀ q, IsTag s bs q → GET s2.mem q = GET s.mem q) : Core s2 bs := by
  refine ⟨by rw [hlo]; exact c.lo8, by rw [hhi]; exact c.hi32, by rw [hhi, hlo]; exact c.small,
    by rw [hhi, hbrk]; exact c.brk_le, ?_, ?_, ?_, ?_, by rw [hlo, hbrk]; exact c.contig, ?_, ?_⟩
  · rw [hlo, hm _ (IsTag.pro_h s _)]; exact c.pro_h
  · rw [hlo, hm _ (IsTag.pro_f s _)]; exact c.pro_f
  · rw [hlo, hm _ (IsTag.sent_h s _)]; exact c.sent_h
  · rw [hlo, hm _ (IsTag.sent_f s _)]; exact c.sent_f
  · intro b hb
    obtain ⟨h1, h2, h3, h4, h5⟩ := c.ok b hb
    refine ⟨h1, h2, h3, ?_, ?_⟩
    · rw [hm _ (IsTag.hdr s hb)]; exact h4
    · rw [hm _ (IsTag.ftr s hb)]; exact h5
  · rw [hbrk, hm _ (IsTag.epi s _)]; exact c.epi

/-- Replace the blocks `ys` of a well-tagged heap by blocks `zs` that cover the same span. -/
theorem Core_replace (s s2 : State) (Lm ys zs Rm : List Blk) (c : Core s (Lm ++ ys ++ Rm))
    (hlo : s2.lo = s.lo) (hhi : s2.hi = s.hi) (hbrk : s2.brk = s.brk)
    (a0 e0 : Nat) (g1 : Contig (s.lo + 32) Lm a0) (g2 : Contig a0 zs e0)
    (g3 : Contig e0 Rm s.brk)
    (hm : ∀ q, IsTag s (Lm ++ Rm) q → GET s2.mem q = GET s.mem q)
    (hz : ∀ z ∈ zs, z.ok s2.mem) : Core s2 (Lm ++ zs ++ Rm) := by
  refine ⟨by rw [hlo]; exact c.lo8, by rw [hhi]; exact c.hi32, by rw [hhi, hlo]; exact c.small,
    by rw [hhi, hbrk]; exact c.brk_le, ?_, ?_, ?_, ?_, ?_, ?_, ?_⟩
  · rw [hlo, hm _ (IsTag.pro_h s _)]; exact c.pro_h
  · rw [hlo, hm _ (IsTag.pro_f s _)]; exact c.pro_f
  · rw [hlo, hm _ (IsTag.sent_h s _)]; exact c.sent_h
  · rw [hlo, hm _ (IsTag.sent_f s _)]; exact c.sent_f
  · rw [hlo, hbrk]
    simp only [Contig_append]
    exact ⟨e0, ⟨a0, g1, g2⟩, g3⟩
  · intro b hb
    rcases List.mem_append.1 hb with hb | hb
    · rcases List.mem_append.1 hb with hb | hb
      · have hb2 : b ∈ Lm ++ Rm := List.mem_append_left _ hb
        obtain ⟨h1, h2, h3, h4, h5⟩ := c.ok b (by simp [hb])
        refine ⟨h1, h2, h3, ?_, ?_⟩
        · rw [hm _ (IsTag.hdr s hb2)]; exact h4
        · rw [hm _ (IsTag.ftr s hb2)]; exact h5
      · exact hz b hb
    · have hb2 : b ∈ Lm ++ Rm := List.mem_append_right _ hb
      obtain ⟨h1, h2, h3, h4, h5⟩ := c.ok b (by simp [hb])
      refine ⟨h1, h2, h3, ?_, ?_⟩
      · rw [hm _ (IsTag.hdr s hb2)]; exact h4
      · rw [hm _ (IsTag.ftr s hb2)]; exact h5
  · rw [hbrk, hm _ (IsTag.epi s _)]; exact c.epi

/-- Tags outside a span are at least four bytes away from every word inside the span. -/
theorem IsTag_outside (s : State) (Lm ys Rm : List Blk) (c : Core s (Lm ++ ys ++ Rm))
    (a0 e0 : Nat) (h1 : Contig (s.lo + 32) Lm a0) (h2 : Contig a0 ys e0) (h3 : Contig e0 Rm s.brk)
    (q : Nat) (hq : IsTag s (Lm ++ Rm) q) : q + 8 ≤ a0 ∨ e0 ≤ q + 4 := by
  have l1 := Contig_le _ _ _ h1
  have l2 := Contig_le _ _ _ h2
  have l3 := Contig_le _ _ _ h3
  rcases hq with rfl | rfl | rfl | rfl | rfl | ⟨b, hb, hq⟩
  · omega
  · omega
  · omega
  · omega
  · omega
  · rcases List.mem_append.1 hb with hb | hb
    · have := Contig_mem _ _ _ h1 b hb
      have := (c.ok b (by simp [hb])).2.1
      rcases hq with rfl | rfl <;> omega
    · have := Contig_mem _ _ _ h3 b hb
      have := (c.ok b (by simp [hb])).2.1
      rcases hq with rfl | rfl <;> omega

theorem mem_middle {α : Type} (L R : List α) (x b : α) :
    b ∈ L ++ x :: R ↔ b = x ∨ b ∈ L ++ R := by
  simp only [List.mem_append, List.mem_cons]
  tauto

/-- Writing the header and the footer of a block `Y` that covers the span of the blocks `ys`. -/
theorem retag (s : State) (Lm ys Rm : List Blk) (Y : Blk) (c : Core s (Lm ++ ys ++ Rm))
    (a0 e0 : Nat) (h1 : Contig (s.lo + 32) Lm a0) (h2 : Contig a0 ys e0)
    (h3 : Contig e0 Rm s.brk) (hYa : Y.addr = a0) (hYe : a0 + Y.size = e0)
    (hY8 : Y.size % 8 = 0) (hY16 : 16 ≤ Y.size) (hYal : Y.alloc ≤ 1) :
    Core { s with mem := PUT (PUT s.mem (Y.addr - 4) (Y.size + Y.alloc))
                           (Y.addr + Y.size - 8) (Y.size + Y.alloc) }
      (Lm ++ [Y] ++ Rm) := by
  have l1 := Contig_le _ _ _ h1
  have l3 := Contig_le _ _ _ h3
  have hs := c.small
  have hb := c.brk_le
  have hw : Y.size + Y.alloc < WORD := by unfold WORD; omega
  refine Core_replace s _ Lm ys [Y] Rm c rfl rfl rfl a0 e0 h1 ⟨hYa, hYe⟩ h3 ?_ ?_
  · intro q hq
    have := IsTag_outside s Lm ys Rm c a0 e0 h1 h2 h3 q hq
    show GET (PUT (PUT s.mem _ _) _ _) q = _
    rw [GET_PUT_ne _ _ _ _ (by omega), GET_PUT_ne _ _ _ _ (by omega)]
  · intro z hz
    simp only [List.mem_singleton] at hz
    subst hz
    refine ⟨hY8, hY16, hYal, ?_, ?_⟩
    · show GET (PUT (PUT s.mem _ _) _ _) _ = _
      rw [GET_PUT_ne _ _ _ _ (by omega), GET_PUT_same, Nat.mod_eq_of_lt hw]
    · show GET (PUT (PUT s.mem _ _) _ _) _ = _
      rw [GET_PUT_same, Nat.mod_eq_of_lt hw]

theorem fields_add_free (s : State) (x : Nat) :
    (add_free s x).lo = s.lo ∧ (add_free s x).hi = s.hi ∧ (add_free s x).brk = s.brk ∧
    (add_free s x).four = s.four ∧ (add_free s x).free_listp = x := by
  simp [add_free]

/-- Entering the free list: the last step of `coalesce`. -/
theorem finish_add (s : State) (L R : List Blk) (x : Blk) (fl : List Nat)
    (c : Core s (L ++ x :: R)) (hx : x.alloc = 0) (hadj : (L ++ x :: R).Chain' adjOK)
    (hl : Listed s (L ++ R) fl) :
    Inv (add_free s x.addr) (L ++ x :: R) (x.addr :: fl) := by
  obtain ⟨cl, cr, _, _, hL, hR⟩ := Contig_split _ _ _ _ _ c.contig
  have hx16 := (c.ok x (by simp)).2.1
  have hisblk : ∀ f ∈ x.addr :: fl, ∃ b ∈ L ++ x :: R, b.addr = f := by
    intro f hf
    rcases List.mem_cons.1 hf with rfl | hf
    · exact ⟨x, by simp, rfl⟩
    · obtain ⟨b, hb, hba, _⟩ := (hl.mem_fl f).1 hf
      exact ⟨b, (mem_middle L R x b).2 (Or.inr hb), hba⟩
  have hxfl : x.addr ∉ fl := by
    intro h
    obtain ⟨b, hb, hba, _⟩ := (hl.mem_fl _).1 h
    rcases List.mem_append.1 hb with hb | hb
    · have := hL b hb
      have := (c.ok b (by simp [hb])).2.1
      omega
    · have := hR b hb
      omega
  have g : Geo s.lo s.brk (L ++ x :: R) (x.addr :: fl) := c.geo hisblk
  have hnodes : Nodes (s.lo + 16) (x.addr :: fl) :=
    g.nodes (List.nodup_cons.2 ⟨hxfl, hl.nodup⟩) (le_trans c.brk_le c.hi32)
  obtain ⟨hchain, hframe, f1, f2, f3, _, f5⟩ := add_free_spec s fl x.addr (s.lo + 16) hnodes hl.chain
  refine ⟨?_, hadj, ?_⟩
  · exact Core_frame s _ _ c f1 f2 f3 (fun q hq => hframe q (g.safe_tag hq))
  · refine ⟨List.nodup_cons.2 ⟨hxfl, hl.nodup⟩, ?_, ?_⟩
    · intro a
      constructor
      · intro ha
        rcases List.mem_cons.1 ha with rfl | ha
        · exact ⟨x, by simp, rfl, hx⟩
        · obtain ⟨b, hb, hba, hb0⟩ := (hl.mem_fl a).1 ha
          exact ⟨b, (mem_middle L R x b).2 (Or.inr hb), hba, hb0⟩
      · rintro ⟨b, hb, hba, hb0⟩
        rcases (mem_middle L R x b).1 hb with rfl | hb
        · simp [hba]
        · exact List.mem_cons_of_mem _ ((hl.mem_fl a).2 ⟨b, hb, hba, hb0⟩)
    · rw [f1]
      exact hchain

/-! ### Reading the neighbours of a block -/

theorem Blk.ok.hdr_read {m : Mem} {b : Blk} (h : b.ok m) :
    GET_SIZE m (HDRP b.addr) = b.size ∧ GET_ALLOC m (HDRP b.addr) = b.alloc := by
  obtain ⟨h1, _, h3, h4, _⟩ := h
  exact tag_read m _ _ _ h4 h1 (by omega)

theorem Blk.ok.ftr_read {m : Mem} {b : Blk} (h : b.ok m) :
    GET_SIZE m (b.addr + b.size - 8) = b.size ∧ GET_ALLOC m (b.addr + b.size - 8) = b.alloc := by
  obtain ⟨h1, _, h3, _, h5⟩ := h
  exact tag_read m _ _ _ h5 h1 (by omega)

theorem Blk.ok.ftrp {m : Mem} {b : Blk} (h : b.ok m) : FTRP m b.addr = b.addr + b.size - 8 := by
  unfold FTRP ALIGNMENT
  rw [h.hdr_read.1]

theorem Blk.ok.next_blkp {m : Mem} {b : Blk} (h : b.ok m) : NEXT_BLKP m b.addr = b.addr + b.size := by
  unfold NEXT_BLKP
  rw [h.hdr_read.1]

/-- What `coalesce` and `mm_realloc` see below the block `x`: the address, size and allocated bit
of the physical predecessor, which is the sentinel block when `x` is the first block. -/
theorem prev_read (s : State) (L R : List Blk) (x : Blk) (c : Core s (L ++ x :: R)) :
    (L = [] ∧ PREV_BLKP s.mem x.addr = s.lo + 16 ∧
      GET_ALLOC s.mem (FTRP s.mem (s.lo + 16)) = 1 ∧ GET_ALLOC s.mem (HDRP (s.lo + 16)) = 1) ∨
    (∃ L2 p, L = L2 ++ [p] ∧ PREV_BLKP s.mem x.addr = p.addr ∧ p.addr + p.size = x.addr ∧
      p.ok s.mem) := by
  obtain ⟨cl, _, _, _, _, _⟩ := Contig_split _ _ _ _ _ c.contig
  rcases List.eq_nil_or_concat L with hL | ⟨L2, p, hL⟩
  · left
    subst hL
    simp only [Contig] at cl
    have hf := tag_read s.mem (s.lo + 24) 16 1 c.sent_f (by norm_num) (by norm_num)
    have hh := tag_read s.mem (s.lo + 12) 16 1 c.sent_h (by norm_num) (by norm_num)
    have e1 : x.addr - 8 = s.lo + 24 := by omega
    have e2 : s.lo + 16 - 4 = s.lo + 12 := by omega
    refine ⟨rfl, ?_, ?_, ?_⟩
    · unfold PREV_BLKP ALIGNMENT
      rw [e1, hf.1]; omega
    · unfold FTRP HDRP WSIZE ALIGNMENT
      rw [e2, hh.1]
      have e3 : s.lo + 16 + 16 - 8 = s.lo + 24 := by omega
      rw [e3, hf.2]
    · unfold HDRP WSIZE
      rw [e2, hh.2]
  · right
    rw [List.concat_eq_append] at hL
    subst hL
    have hp := c.ok p (by simp)
    have he := Contig_end _ _ _ _ cl
    refine ⟨L2, p, rfl, ?_, he, hp⟩
    unfold PREV_BLKP ALIGNMENT
    have e1 : x.addr - 8 = p.addr + p.size - 8 := by omega
    rw [e1, hp.ftr_read.1]
    omega

/-- What `coalesce` and `mm_realloc` see above the block `x`: the header of the physical
successor, which is the epilogue header when `x` is the last block. -/
theorem next_read (s : State) (L R : List Blk) (x : Blk) (c : Core s (L ++ x :: R)) :
    NEXT_BLKP s.mem x.addr = x.addr + x.size ∧
    ((R = [] ∧ GET_ALLOC s.mem (HDRP (x.addr + x.size)) = 1) ∨
     (∃ n R2, R = n :: R2 ∧ n.addr = x.addr + x.size ∧ n.ok s.mem)) := by
  obtain ⟨_, cr, _, _, _, _⟩ := Contig_split _ _ _ _ _ c.contig
  have hx := c.ok x (by simp)
  refine ⟨hx.next_blkp, ?_⟩
  cases R with
  | nil =>
    left
    simp only [Contig] at cr
    refine ⟨rfl, ?_⟩
    unfold HDRP WSIZE
    rw [cr]
    exact (tag_read s.mem _ 0 1 (by simpa using c.epi) (by norm_num) (by norm_num)).2
  | cons n R2 =>
    right
    exact ⟨n, R2, rfl, cr.1, c.ok n (by simp)⟩

/-- Unlinking the free block `n`: the list loses exactly that node and no boundary tag moves. -/
theorem Listed_remove (s : State) (full bs bs2 : List Blk) (fl : List Nat) (n : Blk)
    (c : Core s full) (hl : Listed s bs fl) (hsub : ∀ b ∈ bs, b ∈ full)
    (hn : n ∈ bs) (hn0 : n.alloc = 0)
    (hbs2 : ∀ b, b ∈ bs2 ↔ b ∈ bs ∧ b.addr ≠ n.addr) :
    Listed (remove_from_free s n.addr) bs2 (fl.erase n.addr) ∧
    Core (remove_from_free s n.addr) full ∧
    (remove_from_free s n.addr).lo = s.lo ∧ (remove_from_free s n.addr).hi = s.hi ∧
    (remove_from_free s n.addr).brk = s.brk ∧ (remove_from_free s n.addr).four = s.four ∧
    (∀ q, IsTag s full q → GET (remove_from_free s n.addr).mem q = GET s.mem q) := by
  have hnfl : n.addr ∈ fl := (hl.mem_fl _).2 ⟨n, hn, rfl, hn0⟩
  obtain ⟨A, B, _, hfl, herase⟩ := List.exists_erase_eq hnfl
  have g : Geo s.lo s.brk full fl := c.geo (fun f hf => by
    obtain ⟨b, hb, e, _⟩ := (hl.mem_fl f).1 hf
    exact ⟨b, hsub b hb, e⟩)
  have nodes := g.nodes hl.nodup (le_trans c.brk_le c.hi32)
  have chain := hl.chain
  rw [hfl] at nodes chain
  obtain ⟨hchain, hframe, f1, f2, f3, f4, _⟩ :=
    remove_from_free_spec s A B n.addr (s.lo + 16) nodes chain
  have hsafe : ∀ q, IsTag s full q → GET (remove_from_free s n.addr).mem q = GET s.mem q := by
    intro q hq
    apply hframe
    have h1 : Safe (s.lo + 16) fl q := g.safe_tag hq
    refine h1.shrink ?_
    intro f hf
    rw [hfl]
    simp only [List.mem_append, List.mem_cons] at hf ⊢
    tauto
  refine ⟨⟨?_, ?_, ?_⟩, Core_frame s _ _ c f1 f2 f3 hsafe, f1, f2, f3, f4, hsafe⟩
  · exact hl.nodup.erase _
  · intro a
    rw [hl.nodup.mem_erase_iff, hl.mem_fl]
    constructor
    · rintro ⟨hne, b, hb, hba, hb0⟩
      exact ⟨b, (hbs2 b).2 ⟨hb, by rw [hba]; exact hne⟩, hba, hb0⟩
    · rintro ⟨b, hb, hba, hb0⟩
      obtain ⟨hb1, hb2⟩ := (hbs2 b).1 hb
      exact ⟨by rw [← hba]; exact hb2, b, hb1, hba, hb0⟩
  · rw [f1, herase]
    exact hchain

/-! ### The four cases of coalescing -/

theorem chain_mid (L R : List Blk) (x : Blk) (hL : L.Chain' adjOK) (hR : R.Chain' adjOK)
    (h1 : ∀ p ∈ L.getLast?, adjOK p x) (h2 : ∀ n ∈ R.head?, adjOK x n) :
    (L ++ x :: R).Chain' adjOK := by
  rw [List.chain'_append]
  refine ⟨hL, ?_, ?_⟩
  · rw [List.chain'_cons']
    exact ⟨h2, hR⟩
  · intro p hp y hy
    simp only [List.head?_cons, Option.mem_def, Option.some.injEq] at hy
    subst hy
    exact h1 p hp

theorem chain_left (L R : List Blk) (h : (L ++ R).Chain' adjOK) : L.Chain' adjOK :=
  ((List.chain'_append).1 h).1

theorem chain_right (L R : List Blk) (h : (L ++ R).Chain' adjOK) : R.Chain' adjOK :=
  ((List.chain'_append).1 h).2.1

theorem prev_cases (s : State) (L R : List Blk) (x : Blk) (c : Core s (L ++ x :: R)) :
    PrevAlloc L ∨ ∃ L2 p, L = L2 ++ [p] ∧ p.alloc = 0 := by
  rcases List.eq_nil_or_concat L with hL | ⟨L2, p, hL⟩
  · exact Or.inl (Or.inl hL)
  · rw [List.concat_eq_append] at hL
    have hp := (c.ok p (by simp [hL])).2.2.1
    rcases Nat.eq_zero_or_pos p.alloc with h0 | h0
    · exact Or.inr ⟨L2, p, hL, h0⟩
    · exact Or.inl (Or.inr ⟨L2, p, hL, by omega⟩)

theorem next_cases (s : State) (L R : List Blk) (x : Blk) (c : Core s (L ++ x :: R)) :
    NextAlloc R ∨ ∃ n R2, R = n :: R2 ∧ n.alloc = 0 := by
  cases R with
  | nil => exact Or.inl (Or.inl rfl)
  | cons n R2 =>
    have hp := (c.ok n (by simp)).2.2.1
    rcases Nat.eq_zero_or_pos n.alloc with h0 | h0
    · exact Or.inr ⟨n, R2, rfl, h0⟩
    · exact Or.inl (Or.inr ⟨n, R2, rfl, by omega⟩)

theorem prev_flag_alloc (s : State) (L R : List Blk) (x : Blk) (c : Core s (L ++ x :: R))
    (h : PrevAlloc L) : GET_ALLOC s.mem (FTRP s.mem (PREV_BLKP s.mem x.addr)) = 1 := by
  rcases prev_read s L R x c with ⟨_, h1, h2, _⟩ | ⟨L2, p, hL, h1, _, hp⟩
  · rw [h1, h2]
  · rw [h1, hp.ftrp, hp.ftr_read.2]
    rcases h with h | ⟨L3, p3, hL3, hp3⟩
    · simp [h] at hL
    · rw [hL] at hL3
      have := List.append_inj_right' hL3 rfl
      simp only [List.cons.injEq, and_true] at this
      rw [this]; exact hp3

theorem prev_flag_free (s : State) (L2 R : List Blk) (p x : Blk)
    (c : Core s (L2 ++ [p] ++ x :: R)) (h : p.alloc = 0) :
    GET_ALLOC s.mem (FTRP s.mem (PREV_BLKP s.mem x.addr)) = 0 ∧
    PREV_BLKP s.mem x.addr = p.addr ∧ p.addr + p.size = x.addr ∧ p.ok s.mem := by
  rcases prev_read s (L2 ++ [p]) R x c with ⟨h0, _⟩ | ⟨L3, p3, hL3, h1, h2, hp⟩
  · simp at h0
  · have := List.append_inj_right' hL3 rfl
    simp only [List.cons.injEq, and_true] at this
    subst this
    exact ⟨by rw [h1, hp.ftrp, hp.ftr_read.2, h], h1, h2, hp⟩

theorem next_flag_alloc (s : State) (L R : List Blk) (x : Blk) (c : Core s (L ++ x :: R))
    (h : NextAlloc R) : GET_ALLOC s.mem (HDRP (NEXT_BLKP s.mem x.addr)) = 1 := by
  obtain ⟨h1, h2⟩ := next_read s L R x c
  rw [h1]
  rcases h2 with ⟨_, h3⟩ | ⟨n, R2, hR, hn, hok⟩
  · exact h3
  · rw [← hn, hok.hdr_read.2]
    rcases h with h | ⟨n3, R3, hR3, hn3⟩
    · simp [h] at hR
    · rw [hR] at hR3
      simp only [List.cons.injEq] at hR3
      rw [hR3.1]; exact hn3

theorem next_flag_free (s : State) (L R2 : List Blk) (x n : Blk)
    (c : Core s (L ++ x :: n :: R2)) (h : n.alloc = 0) :
    GET_ALLOC s.mem (HDRP (NEXT_BLKP s.mem x.addr)) = 0 ∧
    NEXT_BLKP s.mem x.addr = n.addr ∧ n.addr = x.addr + x.size ∧ n.ok s.mem := by
  obtain ⟨h1, h2⟩ := next_read s L (n :: R2) x c
  rcases h2 with ⟨h0, _⟩ | ⟨n3, R3, hR3, hn, hok⟩
  · simp at h0
  · simp only [List.cons.injEq] at hR3
    obtain ⟨e1, _⟩ := hR3
    subst e1
    exact ⟨by rw [h1, ← hn, hok.hdr_read.2, h], by rw [h1, hn], hn, hok⟩

theorem adj_of_prevAlloc (L : List Blk) (x : Blk) (h : PrevAlloc L) :
    ∀ p ∈ L.getLast?, adjOK p x := by
  intro p hp
  rcases h with h | ⟨L2, p2, hL, hp2⟩
  · simp [h] at hp
  · subst hL
    simp at hp
    subst hp
    left; omega

theorem adj_of_nextAlloc (R : List Blk) (x : Blk) (h : NextAlloc R) :
    ∀ n ∈ R.head?, adjOK x n := by
  intro n hn
  rcases h with h | ⟨n2, R2, hR, hn2⟩
  · simp [h] at hn
  · subst hR
    simp at hn
    subst hn
    right; omega

theorem coalesce_NN (s : State) (L R : List Blk) (x : Blk) (fl : List Nat)
    (h : PreInv s L x R fl) (hL : PrevAlloc L) (hR : NextAlloc R) :
    coalesce s x.addr = (add_free s x.addr, x.addr) ∧
    Inv (add_free s x.addr) (L ++ x :: R) (x.addr :: fl) := by
  have e1 := prev_flag_alloc s L R x h.core hL
  have e2 := next_flag_alloc s L R x h.core hR
  constructor
  · unfold coalesce
    simp only [e1, e2]
    simp
  · exact finish_add s L R x fl h.core h.xfree
      (chain_mid L R x h.noadjL h.noadjR (adj_of_prevAlloc L x hL) (adj_of_nextAlloc R x hR))
      h.listed

/-- The two `PUT`s that write a header and then, through `FTRP`, the matching footer. -/
theorem retag_mem (m : Mem) (bp size a : Nat) (h8 : size % 8 = 0) (ha : a < 2)
    (hw : size + a < WORD) :
    PUT (PUT m (HDRP bp) (PACK size a)) (FTRP (PUT m (HDRP bp) (PACK size a)) bp) (PACK size a) =
    PUT (PUT m (bp - 4) (size + a)) (bp + size - 8) (size + a) := by
  have e : FTRP (PUT m (HDRP bp) (size + a)) bp = bp + size - 8 := by
    unfold FTRP ALIGNMENT
    have := tag_read (PUT m (HDRP bp) (size + a)) (HDRP bp) size a
      (by rw [GET_PUT_same, Nat.mod_eq_of_lt hw]) h8 ha
    rw [this.1]
  simp only [PACK_eq _ _ h8 ha, e]
  rfl

theorem merge_finish (s1 : State) (Lm ys Rm : List Blk) (Y : Blk) (fl1 : List Nat)
    (c : Core s1 (Lm ++ ys ++ Rm)) (a0 e0 : Nat) (h1 : Contig (s1.lo + 32) Lm a0)
    (h2 : Contig a0 ys e0) (h3 : Contig e0 Rm s1.brk) (hYa : Y.addr = a0)
    (hYe : a0 + Y.size = e0) (hY8 : Y.size % 8 = 0) (hY16 : 16 ≤ Y.size) (hY0 : Y.alloc = 0)
    (hl : Listed s1 (Lm ++ Rm) fl1) (hadj : (Lm ++ Y :: Rm).Chain' adjOK) :
    Inv (add_free { s1 with mem := (PUT (PUT s1.mem (Y.addr - 4) (Y.size + Y.alloc))
                           (Y.addr + Y.size - 8) (Y.size + Y.alloc)) } Y.addr)
      (Lm ++ Y :: Rm) (Y.addr :: fl1) := by
  have c2 := retag s1 Lm ys Rm Y c a0 e0 h1 h2 h3 hYa hYe hY8 hY16 (by omega)
  have e : Lm ++ [Y] ++ Rm = Lm ++ Y :: Rm := by simp
  rw [e] at c2
  have g : Geo s1.lo s1.brk (Lm ++ Y :: Rm) fl1 := by
    refine ⟨c2.contig, fun b hb => (c2.ok b hb).2.1, ?_⟩
    intro f hf
    obtain ⟨b, hb, hba, _⟩ := (hl.mem_fl f).1 hf
    exact ⟨b, (mem_middle Lm Rm Y b).2 (Or.inr hb), hba⟩
  have hY : Y ∈ Lm ++ Y :: Rm := by simp
  refine finish_add _ Lm Rm Y fl1 c2 hY0 hadj ⟨hl.nodup, hl.mem_fl, ?_⟩
  show FSeg (PUT (PUT s1.mem _ _) _ _) s1.free_listp 0 fl1 (s1.lo + 16)
  exact FSeg_PUT_safe _ _ _ _ _ _ _ (g.safe_ftr hY)
    (FSeg_PUT_safe _ _ _ _ _ _ _ (g.safe_hdr hY) hl.chain)

theorem coalesce_NF (s : State) (L R2 : List Blk) (x n : Blk) (fl : List Nat)
    (h : PreInv s L x (n :: R2) fl) (hL : PrevAlloc L) (hn : n.alloc = 0) :
    (coalesce s x.addr).2 = x.addr ∧
    Inv (coalesce s x.addr).1 (L ++ ⟨x.addr, x.size + n.size, 0⟩ :: R2)
      (x.addr :: fl.erase n.addr) ∧
    (coalesce s x.addr).1.lo = s.lo ∧ (coalesce s x.addr).1.hi = s.hi ∧
    (coalesce s x.addr).1.brk = s.brk ∧ (coalesce s x.addr).1.four = s.four := by
  have c := h.core
  have e1 := prev_flag_alloc s L _ x c hL
  obtain ⟨e2, e3, e4, hnok⟩ := next_flag_free s L R2 x n c hn
  have hxok := c.ok x (by simp)
  obtain ⟨cl, cr, hlo, hhi, hLb, hRb⟩ := Contig_split _ _ _ _ _ c.contig
  have hsm := c.small
  have hbl := c.brk_le
  have hnb := hRb n (by simp)
  have hsz : (GET_SIZE s.mem (HDRP x.addr) + GET_SIZE s.mem (HDRP (NEXT_BLKP s.mem x.addr)))
      % WORD = x.size + n.size := by
    rw [e3, hxok.hdr_read.1, hnok.hdr_read.1]
    apply Nat.mod_eq_of_lt
    unfold WORD; omega
  have cfull : Core s ((L ++ [x]) ++ n :: R2) := by
    have e : (L ++ [x]) ++ n :: R2 = L ++ x :: n :: R2 := by simp
    rw [e]; exact c
  obtain ⟨_, cr2, _, _, hLb2, hRb2⟩ := Contig_split _ _ _ _ _ cfull.contig
  obtain ⟨hl1, c1, f1, f2, f3, f4, _⟩ := Listed_remove s (L ++ x :: n :: R2) (L ++ n :: R2)
    (L ++ R2) fl n c h.listed (fun b hb => by
      simp only [List.mem_append, List.mem_cons] at hb ⊢; tauto) (by simp) hn (by
      intro b
      constructor
      · intro hb
        refine ⟨by simp only [List.mem_append, List.mem_cons] at hb ⊢; tauto, ?_⟩
        rcases List.mem_append.1 hb with hb | hb
        · have := hLb2 b (by simp [hb])
          have := (c.ok b (by simp [hb])).2.1
          omega
        · have := hRb2 b hb
          have := hnok.2.1
          omega
      · rintro ⟨hb, hne⟩
        simp only [List.mem_append, List.mem_cons] at hb ⊢
        rcases hb with hb | rfl | hb
        · exact Or.inl hb
        · exact absurd rfl hne
        · exact Or.inr hb)
  have c1' : Core (remove_from_free s n.addr) (L ++ [x, n] ++ R2) := by
    have e : L ++ [x, n] ++ R2 = L ++ x :: n :: R2 := by simp
    rw [e]; exact c1
  have hadj : (L ++ (⟨x.addr, x.size + n.size, 0⟩ : Blk) :: R2).Chain' adjOK := by
    refine chain_mid L R2 _ h.noadjL ?_ (adj_of_prevAlloc L _ hL) ?_
    · exact (List.chain'_cons'.1 h.noadjR).2
    · intro r hr
      have := (List.chain'_cons'.1 h.noadjR).1 r hr
      unfold adjOK at this ⊢
      rcases this with h | h
      · exact absurd hn h
      · exact Or.inr h
  have hfin := merge_finish (remove_from_free s n.addr) L [x, n] R2
    ⟨x.addr, x.size + n.size, 0⟩ (fl.erase n.addr) c1' x.addr (x.addr + x.size + n.size)
    (by rw [f1]; exact cl) ⟨rfl, e4, rfl⟩ (by rw [f3, ← e4]; exact cr2) rfl
    (by simp only; omega)
    (by simp only; have := hxok.1; have := hnok.1; omega)
    (by simp only; have := hxok.2.1; omega) rfl hl1 hadj
  have hcode : coalesce s x.addr =
      (add_free { (remove_from_free s n.addr) with
          mem := (PUT (PUT (remove_from_free s n.addr).mem (x.addr - 4) (x.size + n.size + 0))
                   (x.addr + (x.size + n.size) - 8) (x.size + n.size + 0)) } x.addr, x.addr) := by
    unfold coalesce
    simp only [e1, e2, hsz]
    simp only [ne_eq, one_ne_zero, not_false_eq_true, and_self, if_true, e3]
    rw [retag_mem _ x.addr (x.size + n.size) 0 (by have := hxok.1; have := hnok.1; omega)
      (by norm_num) (by unfold WORD; omega)]
  rw [hcode]
  refine ⟨rfl, hfin, ?_⟩
  simp only [fields_add_free]
  exact ⟨f1, f2, f3, f4⟩

theorem adj_last_of_free (L2 : List Blk) (p y : Blk) (h : (L2 ++ [p]).Chain' adjOK)
    (hp : p.alloc = 0) : ∀ q ∈ L2.getLast?, adjOK q y := by
  intro q hq
  have := ((List.chain'_append).1 h).2.2 q hq p (by simp)
  unfold adjOK at this ⊢
  rcases this with h1 | h1
  · exact Or.inl h1
  · exact absurd hp h1

theorem adj_head_of_free (R2 : List Blk) (n y : Blk) (h : (n :: R2).Chain' adjOK)
    (hn : n.alloc = 0) : ∀ r ∈ R2.head?, adjOK y r := by
  intro r hr
  have := (List.chain'_cons'.1 h).1 r hr
  unfold adjOK at this ⊢
  rcases this with h1 | h1
  · exact absurd hn h1
  · exact Or.inr h1

theorem coalesce_FN (s : State) (L2 R : List Blk) (p x : Blk) (fl : List Nat)
    (h : PreInv s (L2 ++ [p]) x R fl) (hp : p.alloc = 0) (hR : NextAlloc R) :
    (coalesce s x.addr).2 = p.addr ∧
    Inv (coalesce s x.addr).1 (L2 ++ ⟨p.addr, x.size + p.size, 0⟩ :: R)
      (p.addr :: fl.erase p.addr) ∧
    (coalesce s x.addr).1.lo = s.lo ∧ (coalesce s x.addr).1.hi = s.hi ∧
    (coalesce s x.addr).1.brk = s.brk ∧ (coalesce s x.addr).1.four = s.four := by
  have c := h.core
  obtain ⟨e1, e3, e4, hpok⟩ := prev_flag_free s L2 R p x c hp
  have e2 := next_flag_alloc s _ R x c hR
  have hxok := c.ok x (by simp)
  obtain ⟨cl, cr, hlo, hhi, hLb, hRb⟩ := Contig_split _ _ _ _ _ c.contig
  have hsm := c.small
  have hbl := c.brk_le
  have hpb := hLb p (by simp)
  have hsz : (GET_SIZE s.mem (HDRP x.addr) + GET_SIZE s.mem (HDRP (PREV_BLKP s.mem x.addr)))
      % WORD = x.size + p.size := by
    rw [e3, hxok.hdr_read.1, hpok.hdr_read.1]
    apply Nat.mod_eq_of_lt
    unfold WORD; omega
  have cfull : Core s (L2 ++ p :: x :: R) := by
    have e : L2 ++ p :: x :: R = L2 ++ [p] ++ x :: R := by simp
    rw [e]; exact c
  obtain ⟨cl2, _, _, _, hLb2, hRb2⟩ := Contig_split _ _ _ _ _ cfull.contig
  obtain ⟨hl1, c1, f1, f2, f3, f4, _⟩ := Listed_remove s (L2 ++ p :: x :: R) (L2 ++ [p] ++ R)
    (L2 ++ R) fl p cfull h.listed (fun b hb => by
      simp only [List.mem_append, List.mem_cons, List.mem_singleton] at hb ⊢; tauto) (by simp) hp
      (by
      intro b
      constructor
      · intro hb
        refine ⟨by simp only [List.mem_append, List.mem_cons] at hb ⊢; tauto, ?_⟩
        rcases List.mem_append.1 hb with hb | hb
        · have := hLb2 b hb
          have := (cfull.ok b (by simp [hb])).2.1
          omega
        · have := hRb2 b (by simp [hb])
          have := hpok.2.1
          omega
      · rintro ⟨hb, hne⟩
        simp only [List.mem_append, List.mem_singleton] at hb ⊢
        rcases hb with (hb | rfl) | hb
        · exact Or.inl hb
        · exact absurd rfl hne
        · exact Or.inr hb)
  have c1' : Core (remove_from_free s p.addr) (L2 ++ [p, x] ++ R) := by
    have e : L2 ++ [p, x] ++ R = L2 ++ p :: x :: R := by simp
    rw [e]; exact c1
  have hadj : (L2 ++ (⟨p.addr, x.size + p.size, 0⟩ : Blk) :: R).Chain' adjOK :=
    chain_mid L2 R _ (chain_left _ _ h.noadjL) h.noadjR (adj_last_of_free L2 p _ h.noadjL hp)
      (adj_of_nextAlloc R _ hR)
  have hfin := merge_finish (remove_from_free s p.addr) L2 [p, x] R
    ⟨p.addr, x.size + p.size, 0⟩ (fl.erase p.addr) c1' p.addr (p.addr + p.size + x.size)
    (by rw [f1]; exact cl2) ⟨rfl, e4.symm, rfl⟩ (by rw [f3, e4]; exact cr) rfl
    (by simp only; omega)
    (by simp only; have := hxok.1; have := hpok.1; omega)
    (by simp only; have := hxok.2.1; omega) rfl hl1 hadj
  have hcode : coalesce s x.addr =
      (add_free { (remove_from_free s p.addr) with
          mem := (PUT (PUT (remove_from_free s p.addr).mem (p.addr - 4) (x.size + p.size + 0))
                   (p.addr + (x.size + p.size) - 8) (x.size + p.size + 0)) } p.addr, p.addr) := by
    unfold coalesce
    simp only [e1, e2, hsz]
    simp only [ne_eq, one_ne_zero, not_false_eq_true, and_self, if_true, e3, and_false,
      if_false, not_true_eq_false, false_and]
    rw [retag_mem _ p.addr (x.size + p.size) 0 (by have := hxok.1; have := hpok.1; omega)
      (by norm_num) (by unfold WORD; omega)]
  rw [hcode]
  refine ⟨rfl, hfin, ?_⟩
  simp only [fields_add_free]
  exact ⟨f1, f2, f3, f4⟩

theorem coalesce_FF (s : State) (L2 R2 : List Blk) (p x n : Blk) (fl : List Nat)
    (h : PreInv s (L2 ++ [p]) x (n :: R2) fl) (hp : p.alloc = 0) (hn : n.alloc = 0) :
    (coalesce s x.addr).2 = p.addr ∧
    Inv (coalesce s x.addr).1 (L2 ++ ⟨p.addr, x.size + (p.size + n.size), 0⟩ :: R2)
      (p.addr :: (fl.erase p.addr).erase n.addr) ∧
    (coalesce s x.addr).1.lo = s.lo ∧ (coalesce s x.addr).1.hi = s.hi ∧
    (coalesce s x.addr).1.brk = s.brk ∧ (coalesce s x.addr).1.four = s.four := by
  have c := h.core
  obtain ⟨e1, e3, e4, hpok⟩ := prev_flag_free s L2 _ p x c hp
  obtain ⟨e2, e5, e6, hnok⟩ := next_flag_free s _ R2 x n c hn
  have hxok := c.ok x (by simp)
  have hsm := c.small
  have hbl := c.brk_le
  have cfull : Core s (L2 ++ p :: x :: n :: R2) := by
    have e : L2 ++ p :: x :: n :: R2 = L2 ++ [p] ++ x :: n :: R2 := by simp
    rw [e]; exact c
  obtain ⟨cl2, _, _, _, hLb2, hRb2⟩ := Contig_split _ _ _ _ _ cfull.contig
  have cfull3 : Core s ((L2 ++ [p, x]) ++ n :: R2) := by
    have e : (L2 ++ [p, x]) ++ n :: R2 = L2 ++ [p] ++ x :: n :: R2 := by simp
    rw [e]; exact c
  obtain ⟨_, cr3, _, hnbrk, hLb3, hRb3⟩ := Contig_split _ _ _ _ _ cfull3.contig
  have hsz : (GET_SIZE s.mem (HDRP x.addr) + (GET_SIZE s.mem (HDRP (PREV_BLKP s.mem x.addr))
      + GET_SIZE s.mem (HDRP (NEXT_BLKP s.mem x.addr)))) % WORD
      = x.size + (p.size + n.size) := by
    rw [e3, e5, hxok.hdr_read.1, hpok.hdr_read.1, hnok.hdr_read.1]
    apply Nat.mod_eq_of_lt
    have := hLb2
    unfold WORD; omega
  -- unlink the predecessor
  obtain ⟨hl1, c1, f1, f2, f3, f4, _⟩ := Listed_remove s (L2 ++ p :: x :: n :: R2)
    (L2 ++ [p] ++ n :: R2) (L2 ++ n :: R2) fl p cfull h.listed (fun b hb => by
      simp only [List.mem_append, List.mem_cons, List.mem_singleton] at hb ⊢; tauto) (by simp) hp
      (by
      intro b
      constructor
      · intro hb
        refine ⟨by simp only [List.mem_append, List.mem_cons] at hb ⊢; tauto, ?_⟩
        rcases List.mem_append.1 hb with hb | hb
        · have := hLb2 b hb
          have := (cfull.ok b (by simp [hb])).2.1
          omega
        · have := hRb2 b (by simp only [List.mem_cons] at hb ⊢; tauto)
          have := hpok.2.1
          omega
      · rintro ⟨hb, hne⟩
        simp only [List.mem_append, List.mem_singleton] at hb ⊢
        rcases hb with (hb | rfl) | hb
        · exact Or.inl hb
        · exact absurd rfl hne
        · exact Or.inr hb)
  -- unlink the successor
  obtain ⟨hl2, c2, g1, g2, g3, g4, _⟩ := Listed_remove (remove_from_free s p.addr)
    (L2 ++ p :: x :: n :: R2) (L2 ++ n :: R2) (L2 ++ R2) (fl.erase p.addr) n c1 hl1
    (fun b hb => by
      simp only [List.mem_append, List.mem_cons] at hb ⊢; tauto) (by simp) hn
      (by
      intro b
      constructor
      · intro hb
        refine ⟨by simp only [List.mem_append, List.mem_cons] at hb ⊢; tauto, ?_⟩
        rcases List.mem_append.1 hb with hb | hb
        · have := hLb3 b (by simp [hb])
          have := (cfull.ok b (by simp [hb])).2.1
          omega
        · have := hRb3 b hb
          have := hnok.2.1
          omega
      · rintro ⟨hb, hne⟩
        simp only [List.mem_append, List.mem_cons] at hb ⊢
        rcases hb with hb | rfl | hb
        · exact Or.inl hb
        · exact absurd rfl hne
        · exact Or.inr hb)
  have c1x : Core (remove_from_free s p.addr) ((L2 ++ [p]) ++ x :: n :: R2) := by
    have e : (L2 ++ [p]) ++ x :: n :: R2 = L2 ++ p :: x :: n :: R2 := by simp
    rw [e]; exact c1
  have c2x : Core (remove_from_free (remove_from_free s p.addr) n.addr)
      ((L2 ++ [p]) ++ x :: n :: R2) := by
    have e : (L2 ++ [p]) ++ x :: n :: R2 = L2 ++ p :: x :: n :: R2 := by simp
    rw [e]; exact c2
  have e7 := (next_flag_free _ _ R2 x n c1x hn).2.1
  have e8 := (prev_flag_free _ L2 _ p x c2x hp).2.1
  have c2' : Core (remove_from_free (remove_from_free s p.addr) n.addr)
      (L2 ++ [p, x, n] ++ R2) := by
    have e : L2 ++ [p, x, n] ++ R2 = L2 ++ p :: x :: n :: R2 := by simp
    rw [e]; exact c2
  have hadj : (L2 ++ (⟨p.addr, x.size + (p.size + n.size), 0⟩ : Blk) :: R2).Chain' adjOK :=
    chain_mid L2 R2 _ (chain_left _ _ h.noadjL) (List.chain'_cons'.1 h.noadjR).2
      (adj_last_of_free L2 p _ h.noadjL hp) (adj_head_of_free R2 n _ h.noadjR hn)
  have hfin := merge_finish (remove_from_free (remove_from_free s p.addr) n.addr) L2 [p, x, n] R2
    ⟨p.addr, x.size + (p.size + n.size), 0⟩ ((fl.erase p.addr).erase n.addr) c2' p.addr
    (p.addr + p.size + x.size + n.size)
    (by rw [g1, f1]; exact cl2) ⟨rfl, e4.symm, by rw [e4]; exact e6, rfl⟩
    (by
      rw [g3, f3]
      have e : p.addr + p.size + x.size + n.size = n.addr + n.size := by omega
      rw [e]; exact cr3) rfl
    (by simp only; omega)
    (by simp only; have := hxok.1; have := hpok.1; have := hnok.1; omega)
    (by simp only; have := hxok.2.1; omega) rfl hl2 hadj
  have hcode : coalesce s x.addr =
      (add_free { (remove_from_free (remove_from_free s p.addr) n.addr) with
          mem := (PUT (PUT (remove_from_free (remove_from_free s p.addr) n.addr).mem (p.addr - 4)
                        (x.size + (p.size + n.size) + 0))
                   (p.addr + (x.size + (p.size + n.size)) - 8)
                   (x.size + (p.size + n.size) + 0)) } p.addr, p.addr) := by
    unfold coalesce
    simp only [e1, e2, hsz]
    simp only [ne_eq, one_ne_zero, not_false_eq_true, and_self, if_true, e3, and_false,
      if_false, not_true_eq_false, false_and, e7, e8]
    rw [retag_mem _ p.addr (x.size + (p.size + n.size)) 0
      (by have := hxok.1; have := hpok.1; have := hnok.1; omega)
      (by norm_num) (by have := hLb2; unfold WORD; omega)]
  rw [hcode]
  refine ⟨rfl, hfin, ?_⟩
  simp only [fields_add_free]
  exact ⟨by rw [g1, f1], by rw [g2, f2], by rw [g3, f3], by rw [g4, f4]⟩

theorem sizeSum_middle (a : Nat) (L R : List Blk) (x : Blk) :
    sizeSum a (L ++ x :: R) = sizeSum a (L ++ R) + (if x.alloc = a then x.size else 0) := by
  simp only [sizeSum_append, sizeSum]
  omega

/-- Summary of `coalesce`, entered with the free-tagged block `x`: the heap is well formed
again, the merged block `Y` covers `x`, is free and heads the free list, the allocated blocks are
untouched and the number of free bytes is unchanged. -/
theorem coalesce_spec (s : State) (L R : List Blk) (x : Blk) (fl : List Nat)
    (h : PreInv s L x R fl) :
    ∃ bs2 fl2 Y, Inv (coalesce s x.addr).1 bs2 (Y.addr :: fl2) ∧
      (coalesce s x.addr).2 = Y.addr ∧ Y ∈ bs2 ∧ Y.alloc = 0 ∧
      Y.addr ≤ x.addr ∧ x.addr + x.size ≤ Y.addr + Y.size ∧
      (PrevAlloc L → Y.addr = x.addr) ∧
      (∀ b, b.alloc = 1 → (b ∈ bs2 ↔ b ∈ L ++ R)) ∧
      sizeSum 1 bs2 = sizeSum 1 (L ++ R) ∧
      sizeSum 0 bs2 = sizeSum 0 (L ++ R) + x.size ∧
      (∀ f ∈ fl2, f ∈ fl) ∧
      (coalesce s x.addr).1.lo = s.lo ∧ (coalesce s x.addr).1.hi = s.hi ∧
      (coalesce s x.addr).1.brk = s.brk ∧ (coalesce s x.addr).1.four = s.four := by
  have hx0 := h.xfree
  rcases prev_cases s L R x h.core with hL | ⟨L2, p, hL, hp⟩
  · rcases next_cases s L R x h.core with hR | ⟨n, R2, hR, hn⟩
    · obtain ⟨e, hinv⟩ := coalesce_NN s L R x fl h hL hR
      rw [e]
      refine ⟨L ++ x :: R, fl, x, hinv, rfl, by simp, hx0, le_refl _, le_refl _, fun _ => rfl,
        ?_, ?_, ?_, fun f hf => hf, ?_⟩
      · intro b hb
        rw [mem_middle]
        constructor
        · rintro (rfl | h1)
          · omega
          · exact h1
        · exact Or.inr
      · rw [sizeSum_middle]; simp [hx0]
      · rw [sizeSum_middle]; simp [hx0]
      · simp [fields_add_free]
    · subst hR
      obtain ⟨e, hinv, f1, f2, f3, f4⟩ := coalesce_NF s L R2 x n fl h hL hn
      refine ⟨_, _, ⟨x.addr, x.size + n.size, 0⟩, hinv, e, by simp, rfl, le_refl _,
        by simp only; omega, fun _ => rfl, ?_, ?_, ?_, fun f hf => List.mem_of_mem_erase hf,
        f1, f2, f3, f4⟩
      · intro b hb
        rw [mem_middle, mem_middle]
        constructor
        · rintro (rfl | h1)
          · simp at hb
          · exact Or.inr h1
        · rintro (rfl | h1)
          · omega
          · exact Or.inr h1
      · rw [sizeSum_middle, sizeSum_middle]; simp [hn]
      · rw [sizeSum_middle, sizeSum_middle]; simp [hn]; omega
  · subst hL
    have hpx := (prev_flag_free s L2 R p x h.core hp).2.2.1
    rcases next_cases s _ R x h.core with hR | ⟨n, R2, hR, hn⟩
    · obtain ⟨e, hinv, f1, f2, f3, f4⟩ := coalesce_FN s L2 R p x fl h hp hR
      refine ⟨_, _, ⟨p.addr, x.size + p.size, 0⟩, hinv, e, by simp, rfl,
        by simp only; omega, by simp only; omega, ?_, ?_, ?_, ?_,
        fun f hf => List.mem_of_mem_erase hf, f1, f2, f3, f4⟩
      · rintro (h1 | ⟨L3, p3, h1, h2⟩)
        · simp at h1
        · have := List.append_inj_right' h1 rfl
          simp only [List.cons.injEq, and_true] at this
          subst this
          omega
      · intro b hb
        have e1 : L2 ++ [p] ++ R = L2 ++ p :: R := by simp
        rw [e1, mem_middle, mem_middle]
        constructor
        · rintro (rfl | h1)
          · simp at hb
          · exact Or.inr h1
        · rintro (rfl | h1)
          · omega
          · exact Or.inr h1
      · have e1 : L2 ++ [p] ++ R = L2 ++ p :: R := by simp
        rw [e1, sizeSum_middle, sizeSum_middle]; simp [hp]
      · have e1 : L2 ++ [p] ++ R = L2 ++ p :: R := by simp
        rw [e1, sizeSum_middle, sizeSum_middle]; simp [hp]; omega
    · subst hR
      obtain ⟨e, hinv, f1, f2, f3, f4⟩ := coalesce_FF s L2 R2 p x n fl h hp hn
      refine ⟨_, _, ⟨p.addr, x.size + (p.size + n.size), 0⟩, hinv, e, by simp, rfl,
        by simp only; omega, by simp only; omega, ?_, ?_, ?_, ?_,
        fun f hf => List.mem_of_mem_erase (List.mem_of_mem_erase hf), f1, f2, f3, f4⟩
      · rintro (h1 | ⟨L3, p3, h1, h2⟩)
        · simp at h1
        · have := List.append_inj_right' h1 rfl
          simp only [List.cons.injEq, and_true] at this
          subst this
          omega
      · intro b hb
        have e1 : L2 ++ [p] ++ n :: R2 = L2 ++ p :: n :: R2 := by simp
        rw [e1, mem_middle, mem_middle]
        constructor
        · rintro (rfl | h1)
          · simp at hb
          · right
            simp only [List.mem_append, List.mem_cons] at h1 ⊢
            tauto
        · rintro (rfl | h1)
          · omega
          · simp only [List.mem_append, List.mem_cons] at h1 ⊢
            rcases h1 with h1 | rfl | h1
            · exact Or.inr (Or.inl h1)
            · omega
            · exact Or.inr (Or.inr h1)
      · have e1 : L2 ++ [p] ++ n :: R2 = L2 ++ p :: n :: R2 := by simp
        rw [e1, sizeSum_middle, sizeSum_middle, sizeSum_append, sizeSum_append]
        simp [hp, hn, sizeSum]
      · have e1 : L2 ++ [p] ++ n :: R2 = L2 ++ p :: n :: R2 := by simp
        rw [e1, sizeSum_middle, sizeSum_middle, sizeSum_append, sizeSum_append]
        simp [hp, hn, sizeSum]; omega

/-! ### Freeing a block -/

/-- Re-tagging one block of a well-formed heap with a new allocated bit: the boundary tags of
the new layout are in place and the free-list links are untouched. -/
theorem retag_one (s : State) (L R : List Blk) (b : Blk) (a : Nat) (ha : a ≤ 1)
    (c : Core s (L ++ b :: R)) :
    Core { s with mem := (PUT (PUT s.mem (b.addr - 4) (b.size + a))
                            (b.addr + b.size - 8) (b.size + a)) }
      (L ++ ⟨b.addr, b.size, a⟩ :: R) ∧
    ∀ fl p prev, (∀ f ∈ fl, ∃ d ∈ L ++ b :: R, d.addr = f) →
      FSeg s.mem p prev fl (s.lo + 16) →
      FSeg (PUT (PUT s.mem (b.addr - 4) (b.size + a)) (b.addr + b.size - 8) (b.size + a))
        p prev fl (s.lo + 16) := by
  obtain ⟨cl, cr, _, _, _, _⟩ := Contig_split _ _ _ _ _ c.contig
  have hb := c.ok b (by simp)
  have c' : Core s (L ++ [b] ++ R) := by
    have e : L ++ [b] ++ R = L ++ b :: R := by simp
    rw [e]; exact c
  have := retag s L [b] R ⟨b.addr, b.size, a⟩ c' b.addr (b.addr + b.size) cl ⟨rfl, rfl⟩ cr rfl rfl
    hb.1 hb.2.1 ha
  have e : L ++ [(⟨b.addr, b.size, a⟩ : Blk)] ++ R = L ++ ⟨b.addr, b.size, a⟩ :: R := by simp
  rw [e] at this
  refine ⟨this, ?_⟩
  intro fl p prev hfl hc
  have g : Geo s.lo s.brk (L ++ b :: R) fl := c.geo hfl
  have hbm : b ∈ L ++ b :: R := by simp
  exact FSeg_PUT_safe _ _ _ _ _ _ _ (g.safe_ftr hbm) (FSeg_PUT_safe _ _ _ _ _ _ _ (g.safe_hdr hbm) hc)

theorem mm_free_code (s : State) (b : Blk) (hb : b.ok s.mem) (hw : b.size < 2147483648) :
    mm_free s b.addr =
      (coalesce { s with mem := (PUT (PUT s.mem (b.addr - 4) (b.size + 0))
                    (b.addr + b.size - 8) (b.size + 0)) } b.addr).1 := by
  unfold mm_free
  simp only [hb.hdr_read.1]
  rw [retag_mem _ b.addr b.size 0 hb.1 (by norm_num) (by unfold WORD; omega)]

theorem free_pre (s : State) (L R : List Blk) (b : Blk) (fl : List Nat)
    (h : Inv s (L ++ b :: R) fl) (hb : b.alloc = 1) :
    PreInv { s with mem := (PUT (PUT s.mem (b.addr - 4) (b.size + 0))
                    (b.addr + b.size - 8) (b.size + 0)) } L ⟨b.addr, b.size, 0⟩ R fl := by
  obtain ⟨c2, hch⟩ := retag_one s L R b 0 (by norm_num) h.core
  refine ⟨c2, rfl, chain_left _ _ h.noadj, (List.chain'_cons'.1 (chain_right _ _ h.noadj)).2, ?_⟩
  refine ⟨h.listed.nodup, ?_, ?_⟩
  · intro a
    rw [h.listed.mem_fl]
    constructor
    · rintro ⟨d, hd, hda, hd0⟩
      rcases (mem_middle L R b d).1 hd with rfl | hd
      · omega
      · exact ⟨d, hd, hda, hd0⟩
    · rintro ⟨d, hd, hda, hd0⟩
      exact ⟨d, (mem_middle L R b d).2 (Or.inr hd), hda, hd0⟩
  · exact hch fl _ _ (fun f hf => by
      obtain ⟨d, hd, hda, _⟩ := (h.listed.mem_fl f).1 hf
      exact ⟨d, hd, hda⟩) h.listed.chain

theorem Core.size_lt {s : State} {bs : List Blk} (c : Core s bs) {b : Blk} (hb : b ∈ bs) :
    b.size < 2147483648 ∧ s.lo + 32 ≤ b.addr ∧ b.addr + b.size ≤ s.brk := by
  have := Contig_mem _ _ _ c.contig b hb
  have := c.small
  have := c.brk_le
  omega

/-- Freeing the allocated block `b`: the heap stays well formed, the block that now covers `b`
is free and heads the free list, the other allocated blocks are untouched. -/
theorem mm_free_spec (s : State) (L R : List Blk) (b : Blk) (fl : List Nat)
    (h : Inv s (L ++ b :: R) fl) (hb : b.alloc = 1) :
    ∃ bs2 fl2 Y, Inv (mm_free s b.addr) bs2 (Y.addr :: fl2) ∧ Y ∈ bs2 ∧ Y.alloc = 0 ∧
      Y.addr ≤ b.addr ∧ b.addr + b.size ≤ Y.addr + Y.size ∧
      (PrevAlloc L → Y.addr = b.addr) ∧
      (∀ d, d.alloc = 1 → (d ∈ bs2 ↔ d ∈ L ++ R)) ∧
      sizeSum 1 bs2 = sizeSum 1 (L ++ R) ∧
      sizeSum 0 bs2 = sizeSum 0 (L ++ R) + b.size ∧
      (∀ f ∈ fl2, f ∈ fl) ∧
      (mm_free s b.addr).lo = s.lo ∧ (mm_free s b.addr).hi = s.hi ∧
      (mm_free s b.addr).brk = s.brk ∧ (mm_free s b.addr).four = s.four := by
  have hbm : b ∈ L ++ b :: R := by simp
  rw [mm_free_code s b (h.core.ok b hbm) (h.core.size_lt hbm).1]
  obtain ⟨bs2, fl2, Y, h1, _, h3, h4, h5, h6, h7, h8, h9, h10, h11⟩ :=
    coalesce_spec _ L R ⟨b.addr, b.size, 0⟩ fl (free_pre s L R b fl h hb)
  exact ⟨bs2, fl2, Y, h1, h3, h4, h5, h6, h7, h8, h9, h10, h11⟩

/-! ### Placing a block -/

theorem isub_ge (csize asize : Nat) (hc : csize < 2147483648) (ha : asize ≤ 2147483656)
    (h16 : 16 ≤ csize) :
    (isub csize asize ≥ (MINBLOCKSIZE : Int) ↔ asize + 16 ≤ csize) ∧
    (asize + 16 ≤ csize → (isub csize asize).toNat = csize - asize) := by
  unfold isub toInt MINBLOCKSIZE WORD
  have e1 : csize % 4294967296 = csize := Nat.mod_eq_of_lt (by omega)
  have e2 : asize % 4294967296 = asize := Nat.mod_eq_of_lt (by omega)
  rw [e1, e2]
  by_cases h : asize ≤ csize
  · have e3 : (csize + 4294967296 - asize) % 4294967296 = csize - asize := by omega
    rw [e3]
    have e4 : csize - asize < 2147483648 := by omega
    simp only [e4, if_true]
    constructor
    · constructor
      · intro h1; omega
      · intro h1; omega
    · intro _; omega
  · have e3 : (csize + 4294967296 - asize) % 4294967296 = csize + 4294967296 - asize := by
      omega
    rw [e3]
    have e4 : ¬ (csize + 4294967296 - asize < 2147483648) := by omega
    simp only [e4, if_false]
    constructor
    · constructor
      · intro h1; omega
      · intro h1; omega
    · intro h1; omega

/-- Unlinking the free block `b` of a well-formed heap. -/
theorem remove_block (s : State) (L R : List Blk) (b : Blk) (fl : List Nat)
    (h : Inv s (L ++ b :: R) fl) (hb : b.alloc = 0) :
    Listed (remove_from_free s b.addr) (L ++ R) (fl.erase b.addr) ∧
    Core (remove_from_free s b.addr) (L ++ b :: R) ∧
    (remove_from_free s b.addr).lo = s.lo ∧ (remove_from_free s b.addr).hi = s.hi ∧
    (remove_from_free s b.addr).brk = s.brk ∧ (remove_from_free s b.addr).four = s.four := by
  obtain ⟨_, _, _, _, hLb, hRb⟩ := Contig_split _ _ _ _ _ h.core.contig
  have hbs := (h.core.ok b (by simp)).2.1
  obtain ⟨h1, h2, f1, f2, f3, f4, _⟩ := Listed_remove s (L ++ b :: R) (L ++ b :: R) (L ++ R) fl b
    h.core h.listed (fun _ hd => hd) (by simp) hb (by
      intro d
      constructor
      · intro hd
        refine ⟨(mem_middle L R b d).2 (Or.inr hd), ?_⟩
        rcases List.mem_append.1 hd with hd | hd
        · have := hLb d hd
          have := (h.core.ok d (by simp [hd])).2.1
          omega
        · have := hRb d hd
          omega
      · rintro ⟨hd, hne⟩
        rcases (mem_middle L R b d).1 hd with rfl | hd
        · exact absurd rfl hne
        · exact hd)
  exact ⟨h1, h2, f1, f2, f3, f4⟩

theorem chain_concat_alloc (L : List Blk) (b : Blk) (hL : L.Chain' adjOK) (hb : b.alloc = 1) :
    (L ++ [b]).Chain' adjOK := by
  rw [List.chain'_append]
  refine ⟨hL, List.chain'_singleton _, ?_⟩
  intro p _ y hy
  simp only [List.head?_cons, Option.mem_def, Option.some.injEq] at hy
  subst hy
  right; omega

/-- `place` when the remainder is too small to split off (this includes a request larger than
the block): the whole block becomes allocated. -/
theorem place_whole (s : State) (L R : List Blk) (b : Blk) (fl : List Nat) (asize : Nat)
    (h : Inv s (L ++ b :: R) fl) (hb : b.alloc = 0) (ha : asize ≤ 2147483656)
    (hns : ¬ asize + 16 ≤ b.size) :
    Inv (place s b.addr asize) (L ++ ⟨b.addr, b.size, 1⟩ :: R) (fl.erase b.addr) ∧
    (place s b.addr asize).lo = s.lo ∧ (place s b.addr asize).hi = s.hi ∧
    (place s b.addr asize).brk = s.brk ∧ (place s b.addr asize).four = s.four := by
  have hbm : b ∈ L ++ b :: R := by simp
  have hbok := h.core.ok b hbm
  have hlt := (h.core.size_lt hbm).1
  obtain ⟨hl1, c1, f1, f2, f3, f4⟩ := remove_block s L R b fl h hb
  have hd := (isub_ge b.size asize hlt ha hbok.2.1).1
  have hcode : place s b.addr asize =
      { (remove_from_free s b.addr) with
        mem := (PUT (PUT (remove_from_free s b.addr).mem (b.addr - 4) (b.size + 1))
                  (b.addr + b.size - 8) (b.size + 1)) } := by
    unfold place
    simp only [hbok.hdr_read.1]
    rw [if_neg (by rw [hd]; exact hns)]
    rw [retag_mem _ b.addr b.size 1 hbok.1 (by norm_num) (by unfold WORD; omega)]
  rw [hcode]
  obtain ⟨c2, hch⟩ := retag_one (remove_from_free s b.addr) L R b 1 (by norm_num) c1
  refine ⟨⟨c2, ?_, ?_⟩, f1, f2, f3, f4⟩
  · refine chain_mid L R _ (chain_left _ _ h.noadj)
      (List.chain'_cons'.1 (chain_right _ _ h.noadj)).2 ?_ ?_
    · intro p _; right; simp
    · intro n _; left; simp
  · refine ⟨hl1.nodup, ?_, ?_⟩
    · intro a
      rw [hl1.mem_fl]
      constructor
      · rintro ⟨d, hd, hda, hd0⟩
        exact ⟨d, (mem_middle L R _ d).2 (Or.inr hd), hda, hd0⟩
      · rintro ⟨d, hd, hda, hd0⟩
        rcases (mem_middle L R _ d).1 hd with rfl | hd
        · simp at hd0
        · exact ⟨d, hd, hda, hd0⟩
    · exact hch _ _ _ (fun f hf => by
        obtain ⟨d, hd, hda, _⟩ := (hl1.mem_fl f).1 hf
        exact ⟨d, (mem_middle L R b d).2 (Or.inr hd), hda⟩) hl1.chain

theorem splitMem_outside (m : Mem) (bp asize csize q : Nat) (ha16 : 16 ≤ asize)
    (hsp : asize + 16 ≤ csize) (hbp : 4 ≤ bp) (hq : q + 8 ≤ bp ∨ bp + csize ≤ q + 4) :
    GET (splitMem m bp asize csize) q = GET m q := by
  unfold splitMem
  rw [GET_PUT_ne _ _ _ _ (by omega), GET_PUT_ne _ _ _ _ (by omega),
    GET_PUT_ne _ _ _ _ (by omega), GET_PUT_ne _ _ _ _ (by omega)]

theorem splitMem_tags (m : Mem) (bp asize csize : Nat) (ha16 : 16 ≤ asize)
    (hsp : asize + 16 ≤ csize) (hbp : 4 ≤ bp) (hc : csize < 2147483648) :
    GET (splitMem m bp asize csize) (bp - 4) = asize + 1 ∧
    GET (splitMem m bp asize csize) (bp + asize - 8) = asize + 1 ∧
    GET (splitMem m bp asize csize) (bp + asize - 4) = csize - asize + 0 ∧
    GET (splitMem m bp asize csize) (bp + asize + (csize - asize) - 8) = csize - asize + 0 := by
  have hw1 : asize + 1 < WORD := by unfold WORD; omega
  have hw2 : csize - asize + 0 < WORD := by unfold WORD; omega
  unfold splitMem
  refine ⟨?_, ?_, ?_, ?_⟩
  · rw [GET_PUT_ne _ _ _ _ (by omega), GET_PUT_ne _ _ _ _ (by omega),
      GET_PUT_ne _ _ _ _ (by omega), GET_PUT_same, Nat.mod_eq_of_lt hw1]
  · rw [GET_PUT_ne _ _ _ _ (by omega), GET_PUT_ne _ _ _ _ (by omega),
      GET_PUT_same, Nat.mod_eq_of_lt hw1]
  · rw [GET_PUT_ne _ _ _ _ (by omega), GET_PUT_same, Nat.mod_eq_of_lt hw2]
  · rw [GET_PUT_same, Nat.mod_eq_of_lt hw2]

theorem splitMem_chain (m : Mem) (bp asize csize t p prev : Nat) (fl : List Nat)
    (h1 : Safe t fl (bp - 4)) (h2 : Safe t fl (bp + asize - 8)) (h3 : Safe t fl (bp + asize - 4))
    (h4 : Safe t fl (bp + asize + (csize - asize) - 8)) (c : FSeg m p prev fl t) :
    FSeg (splitMem m bp asize csize) p prev fl t := by
  unfold splitMem
  exact FSeg_PUT_safe _ t p prev _ _ fl h4 (FSeg_PUT_safe _ t p prev _ _ fl h3
    (FSeg_PUT_safe _ t p prev _ _ fl h2 (FSeg_PUT_safe _ t p prev _ _ fl h1 c)))

theorem place_split_code (s : State) (b : Blk) (asize : Nat) (hbok : b.ok s.mem)
    (hlt : b.size < 2147483648) (hbp : 4 ≤ b.addr) (ha8 : asize % 8 = 0) (ha16 : 16 ≤ asize)
    (hsp : asize + 16 ≤ b.size) :
    place s b.addr asize =
      (coalesce { (remove_from_free s b.addr) with
        mem := splitMem (remove_from_free s b.addr).mem b.addr asize b.size }
        (b.addr + asize)).1 := by
  obtain ⟨hd1, hd2⟩ := isub_ge b.size asize hlt (by omega) hbok.2.1
  have hd8 : (b.size - asize) % 8 = 0 := by have := hbok.1; omega
  have hnext : NEXT_BLKP (PUT (PUT (remove_from_free s b.addr).mem (b.addr - 4) (asize + 1))
      (b.addr + asize - 8) (asize + 1)) b.addr = b.addr + asize := by
    unfold NEXT_BLKP
    have := tag_read (PUT (PUT (remove_from_free s b.addr).mem (b.addr - 4) (asize + 1))
      (b.addr + asize - 8) (asize + 1)) (HDRP b.addr) asize 1 (by
        show GET _ (b.addr - 4) = _
        rw [GET_PUT_ne _ _ _ _ (by omega), GET_PUT_same]
        exact Nat.mod_eq_of_lt (by unfold WORD; omega)) ha8 (by norm_num)
    rw [this.1]
  unfold place splitMem
  simp only [hbok.hdr_read.1]
  rw [if_pos (by rw [hd1]; exact hsp)]
  simp only [hd2 hsp]
  rw [retag_mem _ b.addr asize 1 ha8 (by norm_num) (by unfold WORD; omega), hnext,
    retag_mem _ (b.addr + asize) (b.size - asize) 0 hd8 (by norm_num) (by unfold WORD; omega)]

theorem place_split_pre (s1 : State) (L R : List Blk) (b : Blk) (fl1 : List Nat) (asize : Nat)
    (c1 : Core s1 (L ++ b :: R)) (hl1 : Listed s1 (L ++ R) fl1)
    (hadjL : L.Chain' adjOK) (hadjR : R.Chain' adjOK)
    (ha8 : asize % 8 = 0) (ha16 : 16 ≤ asize) (hsp : asize + 16 ≤ b.size) :
    PreInv { s1 with mem := splitMem s1.mem b.addr asize b.size }
      (L ++ [⟨b.addr, asize, 1⟩]) ⟨b.addr + asize, b.size - asize, 0⟩ R fl1 := by
  have hbm : b ∈ L ++ b :: R := by simp
  have hbok := c1.ok b hbm
  obtain ⟨hlt, hlo, hhi⟩ := c1.size_lt hbm
  have hd8 : (b.size - asize) % 8 = 0 := by have := hbok.1; omega
  obtain ⟨cl, cr, _, _, _, _⟩ := Contig_split _ _ _ _ _ c1.contig
  have c1' : Core s1 (L ++ [b] ++ R) := by
    have e : L ++ [b] ++ R = L ++ b :: R := by simp
    rw [e]; exact c1
  obtain ⟨t1, t2, t3, t4⟩ := splitMem_tags s1.mem b.addr asize b.size ha16 hsp (by omega) hlt
  have c5 := Core_replace s1 { s1 with mem := splitMem s1.mem b.addr asize b.size }
    L [b] [⟨b.addr, asize, 1⟩, ⟨b.addr + asize, b.size - asize, 0⟩] R c1' rfl rfl rfl
    b.addr (b.addr + b.size) cl ⟨rfl, rfl, by show _ = _; simp only; omega⟩ cr (by
      intro q hq
      have := IsTag_outside _ L [b] R c1' b.addr (b.addr + b.size) cl ⟨rfl, rfl⟩ cr q hq
      exact splitMem_outside _ _ _ _ _ ha16 hsp (by omega) this) (by
      intro z hz
      simp only [List.mem_cons, List.mem_singleton, List.not_mem_nil, or_false] at hz
      rcases hz with rfl | rfl
      · exact ⟨ha8, ha16, by norm_num, t1, t2⟩
      · exact ⟨hd8, by simp only; omega, by norm_num, t3, t4⟩)
  have e5 : L ++ [(⟨b.addr, asize, 1⟩ : Blk), ⟨b.addr + asize, b.size - asize, 0⟩] ++ R
      = (L ++ [⟨b.addr, asize, 1⟩]) ++ ⟨b.addr + asize, b.size - asize, 0⟩ :: R := by simp
  rw [e5] at c5
  have hisblk : ∀ f ∈ fl1,
      ∃ d ∈ (L ++ [(⟨b.addr, asize, 1⟩ : Blk)]) ++ ⟨b.addr + asize, b.size - asize, 0⟩ :: R,
        d.addr = f := by
    intro f hf
    obtain ⟨d, hd, hda, _⟩ := (hl1.mem_fl f).1 hf
    refine ⟨d, ?_, hda⟩
    simp only [List.mem_append, List.mem_cons] at hd ⊢
    tauto
  have g : Geo s1.lo s1.brk _ fl1 := c5.geo hisblk
  have hm1 : (⟨b.addr, asize, 1⟩ : Blk) ∈
      (L ++ [(⟨b.addr, asize, 1⟩ : Blk)]) ++ ⟨b.addr + asize, b.size - asize, 0⟩ :: R := by simp
  have hm2 : (⟨b.addr + asize, b.size - asize, 0⟩ : Blk) ∈
      (L ++ [(⟨b.addr, asize, 1⟩ : Blk)]) ++ ⟨b.addr + asize, b.size - asize, 0⟩ :: R := by simp
  have k1 := g.safe_hdr hm1
  have k2 := g.safe_ftr hm1
  have k3 := g.safe_hdr hm2
  have k4 := g.safe_ftr hm2
  refine ⟨c5, rfl, chain_concat_alloc L _ hadjL rfl, hadjR, hl1.nodup, ?_, ?_⟩
  · intro a
    rw [hl1.mem_fl]
    constructor
    · rintro ⟨d, hd, hda, hd0⟩
      refine ⟨d, ?_, hda, hd0⟩
      simp only [List.mem_append, List.mem_cons] at hd ⊢
      tauto
    · rintro ⟨d, hd, hda, hd0⟩
      refine ⟨d, ?_, hda, hd0⟩
      simp only [List.mem_append, List.mem_cons, List.mem_singleton, List.not_mem_nil,
        or_false] at hd ⊢
      rcases hd with (hd | rfl) | hd
      · exact Or.inl hd
      · simp at hd0
      · exact Or.inr hd
  · exact splitMem_chain s1.mem b.addr asize b.size (s1.lo + 16) s1.free_listp 0 fl1 k1 k2 k3 k4
      hl1.chain

/-- `place` when the remainder is at least one minimum block: the low part becomes an allocated
block of `asize` bytes, the remainder goes through `coalesce`. -/
theorem place_split (s : State) (L R : List Blk) (b : Blk) (fl : List Nat) (asize : Nat)
    (h : Inv s (L ++ b :: R) fl) (hb : b.alloc = 0) (ha8 : asize % 8 = 0) (ha16 : 16 ≤ asize)
    (hsp : asize + 16 ≤ b.size) :
    ∃ bs2 fl2, Inv (place s b.addr asize) bs2 fl2 ∧
      (∀ d, d.alloc = 1 → (d ∈ bs2 ↔ d = ⟨b.addr, asize, 1⟩ ∨ d ∈ L ++ R)) ∧
      sizeSum 1 bs2 = sizeSum 1 (L ++ R) + asize ∧
      sizeSum 0 bs2 = sizeSum 0 (L ++ R) + (b.size - asize) ∧
      (place s b.addr asize).lo = s.lo ∧ (place s b.addr asize).hi = s.hi ∧
      (place s b.addr asize).brk = s.brk ∧ (place s b.addr asize).four = s.four := by
  have hbm : b ∈ L ++ b :: R := by simp
  have hbok := h.core.ok b hbm
  obtain ⟨hlt, hlo, hhi⟩ := h.core.size_lt hbm
  obtain ⟨hl1, c1, f1, f2, f3, f4⟩ := remove_block s L R b fl h hb
  rw [place_split_code s b asize hbok hlt (by omega) ha8 ha16 hsp]
  have pre := place_split_pre (remove_from_free s b.addr) L R b (fl.erase b.addr) asize c1 hl1
    (chain_left _ _ h.noadj) (List.chain'_cons'.1 (chain_right _ _ h.noadj)).2 ha8 ha16 hsp
  obtain ⟨bs2, fl2, Y, k1, _, _, _, _, _, _, k8, k9, k10, _, k12, k13, k14, k15⟩ :=
    coalesce_spec { (remove_from_free s b.addr) with
        mem := splitMem (remove_from_free s b.addr).mem b.addr asize b.size }
      (L ++ [⟨b.addr, asize, 1⟩]) R ⟨b.addr + asize, b.size - asize, 0⟩ (fl.erase b.addr) pre
  refine ⟨bs2, _, k1, ?_, ?_, ?_, by rw [k12]; exact f1, by rw [k13]; exact f2,
    by rw [k14]; exact f3, by rw [k15]; exact f4⟩
  · intro d hd
    rw [k8 d hd]
    simp only [List.mem_append, List.mem_cons, List.mem_singleton, List.not_mem_nil, or_false]
    tauto
  · rw [k9]
    have e : L ++ [(⟨b.addr, asize, 1⟩ : Blk)] ++ R = L ++ ⟨b.addr, asize, 1⟩ :: R := by simp
    rw [e, sizeSum_middle]; simp
  · rw [k10]
    have e : L ++ [(⟨b.addr, asize, 1⟩ : Blk)] ++ R = L ++ ⟨b.addr, asize, 1⟩ :: R := by simp
    rw [e, sizeSum_middle]; simp

/-! ### First fit -/

theorem find_fit_loop_spec (m : Mem) (asize t : Nat) (fl : List Nat) (fuel p prev : Nat)
    (c : FSeg m p prev fl t) (hfree : ∀ f ∈ fl, GET_ALLOC m (HDRP f) = 0)
    (ht : GET_ALLOC m (HDRP t) ≠ 0) (hfuel : fl.length < fuel) :
    find_fit_loop m asize fuel p = some (firstFit m asize fl) := by
  induction fl generalizing fuel p prev with
  | nil =>
    obtain ⟨k, rfl⟩ : ∃ k, fuel = k + 1 := ⟨fuel - 1, by simp at hfuel; omega⟩
    simp only [FSeg] at c
    subst c
    simp [find_fit_loop, firstFit, ht]
  | cons f fs ih =>
    obtain ⟨k, rfl⟩ : ∃ k, fuel = k + 1 := ⟨fuel - 1, by simp at hfuel; omega⟩
    obtain ⟨h1, _, h3⟩ := c
    subst h1
    have h0 := hfree p (by simp)
    simp only [find_fit_loop, firstFit, h0, if_true]
    by_cases hfit : asize ≤ GET_SIZE m (HDRP p)
    · simp [hfit]
    · simp only [hfit, if_false]
      exact ih k _ _ h3 (fun g hg => hfree g (List.mem_cons_of_mem _ hg))
        (by simp at hfuel; omega)

theorem firstFit_mem (m : Mem) (asize : Nat) (fl : List Nat) (h0 : ∀ f ∈ fl, f ≠ 0) :
    (firstFit m asize fl ≠ 0 →
      firstFit m asize fl ∈ fl ∧ asize ≤ GET_SIZE m (HDRP (firstFit m asize fl))) ∧
    (firstFit m asize fl = 0 → ∀ f ∈ fl, GET_SIZE m (HDRP f) < asize) := by
  induction fl with
  | nil => simp [firstFit]
  | cons f fs ih =>
    have ih2 := ih (fun g hg => h0 g (List.mem_cons_of_mem _ hg))
    by_cases hfit : asize ≤ GET_SIZE m (HDRP f)
    · simp only [firstFit, hfit, if_true]
      refine ⟨fun _ => ⟨by simp, trivial⟩, fun e => absurd e (h0 f (by simp))⟩
    · simp only [firstFit, hfit, if_false]
      refine ⟨fun hne => ⟨List.mem_cons_of_mem _ (ih2.1 hne).1, (ih2.1 hne).2⟩, ?_⟩
      intro e g hg
      rcases List.mem_cons.1 hg with rfl | hg
      · omega
      · exact ih2.2 e g hg

theorem nodup_length_le (l : List Nat) (a b : Nat) (hnd : l.Nodup)
    (h : ∀ x ∈ l, a ≤ x ∧ x < b) : l.length ≤ b - a := by
  have h1 : l.toFinset ⊆ Finset.Ico a b := by
    intro x hx
    rw [List.mem_toFinset] at hx
    rw [Finset.mem_Ico]
    exact h x hx
  have h2 := Finset.card_le_card h1
  rw [List.toFinset_card_of_nodup hnd, Nat.card_Ico] at h2
  exact h2

/-- In a well-formed heap `find_fit` ends, and returns the first node of the free list whose
block is large enough, or `NULL` when there is none. -/
theorem find_fit_spec (s : State) (bs : List Blk) (fl : List Nat) (asize : Nat)
    (h : Inv s bs fl) :
    find_fit s asize = some (firstFit s.mem asize fl) ∧
    (firstFit s.mem asize fl ≠ 0 →
      ∃ b ∈ bs, b.addr = firstFit s.mem asize fl ∧ b.alloc = 0 ∧ asize ≤ b.size) ∧
    (firstFit s.mem asize fl = 0 → ∀ b ∈ bs, b.alloc = 0 → b.size < asize) := by
  have hblk : ∀ f ∈ fl, ∃ b ∈ bs, b.addr = f ∧ b.alloc = 0 := fun f hf =>
    (h.listed.mem_fl f).1 hf
  have hrng : ∀ f ∈ fl, s.lo + 32 ≤ f ∧ f < s.brk := by
    intro f hf
    obtain ⟨b, hb, rfl, _⟩ := hblk f hf
    have := h.core.size_lt hb
    have := (h.core.ok b hb).2.1
    omega
  have hlen := nodup_length_le fl (s.lo + 32) s.brk h.listed.nodup hrng
  have hle := Contig_le _ _ _ h.core.contig
  have hfree : ∀ f ∈ fl, GET_ALLOC s.mem (HDRP f) = 0 := by
    intro f hf
    obtain ⟨b, hb, rfl, hb0⟩ := hblk f hf
    rw [(h.core.ok b hb).hdr_read.2, hb0]
  have ht : GET_ALLOC s.mem (HDRP (s.lo + 16)) ≠ 0 := by
    have e : HDRP (s.lo + 16) = s.lo + 12 := by unfold HDRP WSIZE; omega
    rw [e, (tag_read s.mem (s.lo + 12) 16 1 h.core.sent_h (by norm_num) (by norm_num)).2]
    norm_num
  have h0 : ∀ f ∈ fl, f ≠ 0 := fun f hf => by have := hrng f hf; omega
  obtain ⟨k1, k2⟩ := firstFit_mem s.mem asize fl h0
  refine ⟨?_, ?_, ?_⟩
  · unfold find_fit
    exact find_fit_loop_spec s.mem asize (s.lo + 16) fl _ _ 0 h.listed.chain hfree ht (by omega)
  · intro hne
    obtain ⟨hm, hsz⟩ := k1 hne
    obtain ⟨b, hb, hba, hb0⟩ := hblk _ hm
    refine ⟨b, hb, hba, hb0, ?_⟩
    rw [← hba, (h.core.ok b hb).hdr_read.1] at hsz
    exact hsz
  · intro he b hb hb0
    have hf : b.addr ∈ fl := (h.listed.mem_fl _).2 ⟨b, hb, rfl, hb0⟩
    have := k2 he _ hf
    rw [(h.core.ok b hb).hdr_read.1] at this
    exact this

/-! ### Growing the heap -/

theorem extMem_below (m : Mem) (brk size q : Nat) (h16 : 16 ≤ size) (hb : 4 ≤ brk)
    (hq : q + 8 ≤ brk) : GET (extMem m brk size) q = GET m q := by
  unfold extMem
  rw [GET_PUT_ne _ _ _ _ (by omega), GET_PUT_ne _ _ _ _ (by omega),
    GET_PUT_ne _ _ _ _ (by omega)]

theorem extMem_tags (m : Mem) (brk size : Nat) (h16 : 16 ≤ size) (hb : 4 ≤ brk)
    (hs : size < 2147483648) :
    GET (extMem m brk size) (brk - 4) = size + 0 ∧
    GET (extMem m brk size) (brk + size - 8) = size + 0 ∧
    GET (extMem m brk size) (brk + size - 4) = 1 := by
  have hw : size + 0 < WORD := by unfold WORD; omega
  unfold extMem
  refine ⟨?_, ?_, ?_⟩
  · rw [GET_PUT_ne _ _ _ _ (by omega), GET_PUT_ne _ _ _ _ (by omega), GET_PUT_same,
      Nat.mod_eq_of_lt hw]
  · rw [GET_PUT_ne _ _ _ _ (by omega), GET_PUT_same, Nat.mod_eq_of_lt hw]
  · rw [GET_PUT_same]; rfl

theorem extend_heap_code (s : State) (words size : Nat) (hsz : size = words * 4)
    (hev : words % 2 = 0) (h16 : 16 ≤ size) (hs : size < 4294967296) :
    extend_heap s words =
      if s.brk + size ≤ s.hi then
        coalesce { s with brk := s.brk + size, mem := extMem s.mem s.brk size } s.brk
      else (s, 0) := by
  have e8 : size % 8 = 0 := by omega
  have esz : (if words % 2 ≠ 0 then (words + 1) * WSIZE else words * WSIZE) % WORD = size := by
    simp only [hev, ne_eq, not_true_eq_false, if_false, WSIZE]
    rw [← hsz]
    exact Nat.mod_eq_of_lt (by unfold WORD; omega)
  unfold extend_heap
  simp only [esz]
  unfold mem_sbrk
  by_cases hfit : s.brk + size ≤ s.hi
  · simp only [hfit, if_true]
    have hnext : NEXT_BLKP (PUT (PUT s.mem (s.brk - 4) (size + 0)) (s.brk + size - 8) (size + 0))
        s.brk = s.brk + size := by
      unfold NEXT_BLKP
      by_cases hb : 4 ≤ s.brk
      · have := tag_read (PUT (PUT s.mem (s.brk - 4) (size + 0)) (s.brk + size - 8) (size + 0))
          (HDRP s.brk) size 0 (by
            show GET _ (s.brk - 4) = _
            rw [GET_PUT_ne _ _ _ _ (by omega), GET_PUT_same]
            exact Nat.mod_eq_of_lt (by unfold WORD; omega)) e8 (by norm_num)
        rw [this.1]
      · have e0 : s.brk - 4 = 0 := by omega
        have := tag_read (PUT (PUT s.mem (s.brk - 4) (size + 0)) (s.brk + size - 8) (size + 0))
          (HDRP s.brk) size 0 (by
            show GET _ (s.brk - 4) = _
            rw [GET_PUT_ne _ _ _ _ (by omega), GET_PUT_same]
            exact Nat.mod_eq_of_lt (by unfold WORD; omega)) e8 (by norm_num)
        rw [this.1]
    rw [retag_mem _ s.brk size 0 e8 (by norm_num) (by unfold WORD; omega), hnext]
    have ep : PACK 0 1 = 1 := by decide
    have eh : HDRP (s.brk + size) = s.brk + size - 4 := rfl
    rw [ep, eh]
    rfl
  · simp only [hfit, if_false]

theorem extend_pre (s : State) (bs : List Blk) (fl : List Nat) (size : Nat)
    (h : Inv s bs fl) (h8 : size % 8 = 0) (h16 : 16 ≤ size) (hfit : s.brk + size ≤ s.hi) :
    PreInv { s with brk := s.brk + size, mem := extMem s.mem s.brk size } bs
      ⟨s.brk, size, 0⟩ [] fl := by
  have c := h.core
  have hle := Contig_le _ _ _ c.contig
  have hsm := c.small
  have hs : size < 2147483648 := by omega
  obtain ⟨t1, t2, t3⟩ := extMem_tags s.mem s.brk size h16 (by omega) hs
  have hbelow : ∀ q, q + 8 ≤ s.brk → GET (extMem s.mem s.brk size) q = GET s.mem q :=
    fun q hq => extMem_below _ _ _ _ h16 (by omega) hq
  refine ⟨⟨c.lo8, c.hi32, c.small, hfit, ?_, ?_, ?_, ?_, ?_, ?_, ?_⟩, rfl, h.noadj,
    List.chain'_nil, ?_⟩
  · show GET (extMem s.mem s.brk size) (s.lo + 4) = 9
    rw [hbelow _ (by omega)]; exact c.pro_h
  · show GET (extMem s.mem s.brk size) (s.lo + 8) = 9
    rw [hbelow _ (by omega)]; exact c.pro_f
  · show GET (extMem s.mem s.brk size) (s.lo + 12) = 17
    rw [hbelow _ (by omega)]; exact c.sent_h
  · show GET (extMem s.mem s.brk size) (s.lo + 24) = 17
    rw [hbelow _ (by omega)]; exact c.sent_f
  · show Contig (s.lo + 32) (bs ++ [⟨s.brk, size, 0⟩]) (s.brk + size)
    rw [Contig_append]
    exact ⟨s.brk, c.contig, rfl, rfl⟩
  · intro b hb
    rcases List.mem_append.1 hb with hb | hb
    · obtain ⟨h1, h2, h3, h4, h5⟩ := c.ok b hb
      have := c.size_lt hb
      refine ⟨h1, h2, h3, ?_, ?_⟩
      · show GET (extMem _ _ _) _ = _
        rw [hbelow _ (by omega)]; exact h4
      · show GET (extMem _ _ _) _ = _
        rw [hbelow _ (by omega)]; exact h5
    · simp only [List.mem_singleton] at hb
      subst hb
      exact ⟨h8, h16, by norm_num, t1, t2⟩
  · exact t3
  · refine ⟨h.listed.nodup, ?_, ?_⟩
    · simpa using h.listed.mem_fl
    · show FSeg (extMem _ _ _) s.free_listp 0 fl (s.lo + 16)
      refine FSeg_frame s.mem _ fl _ _ _ ?_ h.listed.chain
      intro f hf
      obtain ⟨b, hb, rfl, _⟩ := (h.listed.mem_fl f).1 hf
      have := c.size_lt hb
      have := (c.ok b hb).2.1
      exact ⟨hbelow _ (by omega), hbelow _ (by omega)⟩

/-- Growing a well-formed heap by `size` bytes: the new free block is merged with a free last
block and heads the free list; on refusal by `mem_sbrk` nothing changes. -/
theorem extend_heap_spec (s : State) (bs : List Blk) (fl : List Nat) (words size : Nat)
    (h : Inv s bs fl) (hsz : size = words * 4) (hev : words % 2 = 0) (h16 : 16 ≤ size)
    (hs : size < 4294967296) :
    (¬ s.brk + size ≤ s.hi → extend_heap s words = (s, 0)) ∧
    (s.brk + size ≤ s.hi →
      ∃ bs2 fl2 Y, Inv (extend_heap s words).1 bs2 (Y.addr :: fl2) ∧
        (extend_heap s words).2 = Y.addr ∧ Y.addr ≠ 0 ∧ Y ∈ bs2 ∧ Y.alloc = 0 ∧
        Y.addr ≤ s.brk ∧ s.brk + size ≤ Y.addr + Y.size ∧
        (∀ d, d.alloc = 1 → (d ∈ bs2 ↔ d ∈ bs)) ∧
        sizeSum 1 bs2 = sizeSum 1 bs ∧
        sizeSum 0 bs2 = sizeSum 0 bs + size ∧
        (extend_heap s words).1.lo = s.lo ∧ (extend_heap s words).1.hi = s.hi ∧
        (extend_heap s words).1.brk = s.brk + size ∧
        (extend_heap s words).1.four = s.four) := by
  rw [extend_heap_code s words size hsz hev h16 hs]
  constructor
  · intro hn
    rw [if_neg hn]
  · intro hfit
    rw [if_pos hfit]
    have pre := extend_pre s bs fl size h (by omega) h16 hfit
    obtain ⟨bs2, fl2, Y, k1, k2, k3, k4, k5, k6, _, k8, k9, k10, _, k12, k13, k14, k15⟩ :=
      coalesce_spec { s with brk := s.brk + size, mem := extMem s.mem s.brk size } bs []
        ⟨s.brk, size, 0⟩ fl pre
    have hY := k1.core.size_lt k3
    refine ⟨bs2, fl2, Y, k1, k2, ?_, k3, k4, k5, k6, ?_, ?_, ?_, k12, k13, k14, k15⟩
    · rw [k12] at hY; omega
    · simpa using k8
    · simpa using k9
    · simpa using k10

/-- Placing a request in the free block `b`: the block at `b.addr` becomes allocated with a size
`z` that is the request when the block is split and the size of `b` otherwise. -/
theorem place_spec (s : State) (bs : List Blk) (fl : List Nat) (b : Blk) (asize : Nat)
    (h : Inv s bs fl) (hbm : b ∈ bs) (hb : b.alloc = 0) (ha8 : asize % 8 = 0)
    (ha16 : 16 ≤ asize) (ha : asize ≤ 2147483656) :
    ∃ bs2 fl2 z, Inv (place s b.addr asize) bs2 fl2 ∧ (⟨b.addr, z, 1⟩ : Blk) ∈ bs2 ∧
      z % 8 = 0 ∧ 16 ≤ z ∧ z < asize + 16 ∧ (asize ≤ b.size → asize ≤ z) ∧ z ≤ b.size ∧
      (asize + 16 ≤ b.size → z = asize) ∧ (¬ asize + 16 ≤ b.size → z = b.size) ∧
      (∀ d, d.alloc = 1 → (d ∈ bs2 ↔ d = ⟨b.addr, z, 1⟩ ∨ d ∈ bs)) ∧
      sizeSum 1 bs2 = sizeSum 1 bs + z ∧
      sizeSum 0 bs2 + z = sizeSum 0 bs ∧
      (place s b.addr asize).lo = s.lo ∧ (place s b.addr asize).hi = s.hi ∧
      (place s b.addr asize).brk = s.brk ∧ (place s b.addr asize).four = s.four ∧
      (∀ d ∈ bs, d.alloc = 1 → d.addr ≠ b.addr) := by
  obtain ⟨L, R, rfl⟩ := List.append_of_mem hbm
  have hbok := h.core.ok b hbm
  have hother : ∀ d ∈ L ++ b :: R, d.alloc = 1 → d.addr ≠ b.addr := by
    intro d hd hd1
    obtain ⟨_, _, _, _, hLb, hRb⟩ := Contig_split _ _ _ _ _ h.core.contig
    rcases (mem_middle L R b d).1 hd with rfl | hd
    · omega
    · rcases List.mem_append.1 hd with hd | hd
      · have := hLb d hd
        have := (h.core.ok d (by simp [hd])).2.1
        omega
      · have := hRb d hd
        have := hbok.2.1
        omega
  have halloc : ∀ d : Blk, d.alloc = 1 → (d ∈ L ++ b :: R ↔ d ∈ L ++ R) := by
    intro d hd
    rw [mem_middle]
    constructor
    · rintro (rfl | h1)
      · omega
      · exact h1
    · exact Or.inr
  by_cases hsp : asize + 16 ≤ b.size
  · obtain ⟨bs2, fl2, k1, k2, k3, k4, f1, f2, f3, f4⟩ :=
      place_split s L R b fl asize h hb ha8 ha16 hsp
    refine ⟨bs2, fl2, asize, k1, (k2 _ rfl).2 (Or.inl rfl), ha8, ha16, by omega, fun _ => le_refl _,
      by omega, fun _ => rfl, fun hn => absurd hsp hn, ?_, ?_, ?_, f1, f2, f3, f4, hother⟩
    · intro d hd
      rw [k2 d hd, halloc d hd]
    · rw [k3, sizeSum_middle]; simp [hb]
    · rw [k4, sizeSum_middle]; simp [hb]; omega
  · obtain ⟨k1, f1, f2, f3, f4⟩ := place_whole s L R b fl asize h hb ha hsp
    refine ⟨_, _, b.size, k1, by simp, hbok.1, hbok.2.1, by omega, fun h1 => h1, le_refl _,
      fun h1 => absurd h1 hsp, fun _ => rfl, ?_, ?_, ?_, f1, f2, f3, f4, hother⟩
    · intro d hd
      rw [halloc d hd, mem_middle]
    · rw [sizeSum_middle, sizeSum_middle]; simp [hb]
    · rw [sizeSum_middle, sizeSum_middle]; simp [hb]

theorem adjust_spec (n : Nat) (h0 : 0 < n) (hn : n < 2147483648) :
    adjust n % 8 = 0 ∧ 16 ≤ adjust n ∧ n + 8 ≤ adjust n ∧ adjust n < n + 16 ∧
    adjust n ≤ 2147483656 := by
  unfold adjust ALIGNMENT MINBLOCKSIZE WORD
  by_cases h : n ≤ 8
  · rw [if_pos h]; omega
  · rw [if_neg h]
    have e1 : (n + 8 + (8 - 1)) % 4294967296 = n + 15 := by omega
    rw [e1]
    have e2 : 8 * ((n + 15) / 8) % 4294967296 = 8 * ((n + 15) / 8) := by omega
    rw [e2]
    omega

theorem Inv_four (s : State) (bs : List Blk) (fl : List Nat) (v : Nat) (h : Inv s bs fl) :
    Inv { s with four := v } bs fl :=
  ⟨⟨h.core.lo8, h.core.hi32, h.core.small, h.core.brk_le, h.core.pro_h,
    h.core.pro_f, h.core.sent_h, h.core.sent_f,
    h.core.contig, h.core.ok, h.core.epi⟩, h.noadj,
    ⟨h.listed.nodup, h.listed.mem_fl, h.listed.chain⟩⟩

theorem growth_spec (four asize : Nat) (h8 : asize % 8 = 0) (ha : asize < 4294967296) :
    growth four asize = growth four asize / 4 * 4 ∧ growth four asize / 4 % 2 = 0 ∧
    16 ≤ growth four asize ∧ growth four asize < 4294967296 ∧
    (four = 0 → asize ≤ growth four asize) := by
  unfold growth MAX CHUNKSIZE
  by_cases h : four ≠ 0
  · rw [if_pos h]; omega
  · rw [if_neg h]
    by_cases h2 : asize > 4096
    · rw [if_pos h2]; omega
    · rw [if_neg h2]; omega

/-! ### Allocating -/

theorem mm_malloc_hit (s : State) (n r : Nat) (hn : n ≠ 0) (hr : r ≠ 0)
    (hf : find_fit { s with four := four_update s.four n } (adjust n) = some r) :
    mm_malloc s n = some (place { s with four := four_update s.four n } r (adjust n), r) := by
  unfold mm_malloc
  simp only [hn, if_false, hf, hr, ne_eq, not_false_eq_true, if_true]

theorem mm_malloc_miss (s : State) (n : Nat) (hn : n ≠ 0)
    (hf : find_fit { s with four := four_update s.four n } (adjust n) = some 0) :
    mm_malloc s n =
      if (extend_heap { s with four := four_update s.four n }
            (growth (four_update s.four n) (adjust n) / 4)).2 = 0 then
        some ((extend_heap { s with four := four_update s.four n }
            (growth (four_update s.four n) (adjust n) / 4)).1, 0)
      else
        some (place (extend_heap { s with four := four_update s.four n }
                (growth (four_update s.four n) (adjust n) / 4)).1
              (extend_heap { s with four := four_update s.four n }
                (growth (four_update s.four n) (adjust n) / 4)).2 (adjust n),
            (extend_heap { s with four := four_update s.four n }
                (growth (four_update s.four n) (adjust n) / 4)).2) := by
  unfold mm_malloc
  simp only [hn, if_false, hf, ne_eq, not_true_eq_false]
  rfl

/-- A request `0 < n < 2^31` on a well-formed heap: `mm_malloc` returns; the heap stays well
formed; a non-null result is the address of a new allocated block of size `z`. -/
theorem mm_malloc_spec (s : State) (bs : List Blk) (fl : List Nat) (n : Nat)
    (h : Inv s bs fl) (hn0 : 0 < n) (hn : n < 2147483648) :
    ∃ s2 p, mm_malloc s n = some (s2, p) ∧
      s2.four = four_update s.four n ∧ s2.lo = s.lo ∧ s2.hi = s.hi ∧
      (p = 0 → s2 = { s with four := four_update s.four n } ∧
        firstFit s.mem (adjust n) fl = 0 ∧
        s.hi < s.brk + growth (four_update s.four n) (adjust n)) ∧
      (p ≠ 0 → ∃ bs2 fl2 z, Inv s2 bs2 fl2 ∧ (⟨p, z, 1⟩ : Blk) ∈ bs2 ∧
        z % 8 = 0 ∧ 16 ≤ z ∧ z < adjust n + 16 ∧
        (∀ d, d.alloc = 1 → (d ∈ bs2 ↔ d = ⟨p, z, 1⟩ ∨ d ∈ bs)) ∧
        (∀ d ∈ bs, d.alloc = 1 → d.addr ≠ p) ∧
        sizeSum 1 bs2 = sizeSum 1 bs + z ∧
        sizeSum 0 bs2 + z = sizeSum 0 bs + (s2.brk - s.brk) ∧ s.brk ≤ s2.brk ∧
        (firstFit s.mem (adjust n) fl ≠ 0 →
          p = firstFit s.mem (adjust n) fl ∧ s2.brk = s.brk ∧ adjust n ≤ z) ∧
        (firstFit s.mem (adjust n) fl = 0 →
          s2.brk = s.brk + growth (four_update s.four n) (adjust n) ∧
          (four_update s.four n = 0 → adjust n ≤ z))) := by
  obtain ⟨a8, a16, _, _, ale⟩ := adjust_spec n hn0 hn
  have h0 : Inv { s with four := four_update s.four n } bs fl := Inv_four s bs fl _ h
  obtain ⟨ff, fhit, fmiss⟩ := find_fit_spec _ bs fl (adjust n) h0
  have hmem : ({ s with four := four_update s.four n } : State).mem = s.mem := rfl
  rw [hmem] at ff fhit fmiss
  by_cases hfit : firstFit s.mem (adjust n) fl ≠ 0
  · obtain ⟨b, hb, hba, hb0, hsz⟩ := fhit hfit
    rw [← hba] at ff
    have hbne : b.addr ≠ 0 := by rw [hba]; exact hfit
    obtain ⟨bs2, fl2, z, k1, k2, k3, k4, k5, k6, _, _, _, k8, k9, k10, f1, f2, f3, f4, k11⟩ :=
      place_spec _ bs fl b (adjust n) h0 hb hb0 a8 a16 ale
    refine ⟨_, b.addr, mm_malloc_hit s n b.addr (by omega) hbne ff, f4, f1, f2,
      fun e => absurd e hbne,
      fun _ => ⟨bs2, fl2, z, k1, k2, k3, k4, k5, k8, k11, k9, ?_, ?_, ?_, ?_⟩⟩
    · rw [f3]
      show _ = _ + (s.brk - s.brk)
      omega
    · rw [f3]
    · intro _
      exact ⟨hba, f3, k6 hsz⟩
    · intro e
      exact absurd e hfit
  · have hz : firstFit s.mem (adjust n) fl = 0 := by
      by_contra hne
      exact hfit hne
    rw [hz] at ff
    obtain ⟨g1, g2, g3, g4, g5⟩ := growth_spec (four_update s.four n) (adjust n) a8 (by omega)
    obtain ⟨efail, eok⟩ := extend_heap_spec { s with four := four_update s.four n } bs fl
      (growth (four_update s.four n) (adjust n) / 4) (growth (four_update s.four n) (adjust n))
      h0 g1 g2 g3 g4
    rw [mm_malloc_miss s n (by omega) ff]
    by_cases hsb : s.brk + growth (four_update s.four n) (adjust n) ≤ s.hi
    · obtain ⟨bs1, fl1, Y, j1, j2, j3, j4, j5, _, j7, j8, j9, j10, e1, e2, e3, e4⟩ := eok hsb
      rw [if_neg (by rw [j2]; exact j3), j2]
      obtain ⟨bs2, fl2, z, k1, k2, k3, k4, k5, k6, _, _, _, k8, k9, k10, f1, f2, f3, f4, k11⟩ :=
        place_spec _ bs1 _ Y (adjust n) j1 j4 j5 a8 a16 ale
      have hYs := j1.core.size_lt j4
      refine ⟨_, Y.addr, rfl, by rw [f4, e4], by rw [f1, e1], by rw [f2, e2],
        fun e => absurd e j3,
        fun _ => ⟨bs2, fl2, z, k1, k2, k3, k4, k5, ?_, ?_, ?_, ?_, ?_, ?_, ?_⟩⟩
      · intro d hd
        rw [k8 d hd, j8 d hd]
      · intro d hd hd1
        exact k11 d ((j8 d hd1).2 hd) hd1
      · rw [k9, j9]
      · rw [f3, e3]
        show _ = _ + (s.brk + growth (four_update s.four n) (adjust n) - s.brk)
        omega
      · rw [f3, e3]
        show s.brk ≤ s.brk + _
        omega
      · intro e
        exact absurd e hfit
      · intro _
        refine ⟨by rw [f3, e3], ?_⟩
        intro hf0
        have := g5 hf0
        apply k6
        have hb : ({ s with four := four_update s.four n } : State).brk = s.brk := rfl
        rw [hb] at j7
        omega
    · rw [efail hsb]
      simp only [if_true]
      refine ⟨_, 0, rfl, rfl, rfl, rfl, fun _ => ⟨rfl, hz, by omega⟩, fun e => absurd rfl e⟩

/-! ### Initialising the heap -/

theorem mm_init_code (s : State) :
    mm_init s =
      if s.brk + 32 ≤ s.hi then
        (if (extend_heap (initState s) 1024).2 = 0 then ((extend_heap (initState s) 1024).1, -1)
         else ((extend_heap (initState s) 1024).1, 0))
      else ({ s with heap_listp := WORD - 1 }, -1) := by
  unfold mm_init mem_sbrk
  by_cases h : s.brk + 32 ≤ s.hi
  · have e : s.brk + 8 * WSIZE ≤ s.hi := h
    simp only [e, h, if_true]
    have e1 : PACK ALIGNMENT 1 = 9 := by decide
    have e2 : PACK 0 1 = 1 := by decide
    simp only [e1, e2]
    rw [retag_mem _ (s.brk + ALIGNMENT + ALIGNMENT) MINBLOCKSIZE 1 (by decide) (by norm_num)
      (by decide)]
    rfl
  · have e : ¬ s.brk + 8 * WSIZE ≤ s.hi := h
    simp only [e, h, if_false]

theorem initState_inv (s : State) (hf : Fresh s) (h : s.brk + 32 ≤ s.hi) :
    Inv (initState s) [] [] := by
  have he := hf.empty
  have hw : (16 + 1 : Nat) % WORD = 17 := by decide
  have h9 : (9 : Nat) % WORD = 9 := by decide
  refine ⟨⟨hf.lo8, hf.hi32, hf.small, h, ?_, ?_, ?_, ?_, ?_, by simp, ?_⟩, List.chain'_nil,
    ⟨List.nodup_nil, by simp, ?_⟩⟩
  · show GET (PUT (PUT (PUT (PUT (PUT (PUT (PUT _ _ _) _ _) _ _) _ _) _ _) _ _) _ _) (s.lo + 4) = 9
    rw [GET_PUT_ne _ _ _ _ (by omega), GET_PUT_ne _ _ _ _ (by omega),
      GET_PUT_ne _ _ _ _ (by omega), GET_PUT_ne _ _ _ _ (by omega),
      GET_PUT_ne _ _ _ _ (by omega), GET_PUT_ne _ _ _ _ (by omega)]
    have e : s.lo + 4 = s.brk + 4 := by omega
    rw [e, GET_PUT_same, h9]
  · show GET (PUT (PUT (PUT (PUT (PUT (PUT _ _ _) _ _) _ _) _ _) _ _) _ _) (s.lo + 8) = 9
    rw [GET_PUT_ne _ _ _ _ (by omega), GET_PUT_ne _ _ _ _ (by omega),
      GET_PUT_ne _ _ _ _ (by omega), GET_PUT_ne _ _ _ _ (by omega),
      GET_PUT_ne _ _ _ _ (by omega)]
    have e : s.lo + 8 = s.brk + 8 := by omega
    rw [e, GET_PUT_same, h9]
  · show GET (PUT (PUT (PUT (PUT _ _ _) _ _) _ _) _ _) (s.lo + 12) = 17
    rw [GET_PUT_ne _ _ _ _ (by omega), GET_PUT_ne _ _ _ _ (by omega),
      GET_PUT_ne _ _ _ _ (by omega)]
    have e : s.lo + 12 = s.brk + 16 - 4 := by omega
    rw [e, GET_PUT_same, hw]
  · show GET (PUT (PUT (PUT _ _ _) _ _) _ _) (s.lo + 24) = 17
    rw [GET_PUT_ne _ _ _ _ (by omega), GET_PUT_ne _ _ _ _ (by omega)]
    have e : s.lo + 24 = s.brk + 16 + 16 - 8 := by omega
    rw [e, GET_PUT_same, hw]
  · show Contig (s.lo + 32) [] (s.brk + 32)
    show s.lo + 32 = s.brk + 32
    omega
  · show GET (PUT (PUT (PUT (PUT (PUT _ _ _) _ _) _ _) _ _) _ _) (s.brk + 32 - 4) = 1
    rw [GET_PUT_ne _ _ _ _ (by omega), GET_PUT_ne _ _ _ _ (by omega),
      GET_PUT_ne _ _ _ _ (by omega), GET_PUT_ne _ _ _ _ (by omega)]
    have e : s.brk + 32 - 4 = s.brk + 28 := by omega
    rw [e, GET_PUT_same]
    rfl
  · show s.brk + 16 = s.lo + 16
    omega

/-- A successful `mm_init` on a fresh state leaves a well-formed heap with no allocated block
and 4096 free bytes; it succeeds exactly when the area holds `32 + 4096` bytes. -/
theorem mm_init_spec (s : State) (hf : Fresh s) :
    ((mm_init s).2 = 0 ↔ s.lo + 4128 ≤ s.hi) ∧
    ((mm_init s).2 = 0 →
      ∃ bs fl, Inv (mm_init s).1 bs fl ∧ (∀ d, d.alloc = 1 → d ∉ bs) ∧
        sizeSum 1 bs = 0 ∧ sizeSum 0 bs = 4096 ∧
        (mm_init s).1.lo = s.lo ∧ (mm_init s).1.hi = s.hi ∧
        (mm_init s).1.brk = s.lo + 4128 ∧ (mm_init s).1.four = s.four) := by
  have he := hf.empty
  rw [mm_init_code]
  by_cases h : s.brk + 32 ≤ s.hi
  · rw [if_pos h]
    obtain ⟨efail, eok⟩ := extend_heap_spec (initState s) [] [] 1024 4096
      (initState_inv s hf h) (by norm_num) (by norm_num) (by norm_num) (by norm_num)
    have hb : (initState s).brk = s.brk + 32 := rfl
    have hh : (initState s).hi = s.hi := rfl
    rw [hb, hh] at efail eok
    by_cases h2 : s.brk + 32 + 4096 ≤ s.hi
    · obtain ⟨bs2, fl2, Y, j1, j2, j3, j4, j5, _, _, j8, j9, j10, e1, e2, e3, e4⟩ := eok h2
      rw [if_neg (by rw [j2]; exact j3)]
      refine ⟨⟨fun _ => by omega, fun _ => rfl⟩, fun _ => ⟨bs2, _, j1, ?_, ?_, ?_, e1, e2, ?_, e4⟩⟩
      · intro d hd hm
        have := (j8 d hd).1 hm
        simp at this
      · simpa [sizeSum] using j9
      · simpa [sizeSum] using j10
      · rw [e3]; omega
    · rw [efail h2]
      simp only [if_true]
      refine ⟨⟨fun e => ?_, fun e => ?_⟩, fun e => ?_⟩
      · simp at e
      · omega
      · simp at e
  · rw [if_neg h]
    refine ⟨⟨fun e => ?_, fun e => ?_⟩, fun e => ?_⟩
    · simp at e
    · omega
    · simp at e

/-! ### Requests of zero bytes -/

theorem mm_malloc_zero (s : State) : mm_malloc s 0 = some (s, 0) := by
  unfold mm_malloc four_update
  simp

/-! ### Requests of any size -/

theorem adjust_gen (n : Nat) : adjust n % 8 = 0 ∧ adjust n < 4294967296 := by
  unfold adjust ALIGNMENT MINBLOCKSIZE WORD
  by_cases h : n ≤ 8
  · rw [if_pos h]; omega
  · rw [if_neg h]; omega

theorem remove_from_free_brk (s : State) (bp : Nat) :
    (remove_from_free s bp).brk = s.brk ∧ (remove_from_free s bp).lo = s.lo ∧
    (remove_from_free s bp).hi = s.hi ∧ (remove_from_free s bp).four = s.four := by
  unfold remove_from_free
  by_cases h : PREV_FREE s.mem bp ≠ 0
  · simp only [h, ne_eq, not_false_eq_true, if_true, and_self]
  · simp only [h, if_false, and_self]

theorem coalesce_brk (s : State) (bp : Nat) :
    (coalesce s bp).1.brk = s.brk ∧ (coalesce s bp).1.lo = s.lo ∧
    (coalesce s bp).1.hi = s.hi ∧ (coalesce s bp).1.four = s.four := by
  unfold coalesce
  simp only
  split_ifs <;> simp only [add_free, remove_from_free_brk, and_self]

theorem place_brk (s : State) (bp asize : Nat) :
    (place s bp asize).brk = s.brk ∧ (place s bp asize).lo = s.lo ∧
    (place s bp asize).hi = s.hi ∧ (place s bp asize).four = s.four := by
  unfold place
  simp only
  split_ifs <;> simp only [coalesce_brk, remove_from_free_brk, and_self]

/-- Any request `n ≠ 0` on a well-formed heap: `mm_malloc` returns, and it returns `NULL` only
when first fit finds nothing and `mem_sbrk` refuses the growth, in which case only the static
flag has changed. -/
theorem mm_malloc_any (s : State) (bs : List Blk) (fl : List Nat) (n : Nat)
    (h : Inv s bs fl) (hn0 : n ≠ 0) :
    ∃ s2 p, mm_malloc s n = some (s2, p) ∧
      find_fit s (adjust n) = some (firstFit s.mem (adjust n) fl) ∧
      (p = 0 → s2 = { s with four := four_update s.four n } ∧
        firstFit s.mem (adjust n) fl = 0 ∧
        s.hi < s.brk + growth (four_update s.four n) (adjust n)) ∧
      (p ≠ 0 →
        (firstFit s.mem (adjust n) fl ≠ 0 → p = firstFit s.mem (adjust n) fl ∧ s2.brk = s.brk) ∧
        (firstFit s.mem (adjust n) fl = 0 →
          s.brk + growth (four_update s.four n) (adjust n) ≤ s.hi ∧
          s2.brk = s.brk + growth (four_update s.four n) (adjust n))) := by
  obtain ⟨a8, alt⟩ := adjust_gen n
  have h0 : Inv { s with four := four_update s.four n } bs fl := Inv_four s bs fl _ h
  obtain ⟨ff, _, _⟩ := find_fit_spec _ bs fl (adjust n) h0
  obtain ⟨ff0, _, _⟩ := find_fit_spec _ bs fl (adjust n) h
  have hmem : ({ s with four := four_update s.four n } : State).mem = s.mem := rfl
  rw [hmem] at ff
  by_cases hfit : firstFit s.mem (adjust n) fl ≠ 0
  · refine ⟨_, _, mm_malloc_hit s n _ hn0 hfit ff, ff0, fun e => absurd e hfit, fun _ => ?_⟩
    exact ⟨fun _ => ⟨rfl, (place_brk _ _ _).1⟩, fun e => absurd e hfit⟩
  · have hz : firstFit s.mem (adjust n) fl = 0 := by
      by_contra hne
      exact hfit hne
    rw [hz] at ff
    obtain ⟨g1, g2, g3, g4, _⟩ := growth_spec (four_update s.four n) (adjust n) a8 alt
    obtain ⟨efail, eok⟩ := extend_heap_spec { s with four := four_update s.four n } bs fl
      (growth (four_update s.four n) (adjust n) / 4) (growth (four_update s.four n) (adjust n))
      h0 g1 g2 g3 g4
    rw [mm_malloc_miss s n hn0 ff]
    by_cases hsb : s.brk + growth (four_update s.four n) (adjust n) ≤ s.hi
    · obtain ⟨bs1, fl1, Y, j1, j2, j3, _, _, _, _, _, _, _, _, _, e3, _⟩ := eok hsb
      rw [if_neg (by rw [j2]; exact j3), j2]
      refine ⟨_, Y.addr, rfl, ff0, fun e => absurd e j3, fun _ => ⟨fun e => absurd hz e, fun _ => ?_⟩⟩
      refine ⟨hsb, ?_⟩
      rw [(place_brk _ _ _).1, e3]
    · rw [efail hsb]
      simp only [if_true]
      exact ⟨_, 0, rfl, ff0, fun _ => ⟨rfl, hz, by omega⟩, fun e => absurd rfl e⟩

/-! ### Observing a heap -/

theorem scan_contig (m : Mem) (a e : Nat) (bs : List Blk) (fuel : Nat)
    (hc : Contig a bs e) (hok : ∀ b ∈ bs, b.ok m) (hepi : GET_SIZE m (e - 4) = 0)
    (hfuel : bs.length < fuel) : scan m fuel a = bs := by
  induction bs generalizing fuel a with
  | nil =>
    obtain ⟨k, rfl⟩ : ∃ k, fuel = k + 1 := ⟨fuel - 1, by simp at hfuel; omega⟩
    simp only [Contig] at hc
    subst hc
    have e1 : HDRP a = a - 4 := rfl
    simp only [scan, e1, hepi, if_true]
  | cons b bs ih =>
    obtain ⟨k, rfl⟩ : ∃ k, fuel = k + 1 := ⟨fuel - 1, by simp at hfuel; omega⟩
    obtain ⟨h1, h2⟩ := hc
    subst h1
    have hb := hok b (by simp)
    have h16 := hb.2.1
    have hne : ¬ b.size = 0 := by omega
    simp only [scan, hb.hdr_read.1, hb.hdr_read.2, hb.next_blkp, hne, if_false]
    rw [ih _ k h2 (fun d hd => hok d (List.mem_cons_of_mem _ hd)) (by simp at hfuel; omega)]

theorem Contig_length (a e : Nat) (bs : List Blk) (hc : Contig a bs e)
    (h16 : ∀ b ∈ bs, 16 ≤ b.size) : a + 16 * bs.length ≤ e := by
  induction bs generalizing a with
  | nil => simp only [Contig] at hc; simp; omega
  | cons b bs ih =>
    have := ih _ hc.2 (fun d hd => h16 d (List.mem_cons_of_mem _ hd))
    have := h16 b (by simp)
    simp only [List.length_cons]
    omega

theorem free_walk_spec (m : Mem) (t : Nat) (fl : List Nat) (fuel p prev : Nat)
    (c : FSeg m p prev fl t) (hfree : ∀ f ∈ fl, GET_ALLOC m (HDRP f) = 0)
    (ht : GET_ALLOC m (HDRP t) ≠ 0) (hfuel : fl.length < fuel) :
    free_walk m fuel p = some fl := by
  induction fl generalizing fuel p prev with
  | nil =>
    obtain ⟨k, rfl⟩ : ∃ k, fuel = k + 1 := ⟨fuel - 1, by simp at hfuel; omega⟩
    simp only [FSeg] at c
    subst c
    simp [free_walk, ht]
  | cons f fs ih =>
    obtain ⟨k, rfl⟩ : ∃ k, fuel = k + 1 := ⟨fuel - 1, by simp at hfuel; omega⟩
    obtain ⟨h1, _, h3⟩ := c
    subst h1
    have h0 := hfree p (by simp)
    simp only [free_walk, h0, if_true]
    have e : NEXT_FREE m p = GET m p := rfl
    rw [e, ih k _ _ h3 (fun g hg => hfree g (List.mem_cons_of_mem _ hg))
      (by simp at hfuel; omega)]
    rfl

/-- In a well-formed heap the heap scan finds the prologue block, the sentinel block and then
the blocks of the abstract heap, and the free-list walk finds the abstract free list. -/
theorem observe_inv (s : State) (bs : List Blk) (fl : List Nat) (h : Inv s bs fl) :
    heap_blocks s = ⟨s.lo + 8, 8, 1⟩ :: ⟨s.lo + 16, 16, 1⟩ :: bs ∧
    free_nodes s = some fl ∧ free_capacity s = sizeSum 0 bs ∧
    free_blocks s = (bs.filter (fun b => b.alloc = 0)).map (fun b => b.addr) := by
  have c := h.core
  have hle := Contig_le _ _ _ c.contig
  have hlen := Contig_length _ _ _ c.contig (fun b hb => (c.ok b hb).2.1)
  have hb : heap_blocks s = ⟨s.lo + 8, 8, 1⟩ :: ⟨s.lo + 16, 16, 1⟩ :: bs := by
    obtain ⟨k, hk⟩ : ∃ k, s.brk - s.lo = k + 2 := ⟨s.brk - s.lo - 2, by omega⟩
    unfold heap_blocks
    rw [hk]
    have p1 := tag_read s.mem (s.lo + 4) 8 1 c.pro_h (by norm_num) (by norm_num)
    have p2 := tag_read s.mem (s.lo + 12) 16 1 c.sent_h (by norm_num) (by norm_num)
    have e1 : HDRP (s.lo + 8) = s.lo + 4 := by unfold HDRP WSIZE; omega
    have e2 : HDRP (s.lo + 8 + 8) = s.lo + 12 := by unfold HDRP WSIZE; omega
    have e3 : s.lo + 8 + 8 + 16 = s.lo + 32 := by omega
    have e4 : s.lo + 8 + 8 = s.lo + 16 := by omega
    simp only [scan, NEXT_BLKP, e1, p1.1, p1.2, e2, p2.1, p2.2, e3]
    rw [scan_contig s.mem (s.lo + 32) s.brk bs k c.contig c.ok
      (tag_read s.mem (s.brk - 4) 0 1 (by simpa using c.epi) (by norm_num) (by norm_num)).1
      (by omega)]
    simp [e4]
  have hblk : ∀ f ∈ fl, ∃ b ∈ bs, b.addr = f ∧ b.alloc = 0 := fun f hf =>
    (h.listed.mem_fl f).1 hf
  have hrng : ∀ f ∈ fl, s.lo + 32 ≤ f ∧ f < s.brk := by
    intro f hf
    obtain ⟨b, hb, rfl, _⟩ := hblk f hf
    have := c.size_lt hb
    have := (c.ok b hb).2.1
    omega
  have hl := nodup_length_le fl (s.lo + 32) s.brk h.listed.nodup hrng
  have hfree : ∀ f ∈ fl, GET_ALLOC s.mem (HDRP f) = 0 := by
    intro f hf
    obtain ⟨b, hb, rfl, hb0⟩ := hblk f hf
    rw [(c.ok b hb).hdr_read.2, hb0]
  have ht : GET_ALLOC s.mem (HDRP (s.lo + 16)) ≠ 0 := by
    have e : HDRP (s.lo + 16) = s.lo + 12 := by unfold HDRP WSIZE; omega
    rw [e, (tag_read s.mem (s.lo + 12) 16 1 c.sent_h (by norm_num) (by norm_num)).2]
    norm_num
  refine ⟨hb, ?_, ?_, ?_⟩
  · unfold free_nodes
    exact free_walk_spec s.mem (s.lo + 16) fl _ _ 0 h.listed.chain hfree ht (by omega)
  · unfold free_capacity
    rw [hb]
    simp [sizeSum]
  · unfold free_blocks
    rw [hb]
    simp

/-! ### Reallocating -/

theorem memcpy_rd (m : Mem) (dst src n x : Nat) (h : x < dst ∨ dst + n ≤ x) :
    rd (memcpy m dst src n) x = rd m x := by
  induction n generalizing m dst src with
  | zero => rfl
  | succ n ih =>
    show rd (memcpy (wr m dst (rd m src)) (dst + 1) (src + 1) n) x = rd m x
    rw [ih _ _ _ (by omega), rd_wr, if_neg (by omega)]

theorem memcpy_frame (m : Mem) (dst src n q : Nat) (h : q + 4 ≤ dst ∨ dst + n ≤ q) :
    GET (memcpy m dst src n) q = GET m q := by
  unfold GET
  rw [memcpy_rd _ _ _ _ _ (by omega), memcpy_rd _ _ _ _ _ (by omega),
    memcpy_rd _ _ _ _ _ (by omega), memcpy_rd _ _ _ _ _ (by omega)]

theorem toInt_small (x : Nat) (h : x < 2147483648) : toInt x = (x : Int) := by
  unfold toInt WORD
  have e : x % 4294967296 = x := Nat.mod_eq_of_lt (by omega)
  rw [e, if_pos h]

theorem isub_neg (x y : Nat) (hx : x < 2147483648) (hy : y < 2147483648) (h : x < y) :
    isub x y < 0 := by
  unfold isub toInt WORD
  have e1 : x % 4294967296 = x := Nat.mod_eq_of_lt (by omega)
  have e2 : y % 4294967296 = y := Nat.mod_eq_of_lt (by omega)
  rw [e1, e2]
  have e3 : (x + 4294967296 - y) % 4294967296 = x + 4294967296 - y := Nat.mod_eq_of_lt (by omega)
  rw [e3, if_neg (by omega)]
  omega

/-- A request whose adjusted size lies strictly between 16 and `2^31` is itself positive and
below `2^31`. -/
theorem adjust_inv (n : Nat) (hn : n < 4294967296) (h1 : 16 < adjust n)
    (h2 : adjust n < 2147483648) : 0 < n ∧ n < 2147483648 := by
  unfold adjust ALIGNMENT MINBLOCKSIZE WORD at h1 h2
  by_cases h : n ≤ 8
  · rw [if_pos h] at h1; omega
  · rw [if_neg h] at h1 h2
    omega

/-- Tagging as one allocated block `Y` the span of the blocks `ys`, none of which is in the
free list any more. -/
theorem merge_alloc (s1 : State) (Lm ys Rm : List Blk) (Y : Blk) (fl1 : List Nat)
    (c : Core s1 (Lm ++ ys ++ Rm)) (a0 e0 : Nat) (h1 : Contig (s1.lo + 32) Lm a0)
    (h2 : Contig a0 ys e0) (h3 : Contig e0 Rm s1.brk) (hYa : Y.addr = a0)
    (hYe : a0 + Y.size = e0) (hY8 : Y.size % 8 = 0) (hY16 : 16 ≤ Y.size) (hY1 : Y.alloc = 1)
    (hl : Listed s1 (Lm ++ Rm) fl1) (hL : Lm.Chain' adjOK) (hR : Rm.Chain' adjOK) :
    Inv { s1 with mem := (PUT (PUT s1.mem (Y.addr - 4) (Y.size + Y.alloc))
                           (Y.addr + Y.size - 8) (Y.size + Y.alloc)) }
      (Lm ++ Y :: Rm) fl1 := by
  have c2 := retag s1 Lm ys Rm Y c a0 e0 h1 h2 h3 hYa hYe hY8 hY16 (by omega)
  have e : Lm ++ [Y] ++ Rm = Lm ++ Y :: Rm := by simp
  rw [e] at c2
  have g : Geo s1.lo s1.brk (Lm ++ Y :: Rm) fl1 := by
    refine ⟨c2.contig, fun b hb => (c2.ok b hb).2.1, ?_⟩
    intro f hf
    obtain ⟨b, hb, hba, _⟩ := (hl.mem_fl f).1 hf
    exact ⟨b, (mem_middle Lm Rm Y b).2 (Or.inr hb), hba⟩
  have hY : Y ∈ Lm ++ Y :: Rm := by simp
  refine ⟨c2, ?_, ⟨hl.nodup, ?_, ?_⟩⟩
  · refine chain_mid Lm Rm Y hL hR ?_ ?_
    · intro p _; right; omega
    · intro n _; left; omega
  · intro a
    rw [hl.mem_fl]
    constructor
    · rintro ⟨d, hd, hda, hd0⟩
      exact ⟨d, (mem_middle Lm Rm _ d).2 (Or.inr hd), hda, hd0⟩
    · rintro ⟨d, hd, hda, hd0⟩
      rcases (mem_middle Lm Rm _ d).1 hd with rfl | hd
      · omega
      · exact ⟨d, hd, hda, hd0⟩
  · show FSeg (PUT (PUT s1.mem _ _) _ _) s1.free_listp 0 fl1 (s1.lo + 16)
    exact FSeg_PUT_safe _ _ _ _ _ _ _ (g.safe_ftr hY)
      (FSeg_PUT_safe _ _ _ _ _ _ _ (g.safe_hdr hY) hl.chain)

/-- Bytes written inside the payload of an allocated block leave a well-formed heap well
formed. -/
theorem Inv_payload (s : State) (L R : List Blk) (b : Blk) (fl : List Nat) (m2 : Mem)
    (h : Inv s (L ++ b :: R) fl) (hb : b.alloc = 1)
    (hm : ∀ q, q + 4 ≤ b.addr ∨ b.addr + b.size - 8 ≤ q → GET m2 q = GET s.mem q) :
    Inv { s with mem := m2 } (L ++ b :: R) fl := by
  have c := h.core
  obtain ⟨cl, cr, _, _, hL, hR⟩ := Contig_split _ _ _ _ _ c.contig
  have hb16 := (c.ok b (by simp)).2.1
  have hle := Contig_le _ _ _ cl
  have hsz := c.size_lt (b := b) (by simp)
  refine ⟨Core_frame s _ _ c rfl rfl rfl ?_, h.noadj, ⟨h.listed.nodup, h.listed.mem_fl, ?_⟩⟩
  · intro q hq
    apply hm
    rcases hq with rfl | rfl | rfl | rfl | rfl | ⟨d, hd, hq⟩
    · left; omega
    · left; omega
    · left; omega
    · left; omega
    · right; omega
    · rcases (mem_middle L R b d).1 hd with rfl | hd
      · rcases hq with rfl | rfl
        · left; omega
        · right; omega
      · have hd16 := (c.ok d ((mem_middle L R b d).2 (Or.inr hd))).2.1
        rcases List.mem_append.1 hd with hd | hd
        · have := hL d hd
          rcases hq with rfl | rfl <;> (left; omega)
        · have := hR d hd
          rcases hq with rfl | rfl <;> (right; omega)
  · show FSeg m2 s.free_listp 0 fl (s.lo + 16)
    refine FSeg_frame s.mem _ fl _ _ _ ?_ h.listed.chain
    intro f hf
    obtain ⟨d, hd, rfl, hd0⟩ := (h.listed.mem_fl f).1 hf
    have hd16 := (c.ok d hd).2.1
    rcases (mem_middle L R b d).1 hd with rfl | hd
    · omega
    · rcases List.mem_append.1 hd with hd | hd
      · have := hL d hd
        exact ⟨hm _ (by left; omega), hm _ (by left; omega)⟩
      · have := hR d hd
        exact ⟨hm _ (by right; omega), hm _ (by right; omega)⟩

/-- Growing into a free predecessor: `mm_realloc` returns the predecessor's address, where an
allocated block of the combined size now stands; the predecessor has left the free list. -/
theorem realloc_prev (s : State) (L R : List Blk) (p b : Blk) (fl : List Nat) (n : Nat)
    (h : Inv s (L ++ p :: b :: R) fl) (hp0 : p.alloc = 0) (hb1 : b.alloc = 1)
    (hn : n < 4294967296) (hgt : b.size < adjust n) (hfit : adjust n ≤ b.size + p.size) :
    ∃ s2, mm_realloc s b.addr n = some (s2, p.addr) ∧
      Inv s2 (L ++ ⟨p.addr, b.size + p.size, 1⟩ :: R) (fl.erase p.addr) ∧
      s2.brk = s.brk ∧ s2.lo = s.lo ∧ s2.hi = s.hi ∧ s2.four = s.four := by
  have c := h.core
  have hpm : p ∈ L ++ p :: b :: R := by simp
  have hbm : b ∈ L ++ p :: b :: R := by simp
  have hpok := c.ok p hpm
  have hbok := c.ok b hbm
  obtain ⟨cl, cr, _, _, _, _⟩ := Contig_split _ _ _ _ _ c.contig
  have hadj : b.addr = p.addr + p.size := cr.1
  have hps := c.size_lt hpm
  have hbs := c.size_lt hbm
  have hsum : b.size + p.size < 2147483648 := by
    have := c.small
    have := c.brk_le
    omega
  obtain ⟨hn0, hn31⟩ := adjust_inv n hn (by have := hbok.2.1; omega) (by omega)
  obtain ⟨hl1, c1, f1, f2, f3, f4⟩ := remove_block s L (b :: R) p fl h hp0
  have hpok1 := c1.ok p hpm
  have hold : GET_SIZE s.mem (HDRP b.addr) = b.size := hbok.hdr_read.1
  have hpv : PREV_BLKP s.mem b.addr = p.addr := by
    unfold PREV_BLKP ALIGNMENT
    have e : b.addr - 8 = p.addr + p.size - 8 := by omega
    rw [e, hpok.ftr_read.1]
    omega
  have hpv1 : PREV_BLKP (remove_from_free s p.addr).mem b.addr = p.addr := by
    unfold PREV_BLKP ALIGNMENT
    have e : b.addr - 8 = p.addr + p.size - 8 := by omega
    rw [e, hpok1.ftr_read.1]
    omega
  have hpa : GET_ALLOC s.mem (HDRP p.addr) = 0 := by rw [hpok.hdr_read.2, hp0]
  have hpz : GET_SIZE s.mem (HDRP p.addr) = p.size := hpok.hdr_read.1
  have hmod : (b.size + p.size) % WORD = b.size + p.size :=
    Nat.mod_eq_of_lt (by unfold WORD; omega)
  have hti : ¬ toInt n < 0 := by rw [toInt_small n hn31]; omega
  have hdiff : ¬ isub b.size (adjust n) > 0 := by
    have := isub_neg b.size (adjust n) hbs.1 (by omega) hgt
    omega
  have hcode : mm_realloc s b.addr n =
      some ({ (remove_from_free s p.addr) with
        mem := memcpy (PUT (PUT (remove_from_free s p.addr).mem (p.addr - 4)
                  (b.size + p.size + 1)) (p.addr + (b.size + p.size) - 8)
                  (b.size + p.size + 1)) p.addr b.addr b.size }, p.addr) := by
    unfold mm_realloc
    rw [if_neg hti, if_neg (by omega), if_neg (by omega)]
    simp only [hold, hpv, hpa, hpz, hmod, hpv1]
    rw [if_neg (by omega), if_neg hdiff, if_pos ⟨trivial, hfit⟩]
    rw [retag_mem _ p.addr (b.size + p.size) 1 (by have := hpok.1; have := hbok.1; omega)
      (by norm_num) (by unfold WORD; omega)]
  have c1' : Core (remove_from_free s p.addr) (L ++ [p, b] ++ R) := by
    have e : L ++ [p, b] ++ R = L ++ p :: b :: R := by simp
    rw [e]; exact c1
  have hspan : Contig p.addr [p, b] (b.addr + b.size) := by
    refine ⟨rfl, hadj, ?_⟩
    show p.addr + p.size + b.size = b.addr + b.size
    omega
  have cr2 : Contig (b.addr + b.size) R (remove_from_free s p.addr).brk := by
    rw [f3, hadj]; exact cr.2
  have cl2 : Contig ((remove_from_free s p.addr).lo + 32) L p.addr := by
    rw [f1]; exact cl
  have hnoL := chain_left _ _ h.noadj
  have hnoR : R.Chain' adjOK :=
    (List.chain'_cons'.1 (List.chain'_cons'.1 (chain_right _ _ h.noadj)).2).2
  have hl2 : Listed (remove_from_free s p.addr) (L ++ R) (fl.erase p.addr) := by
    refine ⟨hl1.nodup, ?_, hl1.chain⟩
    intro a
    rw [hl1.mem_fl]
    constructor
    · rintro ⟨d, hd, hda, hd0⟩
      rcases (mem_middle L R b d).1 hd with rfl | hd
      · omega
      · exact ⟨d, hd, hda, hd0⟩
    · rintro ⟨d, hd, hda, hd0⟩
      exact ⟨d, (mem_middle L R b d).2 (Or.inr hd), hda, hd0⟩
  have i1 := merge_alloc (remove_from_free s p.addr) L [p, b] R ⟨p.addr, b.size + p.size, 1⟩
    (fl.erase p.addr) c1' p.addr (b.addr + b.size) cl2 hspan cr2 rfl
    (by show p.addr + (b.size + p.size) = b.addr + b.size; omega)
    (by show (b.size + p.size) % 8 = 0; have := hpok.1; have := hbok.1; omega)
    (by show 16 ≤ b.size + p.size; have := hpok.2.1; omega) rfl hl2 hnoL hnoR
  have i2 := Inv_payload _ L R ⟨p.addr, b.size + p.size, 1⟩ (fl.erase p.addr)
    (memcpy (PUT (PUT (remove_from_free s p.addr).mem (p.addr - 4) (b.size + p.size + 1))
      (p.addr + (b.size + p.size) - 8) (b.size + p.size + 1)) p.addr b.addr b.size) i1 rfl (by
      intro q hq
      apply memcpy_frame
      have := hpok.2.1
      have hq' : q + 4 ≤ p.addr ∨ p.addr + (b.size + p.size) - 8 ≤ q := hq
      omega)
  rw [hcode]
  exact ⟨_, rfl, i2, f3, f1, f2, f4⟩

/-- What `mm_realloc` reads about the predecessor of `b` when that predecessor is allocated or
too small to help: the first merge test fails. -/
theorem realloc_prev_no (s : State) (L R : List Blk) (b : Blk) (a : Nat)
    (c : Core s (L ++ b :: R))
    (hprev : ∀ L2 p, L = L2 ++ [p] → p.alloc = 0 → b.size + p.size < a) :
    ¬ (GET_ALLOC s.mem (HDRP (PREV_BLKP s.mem b.addr)) = 0 ∧
      (b.size + GET_SIZE s.mem (HDRP (PREV_BLKP s.mem b.addr))) % WORD ≥ a) := by
  rcases prev_read s L R b c with ⟨_, e1, _, e3⟩ | ⟨L2, p, hL, e1, _, hpok⟩
  · rw [e1, e3]
    rintro ⟨h0, _⟩
    omega
  · rw [e1, hpok.hdr_read.1, hpok.hdr_read.2]
    rintro ⟨h0, h1⟩
    have hlt := hprev L2 p hL h0
    have hpm : p ∈ L ++ b :: R := by simp [hL]
    have := (c.size_lt hpm).1
    have := (c.size_lt (b := b) (by simp)).1
    have hmod : (b.size + p.size) % WORD = b.size + p.size :=
      Nat.mod_eq_of_lt (by unfold WORD; omega)
    rw [hmod] at h1
    omega

/-- Growing into a free successor when the predecessor cannot be used: `mm_realloc` returns
the same address, the block has the combined size, the successor has left the free list. -/
theorem realloc_next (s : State) (L R : List Blk) (b x : Blk) (fl : List Nat) (n : Nat)
    (h : Inv s (L ++ b :: x :: R) fl) (hb1 : b.alloc = 1) (hx0 : x.alloc = 0)
    (hn : n < 4294967296) (hgt : b.size < adjust n)
    (hprev : ∀ L2 p, L = L2 ++ [p] → p.alloc = 0 → b.size + p.size < adjust n)
    (hfit : adjust n ≤ b.size + x.size) :
    ∃ s2, mm_realloc s b.addr n = some (s2, b.addr) ∧
      Inv s2 (L ++ ⟨b.addr, b.size + x.size, 1⟩ :: R) (fl.erase x.addr) ∧
      s2.brk = s.brk ∧ s2.lo = s.lo ∧ s2.hi = s.hi ∧ s2.four = s.four := by
  have c := h.core
  have hxm : x ∈ L ++ b :: x :: R := by simp
  have hbm : b ∈ L ++ b :: x :: R := by simp
  have hxok := c.ok x hxm
  have hbok := c.ok b hbm
  obtain ⟨cl, cr, _, _, _, _⟩ := Contig_split _ _ _ _ _ c.contig
  have hadj : x.addr = b.addr + b.size := cr.1
  have hxs := c.size_lt hxm
  have hbs := c.size_lt hbm
  have hsum : b.size + x.size < 2147483648 := by
    have := c.small
    have := c.brk_le
    omega
  obtain ⟨hn0, hn31⟩ := adjust_inv n hn (by have := hbok.2.1; omega) (by omega)
  have e0 : (L ++ [b]) ++ x :: R = L ++ b :: x :: R := by simp
  obtain ⟨hl1, c1, f1, f2, f3, f4⟩ := remove_block s (L ++ [b]) R x fl (by rw [e0]; exact h) hx0
  rw [e0] at c1
  have hold : GET_SIZE s.mem (HDRP b.addr) = b.size := hbok.hdr_read.1
  have hnx : NEXT_BLKP s.mem b.addr = x.addr := by rw [hbok.next_blkp, hadj]
  have hxa : GET_ALLOC s.mem (HDRP x.addr) = 0 := by rw [hxok.hdr_read.2, hx0]
  have hxz : GET_SIZE s.mem (HDRP x.addr) = x.size := hxok.hdr_read.1
  have hmod : (b.size + x.size) % WORD = b.size + x.size :=
    Nat.mod_eq_of_lt (by unfold WORD; omega)
  have hti : ¬ toInt n < 0 := by rw [toInt_small n hn31]; omega
  have hdiff : ¬ isub b.size (adjust n) > 0 := by
    have := isub_neg b.size (adjust n) hbs.1 (by omega) hgt
    omega
  have hno := realloc_prev_no s L (x :: R) b (adjust n) c hprev
  have hcode : mm_realloc s b.addr n =
      some ({ (remove_from_free s x.addr) with
        mem := (PUT (PUT (remove_from_free s x.addr).mem (b.addr - 4)
                  (b.size + x.size + 1)) (b.addr + (b.size + x.size) - 8)
                  (b.size + x.size + 1)) }, b.addr) := by
    unfold mm_realloc
    rw [if_neg hti, if_neg (by omega), if_neg (by omega)]
    simp only [hold]
    rw [if_neg (by omega), if_neg hdiff, if_neg hno]
    simp only [hnx, hxa, hxz, hmod]
    rw [if_pos ⟨trivial, hfit⟩]
    rw [retag_mem _ b.addr (b.size + x.size) 1 (by have := hxok.1; have := hbok.1; omega)
      (by norm_num) (by unfold WORD; omega)]
  have c1' : Core (remove_from_free s x.addr) (L ++ [b, x] ++ R) := by
    have e : L ++ [b, x] ++ R = L ++ b :: x :: R := by simp
    rw [e]; exact c1
  have hspan : Contig b.addr [b, x] (x.addr + x.size) := by
    refine ⟨rfl, hadj, ?_⟩
    show b.addr + b.size + x.size = x.addr + x.size
    omega
  have cr2 : Contig (x.addr + x.size) R (remove_from_free s x.addr).brk := by
    rw [f3, hadj]; exact cr.2
  have cl2 : Contig ((remove_from_free s x.addr).lo + 32) L b.addr := by
    rw [f1]; exact cl
  have hnoL := chain_left _ _ h.noadj
  have hnoR : R.Chain' adjOK :=
    (List.chain'_cons'.1 (List.chain'_cons'.1 (chain_right _ _ h.noadj)).2).2
  have hl2 : Listed (remove_from_free s x.addr) (L ++ R) (fl.erase x.addr) := by
    refine ⟨hl1.nodup, ?_, hl1.chain⟩
    intro a
    rw [hl1.mem_fl]
    constructor
    · rintro ⟨d, hd, hda, hd0⟩
      have hd' : d ∈ L ++ b :: R := by simpa using hd
      rcases (mem_middle L R b d).1 hd' with rfl | hd
      · omega
      · exact ⟨d, hd, hda, hd0⟩
    · rintro ⟨d, hd, hda, hd0⟩
      have hd' : d ∈ L ++ b :: R := (mem_middle L R b d).2 (Or.inr hd)
      exact ⟨d, by simpa using hd', hda, hd0⟩
  have i1 := merge_alloc (remove_from_free s x.addr) L [b, x] R ⟨b.addr, b.size + x.size, 1⟩
    (fl.erase x.addr) c1' b.addr (x.addr + x.size) cl2 hspan cr2 rfl
    (by show b.addr + (b.size + x.size) = x.addr + x.size; omega)
    (by show (b.size + x.size) % 8 = 0; have := hxok.1; have := hbok.1; omega)
    (by show 16 ≤ b.size + x.size; have := hxok.2.1; omega) rfl hl2 hnoL hnoR
  rw [hcode]
  exact ⟨_, rfl, i1, f3, f1, f2, f4⟩

/-! ### Checking a concrete heap -/

theorem noAdjFree_chain (bs : List Blk) (h : noAdjFree bs = true) : bs.Chain' adjOK := by
  induction bs with
  | nil => exact List.chain'_nil
  | cons x r ih =>
    cases r with
    | nil => exact List.chain'_singleton _
    | cons y r =>
      simp only [noAdjFree, Bool.and_eq_true, Bool.or_eq_true, decide_eq_true_eq] at h
      rw [List.chain'_cons]
      exact ⟨h.1, ih h.2⟩

theorem Inv_of_check (s : State) (bs : List Blk) (fl : List Nat) (h : InvCheck s bs fl) :
    Inv s bs fl := by
  obtain ⟨⟨a1, a2, a3, a4⟩, ⟨t1, t2, t3, t4, t5⟩, hc, hok, hadj, hnd, hfl1, hfl2, hch⟩ := h
  refine ⟨⟨a1, a2, a3, a4, t1, t2, t3, t4, hc, hok, t5⟩, noAdjFree_chain _ hadj,
    ⟨hnd, ?_, hch⟩⟩
  intro a
  constructor
  · exact hfl1 a
  · rintro ⟨b, hb, rfl, hb0⟩
    exact hfl2 b hb hb0

/-! ### Reallocating: the result NULL -/

theorem toInt_nonneg (n : Nat) (hn : n < 4294967296) (h : ¬ toInt n < 0) : n < 2147483648 := by
  unfold toInt WORD at h
  have e : n % 4294967296 = n := Nat.mod_eq_of_lt hn
  rw [e] at h
  by_cases h2 : n < 2147483648
  · exact h2
  · rw [if_neg h2] at h
    omega

/-- On a well-formed heap `mm_realloc` of a live block returns, and it returns `NULL` only
with the heap bytes, the heap extent and the free-list head as they were. -/
theorem realloc_null (s : State) (bs : List Blk) (fl : List Nat) (b : Blk) (n : Nat)
    (h : Inv s bs fl) (hb : b ∈ bs) (hn0 : 0 < n) (hn : n < 4294967296) :
    ∃ s2 q, mm_realloc s b.addr n = some (s2, q) ∧
      (q = 0 → s2.mem = s.mem ∧ s2.brk = s.brk ∧ s2.free_listp = s.free_listp ∧
        s2.lo = s.lo ∧ s2.hi = s.hi ∧ s2.heap_listp = s.heap_listp) := by
  have c := h.core
  obtain ⟨L, R, rfl⟩ := List.append_of_mem hb
  have hbok := c.ok b hb
  have hbs := c.size_lt hb
  have hne : b.addr ≠ 0 := by omega
  have hold : GET_SIZE s.mem (HDRP b.addr) = b.size := hbok.hdr_read.1
  unfold mm_realloc
  by_cases hti : toInt n < 0
  · rw [if_pos hti]
    exact ⟨s, 0, rfl, fun _ => ⟨rfl, rfl, rfl, rfl, rfl, rfl⟩⟩
  · rw [if_neg hti, if_neg (by omega), if_neg hne]
    have hn31 := toInt_nonneg n hn hti
    obtain ⟨_, a16, _, _, _⟩ := adjust_spec n hn0 hn31
    simp only [hold]
    by_cases e1 : adjust n = b.size
    · rw [if_pos e1]
      exact ⟨_, _, rfl, fun e => absurd e hne⟩
    · rw [if_neg e1]
      by_cases e2 : isub b.size (adjust n) > 0
      · rw [if_pos e2]
        by_cases e2b : isub b.size (adjust n) = (MINBLOCKSIZE : Int)
        · rw [if_pos e2b]
          exact ⟨_, _, rfl, fun e => absurd e hne⟩
        · rw [if_neg e2b]
          exact ⟨_, _, rfl, fun e => absurd e hne⟩
      · rw [if_neg e2]
        by_cases e3 : GET_ALLOC s.mem (HDRP (PREV_BLKP s.mem b.addr)) = 0 ∧
            (b.size + GET_SIZE s.mem (HDRP (PREV_BLKP s.mem b.addr))) % WORD ≥ adjust n
        · rw [if_pos e3]
          refine ⟨_, _, rfl, fun e => ?_⟩
          exfalso
          rcases prev_read s L R b c with ⟨_, p1, _, p3⟩ | ⟨L2, p, hL, p1, p2, hpok⟩
          · rw [p1, p3] at e3
            omega
          · subst hL
            rw [p1, hpok.hdr_read.2] at e3
            have hi2 : Inv s (L2 ++ p :: (b :: R)) fl := by
              have e0 : L2 ++ p :: (b :: R) = L2 ++ [p] ++ b :: R := by simp
              rw [e0]; exact h
            obtain ⟨_, c1, _, _, _, _⟩ := remove_block s L2 (b :: R) p fl hi2 e3.1
            have hpm : p ∈ L2 ++ p :: b :: R := by simp
            have hpok1 := c1.ok p hpm
            have hps := c.size_lt (b := p) (by simp)
            have hpv1 : PREV_BLKP (remove_from_free s p.addr).mem b.addr = p.addr := by
              unfold PREV_BLKP ALIGNMENT
              have e : b.addr - 8 = p.addr + p.size - 8 := by omega
              rw [e, hpok1.ftr_read.1]
              omega
            rw [p1, hpv1] at e
            omega
        · rw [if_neg e3]
          by_cases e4 : GET_ALLOC s.mem (HDRP (NEXT_BLKP s.mem b.addr)) = 0 ∧
              (b.size + GET_SIZE s.mem (HDRP (NEXT_BLKP s.mem b.addr))) % WORD ≥ adjust n
          · rw [if_pos e4]
            exact ⟨_, _, rfl, fun e => absurd e hne⟩
          · rw [if_neg e4]
            obtain ⟨s1, p1, hm, _, hz, _⟩ := mm_malloc_any s _ fl (adjust n) h (by omega)
            rw [hm]
            by_cases hp1 : p1 = 0
            · simp only [hp1, if_true]
              refine ⟨_, _, rfl, fun _ => ?_⟩
              rw [(hz hp1).1]
              exact ⟨rfl, rfl, rfl, rfl, rfl, rfl⟩
            · simp only [hp1, if_false]
              exact ⟨_, _, rfl, fun e => absurd e hp1⟩

/-! ### Chains of next links -/

theorem FSeg.nseg (m : Mem) (fl : List Nat) (p prev q : Nat) (h : FSeg m p prev fl q) :
    NSeg m p fl q := by
  induction fl generalizing p prev with
  | nil => exact h
  | cons f fs ih => exact ⟨h.1, ih _ _ h.2.2⟩

theorem find_fit_loop_nseg (m : Mem) (asize t : Nat) (fl : List Nat) (fuel p : Nat)
    (c : NSeg m p fl t) (hfree : ∀ f ∈ fl, GET_ALLOC m (HDRP f) = 0)
    (ht : GET_ALLOC m (HDRP t) ≠ 0) (hfuel : fl.length < fuel) :
    find_fit_loop m asize fuel p = some (firstFit m asize fl) := by
  induction fl generalizing fuel p with
  | nil =>
    obtain ⟨k, rfl⟩ : ∃ k, fuel = k + 1 := ⟨fuel - 1, by simp at hfuel; omega⟩
    simp only [NSeg] at c
    subst c
    simp [find_fit_loop, firstFit, ht]
  | cons f fs ih =>
    obtain ⟨k, rfl⟩ : ∃ k, fuel = k + 1 := ⟨fuel - 1, by simp at hfuel; omega⟩
    obtain ⟨h1, h3⟩ := c
    subst h1
    have h0 := hfree p (by simp)
    simp only [find_fit_loop, firstFit, h0, if_true]
    by_cases hfit : asize ≤ GET_SIZE m (HDRP p)
    · simp [hfit]
    · simp only [hfit, if_false]
      exact ih k _ h3 (fun g hg => hfree g (List.mem_cons_of_mem _ hg))
        (by simp at hfuel; omega)

theorem firstFit_split (m : Mem) (asize : Nat) (fl : List Nat)
    (hne : firstFit m asize fl ≠ 0) :
    ∃ A B, fl = A ++ firstFit m asize fl :: B ∧ (∀ f ∈ A, GET_SIZE m (HDRP f) < asize) ∧
      asize ≤ GET_SIZE m (HDRP (firstFit m asize fl)) := by
  induction fl with
  | nil => exact absurd rfl hne
  | cons f fs ih =>
    by_cases hfit : asize ≤ GET_SIZE m (HDRP f)
    · have e : firstFit m asize (f :: fs) = f := by simp only [firstFit, hfit, if_true]
      rw [e]
      exact ⟨[], fs, rfl, by simp, hfit⟩
    · have e : firstFit m asize (f :: fs) = firstFit m asize fs := by
        simp only [firstFit, hfit, if_false]
      rw [e] at hne ⊢
      obtain ⟨A, B, e, h1, h2⟩ := ih hne
      refine ⟨f :: A, B, by rw [List.cons_append, ← e], ?_, h2⟩
      intro g hg
      rcases List.mem_cons.1 hg with rfl | hg
      · omega
      · exact h1 g hg

/-! ### Steps that keep the heap well formed -/

theorem store_eq (s : State) (p : Nat) (vals : List Nat) :
    store s p vals = { s with mem := (store s p vals).mem } := by
  induction vals generalizing s p with
  | nil => rfl
  | cons v vs ih =>
    show store { s with mem := wr s.mem p v } (p + 1) vs = _
    rw [ih]
    rfl

theorem store_rd (s : State) (p : Nat) (vals : List Nat) (x : Nat)
    (h : x < p ∨ p + vals.length ≤ x) : rd (store s p vals).mem x = rd s.mem x := by
  induction vals generalizing s p with
  | nil => rfl
  | cons v vs ih =>
    show rd (store { s with mem := wr s.mem p v } (p + 1) vs).mem x = _
    rw [ih _ _ (by simp at h; omega)]
    show rd (wr s.mem p v) x = _
    rw [rd_wr, if_neg (by simp at h; omega)]

theorem store_GET (s : State) (p : Nat) (vals : List Nat) (q : Nat)
    (h : q + 4 ≤ p ∨ p + vals.length ≤ q) : GET (store s p vals).mem q = GET s.mem q := by
  unfold GET
  rw [store_rd s p vals q (by omega), store_rd s p vals (q + 1) (by omega),
    store_rd s p vals (q + 2) (by omega), store_rd s p vals (q + 3) (by omega)]

/-- Bytes the application stores inside the payload of an allocated block leave a well-formed
heap well formed, with the same blocks and the same free list. -/
theorem Inv_store (s : State) (bs : List Blk) (fl : List Nat) (b : Blk) (p : Nat)
    (vals : List Nat) (h : Inv s bs fl) (hb : b ∈ bs) (hb1 : b.alloc = 1) (hp : b.addr ≤ p)
    (hlen : p + vals.length ≤ b.addr + b.size - 8) : Inv (store s p vals) bs fl := by
  obtain ⟨L, R, rfl⟩ := List.append_of_mem hb
  rw [store_eq]
  refine Inv_payload s L R b fl _ h hb1 (fun q hq => store_GET s p vals q ?_)
  omega

/-- The steps of a program keep the heap well formed: a successful `mm_init`, `mm_malloc` with
a request below `2^31`, `mm_free` of an allocated block, and stores inside the payload of an
allocated block (the bytes between its header and its footer). -/
theorem Inv_kept :
    (∀ s0, Fresh s0 → (mm_init s0).2 = 0 → ∃ bs fl, Inv (mm_init s0).1 bs fl) ∧
    (∀ s bs fl n, Inv s bs fl → n < 2147483648 →
      ∃ s2 p bs2 fl2, mm_malloc s n = some (s2, p) ∧ Inv s2 bs2 fl2) ∧
    (∀ s bs fl b, Inv s bs fl → b ∈ bs → b.alloc = 1 →
      ∃ bs2 fl2, Inv (mm_free s b.addr) bs2 fl2) ∧
    (∀ s bs fl b p vals, Inv s bs fl → b ∈ bs → b.alloc = 1 → b.addr ≤ p →
      p + vals.length ≤ b.addr + b.size - 8 → Inv (store s p vals) bs fl) := by
  refine ⟨fun s0 hf h0 => ?_, fun s bs fl n h hn => ?_, fun s bs fl b h hb hb1 => ?_,
    fun s bs fl b p vals h hb hb1 hp hlen => Inv_store s bs fl b p vals h hb hb1 hp hlen⟩
  · obtain ⟨bs, fl, hi, _⟩ := (mm_init_spec s0 hf).2 h0
    exact ⟨bs, fl, hi⟩
  · rcases Nat.eq_zero_or_pos n with rfl | hn0
    · exact ⟨s, 0, bs, fl, mm_malloc_zero s, h⟩
    · obtain ⟨s2, p, e, _, _, _, hz, hnz⟩ := mm_malloc_spec s bs fl n h hn0 hn
      by_cases hp : p = 0
      · refine ⟨s2, p, bs, fl, e, ?_⟩
        rw [(hz hp).1]
        exact Inv_four s bs fl _ h
      · obtain ⟨bs2, fl2, _, k1, _⟩ := hnz hp
        exact ⟨s2, p, bs2, fl2, e, k1⟩
  · obtain ⟨L, R, rfl⟩ := List.append_of_mem hb
    obtain ⟨bs2, fl2, Y, j1, _⟩ := mm_free_spec s L R b fl h hb1
    exact ⟨bs2, _, j1⟩

/-! ### The claims -/

/-- C5: in a well-formed heap, `mm_realloc(p, n)` on a block `p` of the heap with `0 < n <
2^32` returns, and if it returns `NULL` then every heap byte (so the header, the footer and the
payload of `p`, and every free-list link), the heap extent and the free-list head are as before
the call. -/
theorem realloc_null_keeps_heap (s : State) (bs : List Blk) (fl : List Nat) (b : Blk) (n : Nat)
    (h : Inv s bs fl) (hb : b ∈ bs) (hb1 : b.alloc = 1) (hn0 : 0 < n) (hn : n < 4294967296) :
    ∃ s2 q, mm_realloc s b.addr n = some (s2, q) ∧
      (q = 0 → s2.mem = s.mem ∧ s2.brk = s.brk ∧ s2.free_listp = s.free_listp ∧
        s2.lo = s.lo ∧ s2.hi = s.hi ∧ s2.heap_listp = s.heap_listp ∧
        GET_ALLOC s2.mem (HDRP b.addr) = 1 ∧ GET_SIZE s2.mem (HDRP b.addr) = b.size) := by
  obtain ⟨s2, q, e, hq⟩ := realloc_null s bs fl b n h hb hn0 hn
  refine ⟨s2, q, e, fun h0 => ?_⟩
  obtain ⟨k1, k2, k3, k4, k5, k6⟩ := hq h0
  have hr := (h.core.ok b hb).hdr_read
  exact ⟨k1, k2, k3, k4, k5, k6, by rw [k1, hr.2, hb1], by rw [k1, hr.1]⟩

/-- C6 (amended): in every well-formed heap, whatever the payloads of its allocated blocks
hold, and for every `n > 0`, `mm_malloc(n)` returns, and it returns `NULL` only when `find_fit`
finds no block and `mem_sbrk` refuses the growth; the state after such a call is the state
before it except for the static flag `four`, which has the value the request gives it. -/
theorem malloc_null_spec (s : State) (bs : List Blk) (fl : List Nat) (n : Nat)
    (hi : Inv s bs fl) (hn0 : 0 < n) :
    ∃ s2 p, mm_malloc s n = some (s2, p) ∧
      (p = 0 → find_fit s (adjust n) = some 0 ∧
        mem_sbrk { s with four := four_update s.four n }
          (growth (four_update s.four n) (adjust n)) = none ∧
        s2 = { s with four := four_update s.four n }) := by
  obtain ⟨s2, p, e, ff, hz, _⟩ := mm_malloc_any s bs fl n hi (by omega)
  refine ⟨s2, p, e, fun h0 => ?_⟩
  obtain ⟨k1, k2, k3⟩ := hz h0
  refine ⟨by rw [ff, k2], ?_, k1⟩
  unfold mem_sbrk
  rw [if_neg (by show ¬ s.brk + _ ≤ s.hi; omega)]

/-- C7: in every allocator state `mm_malloc(0)` returns `NULL` and leaves the whole state,
heap bytes, heap extent, free-list head and static flag, as it was. -/
theorem malloc_zero (s : State) : mm_malloc s 0 = some (s, 0) :=
  mm_malloc_zero s

/-- C8 (amended): for every state and every `0 < n < 2^31`, `mm_realloc(NULL, n)` returns the
same result and the same final state as `mm_malloc(n)`. -/
theorem realloc_null_ptr (s : State) (n : Nat) (hn0 : 0 < n) (hn : n < 2147483648) :
    mm_realloc s 0 n = mm_malloc s n := by
  unfold mm_realloc
  rw [if_neg (by rw [toInt_small n hn]; omega), if_neg (by omega), if_pos rfl]

/-- C9 (amended): in every well-formed heap, whatever the payloads of its allocated blocks
hold, `mm_malloc(1)` returns, and a non-null result is an allocated block whose total size is 16
or 24 bytes. -/
theorem malloc_one_size (s : State) (bs : List Blk) (fl : List Nat) (hi : Inv s bs fl) :
    ∃ s2 p, mm_malloc s 1 = some (s2, p) ∧
      (p ≠ 0 → GET_ALLOC s2.mem (HDRP p) = 1 ∧
        (GET_SIZE s2.mem (HDRP p) = 16 ∨ GET_SIZE s2.mem (HDRP p) = 24)) := by
  obtain ⟨s2, p, e, _, _, _, _, hnz⟩ := mm_malloc_spec s bs fl 1 hi (by norm_num) (by norm_num)
  refine ⟨s2, p, e, fun hp => ?_⟩
  obtain ⟨bs2, fl2, z, k1, k2, k3, k4, k5, _⟩ := hnz hp
  have hr := (k1.core.ok _ k2).hdr_read
  have ha : adjust 1 = 16 := by decide
  rw [ha] at k5
  refine ⟨hr.2, ?_⟩
  rw [hr.1]
  show z = 16 ∨ z = 24
  omega

/-- C10 (amended): in every well-formed heap, whatever the payloads of its allocated blocks
hold, and for every `0 < n < 2^31`, `mm_malloc(n)` returns, and if its result `p` is not `NULL`
then after `mm_free(p)` the total free capacity is its value before the `mm_malloc` call plus
the number of bytes by which that call grew the heap. -/
theorem roundtrip_capacity (s : State) (bs : List Blk) (fl : List Nat) (n : Nat)
    (hi : Inv s bs fl) (hn0 : 0 < n) (hn : n < 2147483648) :
    ∃ s2 p, mm_malloc s n = some (s2, p) ∧ s.brk ≤ s2.brk ∧
      (p ≠ 0 → free_capacity (mm_free s2 p) = free_capacity s + (s2.brk - s.brk)) := by
  obtain ⟨s2, p, e, _, _, _, hz, hnz⟩ := mm_malloc_spec s bs fl n hi hn0 hn
  refine ⟨s2, p, e, ?_, fun hp => ?_⟩
  · by_cases hp : p = 0
    · rw [(hz hp).1]
    · obtain ⟨_, _, _, _, _, _, _, _, _, _, _, _, k, _⟩ := hnz hp
      exact k
  · obtain ⟨bs2, fl2, z, k1, k2, _, _, _, _, _, _, k9, _⟩ := hnz hp
    obtain ⟨L, R, rfl⟩ := List.append_of_mem k2
    obtain ⟨bs3, fl3, Y, j1, _, _, _, _, _, _, _, j8, _⟩ :=
      mm_free_spec s2 L R ⟨p, z, 1⟩ fl2 k1 rfl
    rw [(observe_inv _ _ _ j1).2.2.1, (observe_inv _ _ _ hi).2.2.1, j8]
    rw [sizeSum_middle] at k9
    simp only [one_ne_zero, if_false] at k9
    show sizeSum 0 (L ++ R) + z = _
    omega

/-- C17: for a chain of free blocks `fl` that starts at `free_listp`, follows the next links
and ends at a block `t` marked allocated, and for every adjusted size `a`: the loop of
`find_fit` returns with any fuel above the length of the chain (so `find_fit` returns when the
chain has fewer nodes than the heap has bytes); the result is the first node of the chain whose
block size is at least `a`, and it is `NULL` exactly when no node has such a block. -/
theorem find_fit_first_fit (s : State) (fl : List Nat) (t a : Nat)
    (hc : NSeg s.mem s.free_listp fl t) (hfree : ∀ f ∈ fl, GET_ALLOC s.mem (HDRP f) = 0)
    (ht : GET_ALLOC s.mem (HDRP t) ≠ 0) (h0 : ∀ f ∈ fl, f ≠ 0) :
    ∃ r, (∀ fuel, fl.length < fuel → find_fit_loop s.mem a fuel s.free_listp = some r) ∧
      (fl.length < s.brk - s.lo → find_fit s a = some r) ∧
      (r ≠ 0 → ∃ A B, fl = A ++ r :: B ∧ (∀ f ∈ A, GET_SIZE s.mem (HDRP f) < a) ∧
        a ≤ GET_SIZE s.mem (HDRP r)) ∧
      (r = 0 ↔ ∀ f ∈ fl, GET_SIZE s.mem (HDRP f) < a) := by
  refine ⟨firstFit s.mem a fl, fun fuel hf => find_fit_loop_nseg _ _ _ _ _ _ hc hfree ht hf,
    fun hf => find_fit_loop_nseg _ _ _ _ _ _ hc hfree ht hf, firstFit_split _ _ _, ?_⟩
  obtain ⟨k1, k2⟩ := firstFit_mem s.mem a fl h0
  refine ⟨k2, fun hall => ?_⟩
  by_contra hne
  obtain ⟨hm, hsz⟩ := k1 hne
  have := hall _ hm
  omega

/-- C18 (amended): in every well-formed heap, whatever the payloads of its allocated blocks
hold, and for every `n > 0`, `mm_malloc(n)` returns; when `find_fit` finds no block, the number of bytes asked from
`mem_sbrk` is 1024 if the static flag `four` is set after its update by this request, and
`max(asize(n), 4096)` otherwise: the call returns `NULL` exactly when the heap cannot grow by
that amount, and otherwise the heap has grown by exactly that amount. When a block is found the
heap does not grow. -/
theorem malloc_growth (s : State) (bs : List Blk) (fl : List Nat) (n : Nat)
    (hi : Inv s bs fl) (hn0 : 0 < n) :
    ∃ s2 p, mm_malloc s n = some (s2, p) ∧
      (find_fit s (adjust n) = some 0 →
        (p = 0 ↔ s.hi < s.brk + (if four_update s.four n ≠ 0 then 1024
                                  else MAX (adjust n) CHUNKSIZE)) ∧
        (p ≠ 0 → s2.brk = s.brk + (if four_update s.four n ≠ 0 then 1024
                                    else MAX (adjust n) CHUNKSIZE))) ∧
      (find_fit s (adjust n) ≠ some 0 → p ≠ 0 ∧ s2.brk = s.brk) := by
  obtain ⟨s2, p, e, ff, hz, hnz⟩ := mm_malloc_any s bs fl n hi (by omega)
  refine ⟨s2, p, e, fun hf => ?_, fun hf => ?_⟩
  · have h0 : firstFit s.mem (adjust n) fl = 0 := by
      rw [ff] at hf
      exact Option.some.inj hf
    refine ⟨⟨fun hp => (hz hp).2.2, fun hlt => ?_⟩, fun hp => ((hnz hp).2 h0).2⟩
    by_contra hp
    have := ((hnz hp).2 h0).1
    unfold growth at this
    omega
  · have h0 : firstFit s.mem (adjust n) fl ≠ 0 := by
      intro e0
      rw [ff, e0] at hf
      exact hf rfl
    have hp : p ≠ 0 := fun hp => h0 (hz hp).2.1
    exact ⟨hp, ((hnz hp).1 h0).2⟩

/-- C11: in a well-formed heap, for an allocated block `b` and a request `n < 2^32` whose
adjusted size is greater than the size of `b`: (i) if the physical predecessor `p` is free and
the two sizes together reach the adjusted size, `mm_realloc` returns the address of `p`, which is
the address of `b` minus the size of `p`; the block there is allocated with the combined size,
`p` has left the free list, the heap is well formed and its extent is unchanged; (ii) if the
predecessor is allocated or too small to help, the physical successor `x` is free and the sizes
of `b` and `x` together reach the adjusted size, `mm_realloc` returns the address of `b`; the
block there is allocated with the combined size, `x` has left the free list, the heap is well
formed and its extent is unchanged. -/
theorem realloc_merges (s : State) (bs : List Blk) (fl : List Nat) (b : Blk) (n : Nat)
    (h : Inv s bs fl) (hb1 : b.alloc = 1) (hn : n < 4294967296) (hgt : b.size < adjust n) :
    (∀ L p R, bs = L ++ p :: b :: R → p.alloc = 0 → adjust n ≤ b.size + p.size →
      ∃ s2, mm_realloc s b.addr n = some (s2, p.addr) ∧ p.addr = b.addr - p.size ∧
        Inv s2 (L ++ ⟨p.addr, b.size + p.size, 1⟩ :: R) (fl.erase p.addr) ∧
        s2.brk = s.brk) ∧
    (∀ L x R, bs = L ++ b :: x :: R → x.alloc = 0 →
      (∀ L2 p, L = L2 ++ [p] → p.alloc = 0 → b.size + p.size < adjust n) →
      adjust n ≤ b.size + x.size →
      ∃ s2, mm_realloc s b.addr n = some (s2, b.addr) ∧
        Inv s2 (L ++ ⟨b.addr, b.size + x.size, 1⟩ :: R) (fl.erase x.addr) ∧
        s2.brk = s.brk) := by
  constructor
  · intro L p R e hp0 hfit
    subst e
    obtain ⟨s2, k1, k2, k3, _⟩ := realloc_prev s L R p b fl n h hp0 hb1 hn hgt hfit
    obtain ⟨_, cr, _, _, _, _⟩ := Contig_split _ _ _ _ _ h.core.contig
    have hadj : b.addr = p.addr + p.size := cr.1
    exact ⟨s2, k1, by omega, k2, k3⟩
  · intro L x R e hx0 hprev hfit
    subst e
    obtain ⟨s2, k1, k2, k3, _⟩ := realloc_next s L R b x fl n h hb1 hx0 hn hgt hprev hfit
    exact ⟨s2, k1, k2, k3⟩

/-- C16: in a well-formed heap, `mm_free` of an allocated block `b` leaves a well-formed heap
in which one free block stands for `b` and its free physical neighbours: with both neighbours
allocated (the sentinel block and the epilogue count as allocated) the block `b` itself; with
only the successor `x` free a block at the address of `b` of the two sizes together; with only
the predecessor `p` free a block at the address of `p` of the two sizes together; with both free
a block at the address of `p` of the three sizes together. In every case the free list of the
result is the address of the merged block followed by the old list without the absorbed
neighbours: the merged block is at `free_listp` and occurs once. -/
theorem free_coalesces (s : State) (L R : List Blk) (b : Blk) (fl : List Nat)
    (h : Inv s (L ++ b :: R) fl) (hb : b.alloc = 1) :
    (PrevAlloc L → NextAlloc R →
      Inv (mm_free s b.addr) (L ++ ⟨b.addr, b.size, 0⟩ :: R) (b.addr :: fl)) ∧
    (PrevAlloc L → ∀ x R2, R = x :: R2 → x.alloc = 0 →
      Inv (mm_free s b.addr) (L ++ ⟨b.addr, b.size + x.size, 0⟩ :: R2)
        (b.addr :: fl.erase x.addr)) ∧
    (∀ L2 p, L = L2 ++ [p] → p.alloc = 0 → NextAlloc R →
      Inv (mm_free s b.addr) (L2 ++ ⟨p.addr, b.size + p.size, 0⟩ :: R)
        (p.addr :: fl.erase p.addr)) ∧
    (∀ L2 p x R2, L = L2 ++ [p] → R = x :: R2 → p.alloc = 0 → x.alloc = 0 →
      Inv (mm_free s b.addr) (L2 ++ ⟨p.addr, b.size + (p.size + x.size), 0⟩ :: R2)
        (p.addr :: (fl.erase p.addr).erase x.addr)) ∧
    (∃ bs2 Y rest, Inv (mm_free s b.addr) bs2 (Y :: rest) ∧
      (mm_free s b.addr).free_listp = Y ∧ Y ∉ rest ∧ (mm_free s b.addr).brk = s.brk) := by
  have hbm : b ∈ L ++ b :: R := by simp
  have hlast : ∃ bs2 Y rest, Inv (mm_free s b.addr) bs2 (Y :: rest) ∧
      (mm_free s b.addr).free_listp = Y ∧ Y ∉ rest ∧ (mm_free s b.addr).brk = s.brk := by
    obtain ⟨bs2, fl2, Y, k1, _, _, _, _, _, _, _, _, _, _, _, k13, _⟩ :=
      mm_free_spec s L R b fl h hb
    exact ⟨bs2, Y.addr, fl2, k1, k1.listed.chain.1, (List.nodup_cons.1 k1.listed.nodup).1, k13⟩
  have hcode := mm_free_code s b (h.core.ok b hbm) (h.core.size_lt hbm).1
  have pre := free_pre s L R b fl h hb
  refine ⟨fun hL hR => ?_, fun hL x R2 e hx => ?_, fun L2 p e hp hR => ?_,
    fun L2 p x R2 e1 e2 hp hx => ?_, hlast⟩
  · obtain ⟨e, hinv⟩ := coalesce_NN _ L R ⟨b.addr, b.size, 0⟩ fl pre hL hR
    rw [hcode, e]
    exact hinv
  · subst e
    rw [hcode]
    exact (coalesce_NF _ L R2 ⟨b.addr, b.size, 0⟩ x fl pre hL hx).2.1
  · subst e
    rw [hcode]
    exact (coalesce_FN _ L2 R p ⟨b.addr, b.size, 0⟩ fl pre hp hR).2.1
  · subst e1
    subst e2
    rw [hcode]
    exact (coalesce_FF _ L2 R2 p ⟨b.addr, b.size, 0⟩ x fl pre hp hx).2.1

/-! ### The claims at concrete heaps -/

/-- C1 (failing input): on the heap right after `mm_init`, `mm_malloc(8190)` returns the block
at 4128, marked allocated, of total size 5120, although the adjusted size of 8190 is 8200: the
request sets the static flag, the heap grows by 1024 bytes only, and `place` hands out the whole
block of 4096 + 1024 bytes. -/
theorem malloc_8190_block_too_small :
    adjust 8190 = 8200 ∧ heap_blocks heap0 = [⟨4104, 8, 1⟩, ⟨4112, 16, 1⟩, ⟨4128, 4096, 0⟩] ∧
    (mm_malloc heap0 8190).map (fun r => (r.2, GET_ALLOC r.1.mem (HDRP r.2),
      GET_SIZE r.1.mem (HDRP r.2), r.1.brk - heap0.brk)) = some (4128, 1, 5120, 1024) := by
  decide!

/-- C2 (failing input): after `a = mm_malloc(2^32 - 1)` (adjusted size 8), `b = mm_malloc(1)`,
`c = mm_malloc(1)`, `d = mm_malloc(100)`, `mm_free(a)` and `mm_free(c)`, the live block `b` at
4136 is the head of the free list. The application stores the word 4173 in the payload of `b`
and twelve bytes at offset 1 of the 104-byte payload of `d`; then `mm_malloc(9)` returns 4173,
which is 5 modulo 8, without growing the heap. -/
theorem malloc_returns_misaligned :
    seqAlign.map (fun r => (r.2, r.1.free_listp, GET r.1.mem 4136, GET r.1.mem (HDRP 4168),
      r.1.brk)) = some ([4128, 4136, 4152, 4168], 4136, 4173, 113, 8224) ∧
    seqAlign.bind (fun r => (mm_malloc r.1 9).map (fun q => (q.2, q.2 % 8, q.1.brk))) =
      some (4173, 5, 8224) := by
  decide!

/-- C3 (failing input): after `a = mm_malloc(40)`, `b = mm_malloc(8)`, `c = mm_malloc(8)`,
`d = mm_malloc(8)`, the bytes 1 to 8 stored in the payload of `b`, `mm_free(a)` and
`mm_realloc(c, 16)`, the block `b` at 4176 is allocated with header word 17; the call
`mm_realloc(b, 40)` returns 4224, and the first eight bytes there are 1, 2, 3, 4, 64, 16, 0, 0. -/
theorem realloc_fallback_changes_payload :
    seqRealloc.map (fun r => r.2) = some [4128, 4176, 4192, 4208, 4128] ∧
    seqRealloc.bind (fun r => (mm_realloc r.1 4176 40).map (fun q =>
      (GET r.1.mem (HDRP 4176), bytes r.1.mem 4176 8, q.2, bytes q.1.mem q.2 8))) =
      some (17, [1, 2, 3, 4, 5, 6, 7, 8], 4224, [1, 2, 3, 4, 64, 16, 0, 0]) := by
  decide!

/-- C4 (failing input): after `a = mm_malloc(2^32 - 1)` (adjusted size 8), `b = mm_malloc(1)`,
`c = mm_malloc(1)`, `d = mm_malloc(1)` and `mm_free(a)`, the block `c` at 4152 is allocated with
size 16 and the footer below it is marked allocated; `mm_free(c)` followed by `mm_malloc(1)`,
whose adjusted size is 16, returns 4136, the address of the live block `b`, not 4152. -/
theorem free_malloc_returns_live_block :
    adjust 4294967295 = 8 ∧ adjust 1 = 16 ∧
    seqWrap.map (fun r => (r.2, GET_ALLOC r.1.mem (HDRP 4152), GET_SIZE r.1.mem (HDRP 4152),
      GET_ALLOC r.1.mem (4152 - 8), r.1.brk)) = some ([4128, 4136, 4152, 4168], 1, 16, 1, 8224) ∧
    seqWrap.bind (fun r => (mm_malloc (mm_free r.1 4152) 1).map (fun q => (q.2, q.1.brk))) =
      some (4136, 8224) := by
  decide!

/-- C6 (counterexample): on the heap right after `mm_init` in an area with no room to grow, a
state in which the static flag is 0, `mm_malloc(8190)` returns `NULL` and leaves the static flag
at 1. -/
theorem malloc_null_sets_flag :
    heapFull.four = 0 ∧
    (mm_malloc heapFull 8190).map (fun r => (r.2, r.1.four)) = some (0, 1) := by
  decide!

/-- C8 (counterexample): on the heap right after `mm_init`, `mm_realloc(NULL, 2^32 - 1)`
returns `NULL` while `mm_malloc(2^32 - 1)` returns the address 4128; and `mm_realloc(NULL, 0)`
goes through `mm_free(NULL)` and leaves `free_listp` at `NULL` (the embedding reads the word at
address 0 for the header of `NULL`, the machine reads outside the heap), while `mm_malloc(0)`
leaves it at 4128. -/
theorem realloc_null_ptr_huge :
    (mm_realloc heap0 0 4294967295).map (fun r => r.2) = some 0 ∧
    (mm_malloc heap0 4294967295).map (fun r => r.2) = some 4128 ∧
    (mm_realloc heap0 0 0).map (fun r => (r.2, r.1.free_listp)) = some (0, 0) ∧
    (mm_malloc heap0 0).map (fun r => (r.2, r.1.free_listp)) = some (0, 4128) := by
  decide!

/-- C9 (counterexample): after `a = mm_malloc(16)`, `b = mm_malloc(1)` and `mm_free(a)`, the
call `mm_malloc(1)` returns the block at 4128, allocated, of total size 24. -/
theorem malloc_one_gets_24 :
    seqReuse.map (fun r => r.2) = some [4128, 4152] ∧
    seqReuse.bind (fun r => (mm_malloc r.1 1).map (fun q =>
      (q.2, GET_ALLOC q.1.mem (HDRP q.2), GET_SIZE q.1.mem (HDRP q.2)))) =
      some (4128, 1, 24) := by
  decide!

/-- C10 (counterexample): on the heap right after `mm_init` the free capacity is 4096;
`mm_malloc(5000)` returns 4128, and after `mm_free(4128)` the free capacity is 9104. -/
theorem roundtrip_capacity_grows :
    free_capacity heap0 = 4096 ∧
    (mm_malloc heap0 5000).map (fun r => (r.2, free_capacity (mm_free r.1 r.2))) =
      some (4128, 9104) := by
  decide!

/-- C12 (failing input): after `a = mm_malloc(1)`, `b = mm_malloc(1)` and `mm_realloc(a, 100)`,
which returns 4160, the free-list walk finds the block at 4128 only, while the heap scan finds
the free blocks at 4128 and at 4280. -/
theorem realloc_drops_free_block :
    seqGrow.map (fun r => (r.2, free_nodes r.1, free_blocks r.1)) =
      some ([4128, 4144, 4160], some [4128], [4128, 4280]) := by
  decide!

/-- C13 (failing input): after `a = mm_malloc(24)` and `mm_realloc(a, 1)`, which returns `a`,
the heap scan finds the free block of 16 bytes at 4144 directly followed by the free block of
4064 bytes at 4160. -/
theorem realloc_shrink_adjacent_free :
    seqShrink.map (fun r => (r.2, heap_blocks r.1)) =
      some ([4128, 4128], [⟨4104, 8, 1⟩, ⟨4112, 16, 1⟩, ⟨4128, 16, 1⟩, ⟨4144, 16, 0⟩,
        ⟨4160, 4064, 0⟩]) := by
  decide!

/-- C14 (failing input): after `a = mm_malloc(40)`, `b = mm_malloc(1)`, `c = mm_malloc(1)`,
`mm_realloc(a, 100)` and `mm_realloc(c, 17)`, which returns 4128, the block at 4128 met by the
heap scan has header word 33 and footer word 0, and the scan ends right behind it, far below the
end of the heap at 8224. -/
theorem realloc_overwrites_footer :
    seqTags.map (fun r => (r.2, heap_blocks r.1, GET r.1.mem (HDRP 4128),
      GET r.1.mem (FTRP r.1.mem 4128), tags_agree r.1.mem 4128, r.1.brk)) =
    some ([4128, 4176, 4192, 4208, 4128], [⟨4104, 8, 1⟩, ⟨4112, 16, 1⟩, ⟨4128, 32, 1⟩],
      33, 0, false, 8224) := by
  decide!

/-- C15 (failing input): on the heap right after `mm_init`, `mm_malloc(8190)` returns 4128.
The heap is well formed, with the one block of 5120 bytes at 4128: header word 5121, footer word
5121 at 9240, and the epilogue header 1 at 9244, the last word of the heap. The application then
stores eight zero bytes at offsets 5112 to 5119 of the 8190 bytes it asked for. In the state
reached the block at 4128 has header word 5121 and footer word 0, the last word of the heap is
0, a word of size zero that is not marked allocated, and no block list and free list describe
the heap as well formed. -/
theorem write_in_request_breaks_heap :
    seqBig.map (fun r => r.2) = some [4128] ∧ 5112 + 8 ≤ 8190 ∧
    Inv (stateOf seqBig) [⟨4128, 5120, 1⟩] [] ∧
    (GET (stateOf seqBig).mem (HDRP 4128) = 5121 ∧ FTRP (stateOf seqBig).mem 4128 = 9240 ∧
      GET (stateOf seqBig).mem 9240 = 5121 ∧ (stateOf seqBig).brk = 9248 ∧
      GET (stateOf seqBig).mem 9244 = 1) ∧
    seqFill.map (fun r => r.2) = some [4128] ∧
    (GET (stateOf seqFill).mem (HDRP 4128) = 5121 ∧ FTRP (stateOf seqFill).mem 4128 = 9240 ∧
      GET (stateOf seqFill).mem 9240 = 0 ∧ (stateOf seqFill).brk = 9248 ∧
      GET (stateOf seqFill).mem 9244 = 0) ∧
    tags_agree (stateOf seqFill).mem 4128 = false ∧
    ¬ ∃ bs fl, Inv (stateOf seqFill) bs fl := by
  refine ⟨by decide!, by decide, Inv_of_check _ _ _ (by decide!), by decide!, by decide!,
    by decide!, by decide!, ?_⟩
  rintro ⟨bs, fl, h⟩
  have e := h.core.epi
  have e2 : GET (stateOf seqFill).mem ((stateOf seqFill).brk - 4) = 0 := by decide!
  omega

/-- C18 (counterexample): on the heap right after `mm_init`, whose end is at 8224, `find_fit`
finds no block for the adjusted size 8200 of a request of 8190 bytes; `mm_malloc(8190)` succeeds
with the end of the heap at 9248, a growth of 1024 bytes, not of `max(8200, 4096)`. -/
theorem malloc_grows_1024 :
    find_fit heap0 (adjust 8190) = some 0 ∧ MAX (adjust 8190) CHUNKSIZE = 8200 ∧
    heap0.brk = 8224 ∧
    (mm_malloc heap0 8190).map (fun r => (r.2, r.1.brk)) = some (4128, 9248) := by
  decide!

/-- C19 (failing input): after `a = mm_malloc(1)` and `b = mm_malloc(1)`, the call
`mm_realloc(a, 100)` takes the fallback path and returns 4160 with header word 121 there, the
free list holding the block at 4128 only; the sequence `mm_malloc(100)`, copy, `mm_free(a)` from
the same state returns 4160 with header word 113, the free list holding the blocks at 4128 and
4272; the two heap scans differ from the block at 4160 on. -/
theorem realloc_fallback_differs :
    seqTwo.map (fun r => r.2) = some [4128, 4144] ∧
    seqTwo.bind (fun r => (mm_realloc r.1 4128 100).map (fun q =>
      (q.2, GET q.1.mem (HDRP q.2), free_nodes q.1))) = some (4160, 121, some [4128]) ∧
    seqTwo.bind (fun r => (realloc_as_sequence r.1 4128 100).map (fun q =>
      (q.2, GET q.1.mem (HDRP q.2), free_nodes q.1))) = some (4160, 113, some [4128, 4272]) ∧
    seqTwo.bind (fun r => (mm_realloc r.1 4128 100).map (fun q => heap_blocks q.1)) =
      some [⟨4104, 8, 1⟩, ⟨4112, 16, 1⟩, ⟨4128, 16, 0⟩, ⟨4144, 16, 1⟩, ⟨4160, 120, 1⟩,
        ⟨4280, 3944, 0⟩] ∧
    seqTwo.bind (fun r => (realloc_as_sequence r.1 4128 100).map (fun q => heap_blocks q.1)) =
      some [⟨4104, 8, 1⟩, ⟨4112, 16, 1⟩, ⟨4128, 16, 0⟩, ⟨4144, 16, 1⟩, ⟨4160, 112, 1⟩,
        ⟨4272, 3952, 0⟩] := by
  decide!

/-- C20 (failing input): the adjusted size of a request of `2^32 - 1` bytes is 8 and that of
a request of `2^32 - 8` bytes is 0; on the heap right after `mm_init`, `mm_malloc(2^32 - 1)`
returns the block at 4128 with header word 9, a block of 8 bytes. -/
theorem adjust_wraps :
    adjust 4294967295 = 8 ∧ adjust 4294967288 = 0 ∧
    (mm_malloc heap0 4294967295).map (fun r => (r.2, GET r.1.mem (HDRP r.2))) =
      some (4128, 9) := by
  decide!

/-! ### Witnesses -/

/-- Witness for C5: after two one-byte allocations, `mm_realloc` of the first block to 100000
bytes in an area of 64 KiB. -/
theorem realloc_null_keeps_heap_witness :
    Inv (stateOf seqTwo) [⟨4128, 16, 1⟩, ⟨4144, 16, 1⟩, ⟨4160, 4064, 0⟩] [4160] ∧
    ∃ s2 q, mm_realloc (stateOf seqTwo) 4128 100000 = some (s2, q) ∧
      (q = 0 → s2.mem = (stateOf seqTwo).mem ∧ s2.brk = (stateOf seqTwo).brk ∧
        s2.free_listp = (stateOf seqTwo).free_listp ∧ s2.lo = (stateOf seqTwo).lo ∧
        s2.hi = (stateOf seqTwo).hi ∧ s2.heap_listp = (stateOf seqTwo).heap_listp ∧
        GET_ALLOC s2.mem (HDRP 4128) = 1 ∧ GET_SIZE s2.mem (HDRP 4128) = 16) :=
  ⟨Inv_of_check _ _ _ (by decide!),
    realloc_null_keeps_heap (stateOf seqTwo) [⟨4128, 16, 1⟩, ⟨4144, 16, 1⟩, ⟨4160, 4064, 0⟩]
      [4160] ⟨4128, 16, 1⟩ 100000 (Inv_of_check _ _ _ (by decide!)) (by decide) rfl (by decide)
      (by decide)⟩

/-- Witness for C6: `mm_malloc(8190)` on the heap that cannot grow. -/
theorem malloc_null_spec_witness :
    Inv heapFull [⟨4128, 4096, 0⟩] [4128] ∧ 0 < 8190 ∧
    ∃ s2 p, mm_malloc heapFull 8190 = some (s2, p) ∧
      (p = 0 → find_fit heapFull (adjust 8190) = some 0 ∧
        mem_sbrk { heapFull with four := four_update heapFull.four 8190 }
          (growth (four_update heapFull.four 8190) (adjust 8190)) = none ∧
        s2 = { heapFull with four := four_update heapFull.four 8190 }) :=
  ⟨Inv_of_check _ _ _ (by decide!), by decide,
    malloc_null_spec heapFull [⟨4128, 4096, 0⟩] [4128] 8190 (Inv_of_check _ _ _ (by decide!))
      (by decide)⟩

/-- Witness for C8: a request of one byte on the heap right after `mm_init`. -/
theorem realloc_null_ptr_witness :
    0 < 1 ∧ 1 < 2147483648 ∧ mm_realloc heap0 0 1 = mm_malloc heap0 1 :=
  ⟨by decide, by decide, realloc_null_ptr heap0 1 (by decide) (by decide)⟩

/-- Witness for C9: a heap with a free block of 24 bytes at the head of the free list and a
live block that holds application data. -/
theorem malloc_one_size_witness :
    Inv (stateOf seqData) [⟨4128, 24, 0⟩, ⟨4152, 16, 1⟩, ⟨4168, 4056, 0⟩] [4128, 4168] ∧
    bytes (stateOf seqData).mem 4152 8 = [255, 254, 253, 252, 251, 250, 249, 248] ∧
    ∃ s2 p, mm_malloc (stateOf seqData) 1 = some (s2, p) ∧
      (p ≠ 0 → GET_ALLOC s2.mem (HDRP p) = 1 ∧
        (GET_SIZE s2.mem (HDRP p) = 16 ∨ GET_SIZE s2.mem (HDRP p) = 24)) :=
  ⟨Inv_of_check _ _ _ (by decide!), by decide!,
    malloc_one_size (stateOf seqData) [⟨4128, 24, 0⟩, ⟨4152, 16, 1⟩, ⟨4168, 4056, 0⟩] [4128, 4168]
      (Inv_of_check _ _ _ (by decide!))⟩

/-- Witness for C10: a request of 5000 bytes on a heap with a live block that holds application
data. -/
theorem roundtrip_capacity_witness :
    Inv (stateOf seqData) [⟨4128, 24, 0⟩, ⟨4152, 16, 1⟩, ⟨4168, 4056, 0⟩] [4128, 4168] ∧
    0 < 5000 ∧ 5000 < 2147483648 ∧
    ∃ s2 p, mm_malloc (stateOf seqData) 5000 = some (s2, p) ∧
      (stateOf seqData).brk ≤ s2.brk ∧
      (p ≠ 0 → free_capacity (mm_free s2 p) =
        free_capacity (stateOf seqData) + (s2.brk - (stateOf seqData).brk)) :=
  ⟨Inv_of_check _ _ _ (by decide!), by decide, by decide,
    roundtrip_capacity (stateOf seqData) [⟨4128, 24, 0⟩, ⟨4152, 16, 1⟩, ⟨4168, 4056, 0⟩] [4128, 4168] 5000
      (Inv_of_check _ _ _ (by decide!)) (by decide) (by decide)⟩

/-- Witness for C11: growing the block at 4152 into its free predecessor of 24 bytes, and the
block at 4144 into its free successor of 4064 bytes. -/
theorem realloc_merges_witness :
    (∃ s2, mm_realloc (stateOf seqReuse) 4152 17 = some (s2, 4128) ∧ 4128 = 4152 - 24 ∧
      Inv s2 [⟨4128, 40, 1⟩, ⟨4168, 4056, 0⟩] [4168] ∧ s2.brk = (stateOf seqReuse).brk) ∧
    (∃ s2, mm_realloc (stateOf seqTwo) 4144 100 = some (s2, 4144) ∧
      Inv s2 [⟨4128, 16, 1⟩, ⟨4144, 4080, 1⟩] [] ∧ s2.brk = (stateOf seqTwo).brk) :=
  ⟨(realloc_merges (stateOf seqReuse) [⟨4128, 24, 0⟩, ⟨4152, 16, 1⟩, ⟨4168, 4056, 0⟩]
      [4128, 4168] ⟨4152, 16, 1⟩ 17 (Inv_of_check _ _ _ (by decide!)) rfl (by decide)
      (by decide)).1 [] ⟨4128, 24, 0⟩ [⟨4168, 4056, 0⟩] rfl rfl (by decide),
   (realloc_merges (stateOf seqTwo) [⟨4128, 16, 1⟩, ⟨4144, 16, 1⟩, ⟨4160, 4064, 0⟩]
      [4160] ⟨4144, 16, 1⟩ 100 (Inv_of_check _ _ _ (by decide!)) rfl (by decide)
      (by decide)).2 [⟨4128, 16, 1⟩] ⟨4160, 4064, 0⟩ [] rfl rfl
      (by
        intro L2 p e hp
        have e2 : [(⟨4128, 16, 1⟩ : Blk)] = L2 ++ [p] := e
        have e3 := List.getLast?_eq_some_iff.mpr ⟨L2, e2⟩
        simp at e3
        subst e3
        simp at hp)
      (by decide)⟩

/-- Witness for C16: freeing the block at 4152, whose two neighbours are free. -/
theorem free_coalesces_witness :
    Inv (stateOf seqReuse) [⟨4128, 24, 0⟩, ⟨4152, 16, 1⟩, ⟨4168, 4056, 0⟩] [4128, 4168] ∧
    Inv (mm_free (stateOf seqReuse) 4152) [⟨4128, 4096, 0⟩] [4128] :=
  ⟨Inv_of_check _ _ _ (by decide!),
   (free_coalesces (stateOf seqReuse) [⟨4128, 24, 0⟩] [⟨4168, 4056, 0⟩] ⟨4152, 16, 1⟩
      [4128, 4168] (Inv_of_check _ _ _ (by decide!)) rfl).2.2.2.1 [] ⟨4128, 24, 0⟩
      ⟨4168, 4056, 0⟩ [] rfl rfl rfl rfl⟩

/-- Witness for C17: a free list of two blocks, of 24 and 4056 bytes, searched for 32 bytes. -/
theorem find_fit_first_fit_witness :
    NSeg (stateOf seqReuse).mem (stateOf seqReuse).free_listp [4128, 4168] 4112 ∧
    ∃ r, (∀ fuel, [4128, 4168].length < fuel →
        find_fit_loop (stateOf seqReuse).mem 32 fuel (stateOf seqReuse).free_listp = some r) ∧
      ([4128, 4168].length < (stateOf seqReuse).brk - (stateOf seqReuse).lo →
        find_fit (stateOf seqReuse) 32 = some r) ∧
      (r ≠ 0 → ∃ A B, [4128, 4168] = A ++ r :: B ∧
        (∀ f ∈ A, GET_SIZE (stateOf seqReuse).mem (HDRP f) < 32) ∧
        32 ≤ GET_SIZE (stateOf seqReuse).mem (HDRP r)) ∧
      (r = 0 ↔ ∀ f ∈ [4128, 4168], GET_SIZE (stateOf seqReuse).mem (HDRP f) < 32) :=
  ⟨⟨by decide!, by decide!, (by decide! : GET (stateOf seqReuse).mem 4168 = 4112)⟩,
   find_fit_first_fit (stateOf seqReuse) [4128, 4168] 4112 32
     ⟨by decide!, by decide!, (by decide! : GET (stateOf seqReuse).mem 4168 = 4112)⟩ (by decide!) (by decide!) (by decide)⟩

/-- Witness for C18: a request of 8190 bytes on a heap with a live block that holds application
data. -/
theorem malloc_growth_witness :
    Inv (stateOf seqData) [⟨4128, 24, 0⟩, ⟨4152, 16, 1⟩, ⟨4168, 4056, 0⟩] [4128, 4168] ∧
    0 < 8190 ∧
    ∃ s2 p, mm_malloc (stateOf seqData) 8190 = some (s2, p) ∧
      (find_fit (stateOf seqData) (adjust 8190) = some 0 →
        (p = 0 ↔ (stateOf seqData).hi < (stateOf seqData).brk +
          (if four_update (stateOf seqData).four 8190 ≠ 0 then 1024
            else MAX (adjust 8190) CHUNKSIZE)) ∧
        (p ≠ 0 → s2.brk = (stateOf seqData).brk +
          (if four_update (stateOf seqData).four 8190 ≠ 0 then 1024
            else MAX (adjust 8190) CHUNKSIZE))) ∧
      (find_fit (stateOf seqData) (adjust 8190) ≠ some 0 →
        p ≠ 0 ∧ s2.brk = (stateOf seqData).brk) :=
  ⟨Inv_of_check _ _ _ (by decide!), by decide,
    malloc_growth (stateOf seqData) [⟨4128, 24, 0⟩, ⟨4152, 16, 1⟩, ⟨4168, 4056, 0⟩] [4128, 4168] 8190
      (Inv_of_check _ _ _ (by decide!)) (by decide)⟩

end MM
